import Mathlib

/-!
# Breadth-first solver of `src/ai/ai.c`

A shallow embedding of the search engine of `ai.c` (node construction, the
flattened visited-set key, the FIFO frontier, the main loop of `find_solution`
and `saveSolution`), followed by the properties proved about it.

Modelling conventions

* `char` is a byte, `c_char = Fin 256`; an `int` stored into a `char` is reduced
  modulo 256 (`int_to_char`).
* A row of a map is a C string, represented by the characters that precede its
  terminator, so `strlen` is `List.length`.
* `node_t` values are immutable once built (the program never writes to a node
  after `applyAction` returns), so the parent pointer is embedded as the parent
  value itself; `NULL` is `none`.
* The move executor `execute_move`, the goal test `winning_condition` and the
  constant `INITIAL_CAPACITY` are declared in headers that are not part of
  `ai.c`; they are parameters (`externals`).
* Undefined behaviour (writing outside the `calloc`ed key buffer or outside the
  explored-node array, reading a row that does not exist, dereferencing `NULL`)
  is the result `none`.
* `depth` and the statistics counters are mathematical naturals: wrap-around of
  `int` / `unsigned int` is not modelled.
-/

set_option autoImplicit false

/-! ## Data model -/

/-- One `char` of the C program: a byte. -/
abbrev c_char := Fin 256

/-- Conversion of an `int` to `char` (reduction modulo 256), as performed by the
assignments `char x = ...` of `saveSolution`. -/
def int_to_char (v : Int) : c_char := Fin.ofNat (v % 256).toNat

/-- The type `state_t` of `node.h`: the grid and the player coordinates
(1-indexed column `player_x`, row `player_y`). -/
structure state_t where
  map : List (List c_char)
  player_x : Int
  player_y : Int
deriving DecidableEq, Repr

/-- The fields of `chessformer_t` that `ai.c` reads. -/
structure chessformer_t where
  map : List (List c_char)
  lines : Nat
  num_chars_map : Nat
  player_x : Int
  player_y : Int
  soln : List c_char
deriving DecidableEq, Repr

/-- The type `node_t` of `node.h`. The field `num_childs` is written once and
never read by `ai.c`; it is left out. -/
inductive node_t where
  | mk (depth : Nat) (move_delta_x : Int) (move_delta_y : Int) (state : state_t)
      (parent : Option node_t) : node_t
deriving Repr

namespace node_t

/-- Field `depth`. -/
def depth : node_t → Nat
  | mk d _ _ _ _ => d

/-- Field `move_delta_x`. -/
def move_delta_x : node_t → Int
  | mk _ x _ _ _ => x

/-- Field `move_delta_y`. -/
def move_delta_y : node_t → Int
  | mk _ _ y _ _ => y

/-- Field `state`. -/
def state : node_t → state_t
  | mk _ _ _ s _ => s

/-- Field `parent` (`none` is `NULL`). -/
def parent : node_t → Option node_t
  | mk _ _ _ _ p => p

end node_t

/-- The collaborators of `ai.c` that are declared elsewhere: `execute_move`
mutates the state it is given and reports whether the player moved (here: it
returns the flag and the mutated state), `winning_condition` is the goal test,
`INITIAL_CAPACITY` the initial size of the explored-node array. -/
structure externals where
  execute_move : chessformer_t → state_t → Int → Int → Bool × state_t
  winning_condition : chessformer_t → state_t → Bool
  INITIAL_CAPACITY : Nat

/-! ## Node construction -/

/-- The function `create_init_node`: depth 0, zero move delta, no parent, and a
copy of the first `mapLength` characters of each of the `lines` rows. -/
def create_init_node (chessformer : chessformer_t) : node_t :=
  let mapLength := chessformer.num_chars_map / chessformer.lines
  node_t.mk 0 0 0
    { map := (chessformer.map.take chessformer.lines).map (fun row => row.take mapLength)
      player_x := chessformer.player_x
      player_y := chessformer.player_y }
    none

/-- The function `copy_state`: the first `lines` rows are duplicated (`strlen + 1`
bytes each, that is the whole string), the coordinates are copied. A source
with fewer than `lines` rows is outside the domain of the C function (it
reads `src->map[i]` for every `i < lines`); here the rows that exist are
copied. -/
def copy_state (init_data : chessformer_t) (src : state_t) : state_t :=
  { map := src.map.take init_data.lines
    player_x := src.player_x
    player_y := src.player_y }

/-- The function `create_node`; the move delta is not initialised by it, the only
caller `applyAction` stores it right away, so it is passed here. -/
def create_node (init_data : chessformer_t) (parent : node_t)
    (move_delta_x move_delta_y : Int) : node_t :=
  node_t.mk (parent.depth + 1) move_delta_x move_delta_y
    (copy_state init_data parent.state) (some parent)

/-- The function `applyAction`: builds the child, lets the executor mutate the
child state, returns the executor flag and the child. -/
def applyAction (ext : externals) (init_data : chessformer_t) (n : node_t)
    (move_delta_x move_delta_y : Int) : Bool × node_t :=
  let new_node := create_node init_data n move_delta_x move_delta_y
  let r := ext.execute_move init_data new_node.state move_delta_x move_delta_y
  (r.1, node_t.mk new_node.depth new_node.move_delta_x new_node.move_delta_y r.2
    new_node.parent)

/-! ## The visited-set key -/

/-- The statement `(*dst_map)[current_i] = c`; outside the buffer it is undefined. -/
def write_char (dst : List c_char) (current_i : Nat) (c : c_char) : Option (List c_char) :=
  if current_i < dst.length then some (dst.set current_i c) else none

/-- Inner loop of `flatten_map` over the characters of one row; the accumulator
is the buffer and `current_i`. -/
def flatten_row : List c_char → List c_char × Nat → Option (List c_char × Nat)
  | [], acc => some acc
  | c :: cs, (dst, current_i) =>
    (write_char dst current_i c).bind (fun d => flatten_row cs (d, current_i + 1))

/-- Outer loop of `flatten_map` over `src_map[0 .. lines)`; a missing row is an
out-of-bounds read. -/
def flatten_rows : Nat → List (List c_char) → List c_char × Nat → Option (List c_char × Nat)
  | 0, _, acc => some acc
  | _ + 1, [], _ => none
  | k + 1, row :: rows, acc => (flatten_row row acc).bind (flatten_rows k rows)

/-- The function `flatten_map`: the rows are written one after the other into
`dst_map`, starting at index 0. -/
def flatten_map (init_data : chessformer_t) (dst_map : List c_char)
    (src_map : List (List c_char)) : Option (List c_char) :=
  (flatten_rows init_data.lines src_map (dst_map, 0)).map Prod.fst

/-- The call `calloc(n, sizeof(char))`: `n` zero bytes. -/
def calloc (n : Nat) : List c_char := List.replicate n 0

/-- Modelled from the spec: `hashtable.h` is not part of `ai.c`. The visited set
is a collection of keys with the contract (insert, contains); it is the list of
the keys inserted so far, oldest first. -/
abbrev HashTable := List (List c_char)

/-- Modelled from the spec: `ht_setup` yields the empty visited set. -/
def ht_setup : HashTable := []

/-- Modelled from the spec: `ht_contains` is membership of the key. -/
def ht_contains (table : HashTable) (key : List c_char) : Bool := decide (key ∈ table)

/-- Modelled from the spec: `ht_insert` adds the key; a key already present is
kept once. -/
def ht_insert (table : HashTable) (key : List c_char) : HashTable :=
  if key ∈ table then table else table ++ [key]

/-! ## The frontier queue -/

/-- The linked list `queue_t`: the nodes from head to tail. -/
abbrev queue_t := List node_t

/-- The function `enqueue`: walks to the last cell and links the new one. -/
def enqueue : queue_t → node_t → queue_t
  | [], node => [node]
  | head :: next, node => head :: enqueue next node

/-- The function `dequeue`: the remaining queue and the node of the head cell
(`NULL` for an empty queue). -/
def dequeue : queue_t → queue_t × Option node_t
  | [] => ([], none)
  | head :: next => (next, some head)

/-- The function `is_queue_empty`. -/
def is_queue_empty (head : queue_t) : Bool := head.isEmpty

/-! ## Solution encoder -/

/-- First loop of `saveSolution`: the number of nodes from the given node to the
root, both included. -/
def hierarchyCount : node_t → Nat
  | node_t.mk _ _ _ _ none => 1
  | node_t.mk _ _ _ _ (some p) => hierarchyCount p + 1

/-- Second loop of `saveSolution` from `current` with the counter `left`: a node
with a parent decrements `left` and writes its two characters at `2 * left` and
`2 * left + 1`; the root writes nothing. -/
def saveSolution_fill : node_t → Nat → List c_char → List c_char
  | node_t.mk _ _ _ _ none, _, soln => soln
  | node_t.mk _ dx dy _ (some p), left, soln =>
    let left := left - 1
    let x := int_to_char (p.state.player_x + dx + 96)
    let y := int_to_char (p.state.player_y + dy + 48)
    saveSolution_fill p left ((soln.set (2 * left) x).set (2 * left + 1) y)

/-- The function `saveSolution`: the buffer of `hierarchyCount * 2 + 1` bytes that
is returned. `malloc` leaves the bytes indeterminate; they are zero here, and
every byte up to the terminator is written before the buffer is returned. -/
def saveSolution (finalNode : node_t) : List c_char :=
  let count := hierarchyCount finalNode
  let soln := List.replicate (count * 2 + 1) (0 : c_char)
  let soln := saveSolution_fill finalNode (count - 1) soln
  soln.set (2 * (count - 1)) 0

/-- The C string held by a buffer: the bytes before the first NUL. -/
def c_str (buf : List c_char) : List c_char := buf.takeWhile (fun c => c ≠ 0)

/-! ## The search loop of `find_solution` -/

/-- The integers `lo, lo + 1, ..., hi` visited by `for (v = lo; v <= hi; v++)`. -/
def int_range (lo hi : Int) : List Int :=
  (List.range (hi + 1 - lo).toNat).map (fun (k : Nat) => lo + (k : Int))

/-- The pairs `(move_x, move_y)` for which the body of the two nested loops of
`find_solution` reaches `applyAction`, in the order of the loops: `move_y` from
`1 - player_y` to `lines - player_y`, inside it `move_x` from `1 - player_x` to
`num_chars_map / lines - player_x`, the zero vector skipped by `continue`. -/
def candidate_moves (current_state : chessformer_t) (st : state_t) : List (Int × Int) :=
  (int_range (1 - st.player_y) (current_state.lines - st.player_y)).flatMap (fun move_y =>
    ((int_range (1 - st.player_x)
        (((current_state.num_chars_map / current_state.lines : Nat) : Int) - st.player_x)).filter
      (fun move_x => !(move_x == 0 && move_y == 0))).map (fun move_x => (move_x, move_y)))

/-- The local variables of `find_solution` that live across iterations, and four
event records that are not program variables: `created` (every node returned by
`create_init_node` or `applyAction`), `freed` (the arguments of `free_state`, in
call order), `movedChildren` (calls of `applyAction` that reported movement) and
`htInserts` (calls of `ht_insert`). `exploredNodesArray` holds the entries stored
so far, index 0 first. `solution` is `none` for `NULL`. -/
structure search_t where
  queue : queue_t
  exploredNodesArray : List node_t
  capacity : Nat
  exploredNodes : Nat
  generatedNodes : Nat
  duplicatedNodes : Nat
  solution_size : Nat
  solution : Option (List c_char)
  hashTable : HashTable
  created : List node_t
  freed : List node_t
  movedChildren : Nat
  htInserts : Nat

/-- The state of `find_solution` when the `while` loop is first reached: the root
is enqueued and counted, the visited set is empty. -/
def search_init (ext : externals) (init_data : chessformer_t) : search_t :=
  let initial_node := create_init_node init_data
  { queue := enqueue [] initial_node
    exploredNodesArray := []
    capacity := ext.INITIAL_CAPACITY
    exploredNodes := 0
    generatedNodes := 1
    duplicatedNodes := 0
    solution_size := 0
    solution := none
    hashTable := ht_setup
    created := [initial_node]
    freed := []
    movedChildren := 0
    htInserts := 0 }

/-- Body of the inner `for` loop of `find_solution` for one candidate
`(move_x, move_y)`: the child is built and the move executed; a child that did
not move is freed; a moved child is flattened into a fresh zeroed buffer and is
either enqueued (key inserted, `generatedNodes` incremented) or freed as a
duplicate (`duplicatedNodes` incremented). -/
def process_move (ext : externals) (init_data current_state : chessformer_t)
    (current_node : node_t) (s : search_t) (mv : Int × Int) : Option search_t :=
  let r := applyAction ext current_state current_node mv.1 mv.2
  let player_moved := r.1
  let new_node := r.2
  let s := { s with created := s.created ++ [new_node] }
  if player_moved then
    let s := { s with movedChildren := s.movedChildren + 1 }
    match flatten_map init_data (calloc init_data.num_chars_map) new_node.state.map with
    | none => none
    | some flat_map =>
      if !ht_contains s.hashTable flat_map then
        some { s with
          hashTable := ht_insert s.hashTable flat_map
          htInserts := s.htInserts + 1
          queue := enqueue s.queue new_node
          generatedNodes := s.generatedNodes + 1 }
      else
        some { s with
          duplicatedNodes := s.duplicatedNodes + 1
          freed := s.freed ++ [new_node] }
  else
    some { s with freed := s.freed ++ [new_node] }

/-- The copy `current_state` of `*init_data` with `soln = ""`. -/
def current_state_of (init_data : chessformer_t) : chessformer_t :=
  { init_data with soln := [] }

/-- One iteration of the `while` loop of `find_solution`, entered with a non-empty
queue: dequeue, count and store the node in the explored array (doubling
`capacity` when `exploredNodes` exceeds it), test the goal, and either record
the solution (the `break`) or run the two `for` loops over the candidates. The
store `exploredNodesArray[exploredNodes - 1] = current_node` is defined only
when the index is below the `capacity` slots allocated. -/
def explore_step (ext : externals) (init_data : chessformer_t) (s : search_t) :
    Option search_t :=
  let current_state := current_state_of init_data
  match dequeue s.queue with
  | (_, none) => none
  | (queue, some current_node) =>
    let exploredNodes := s.exploredNodes + 1
    let capacity := if exploredNodes > s.capacity then s.capacity * 2 else s.capacity
    if exploredNodes - 1 < capacity then
      let s := { s with
        queue := queue
        exploredNodes := exploredNodes
        capacity := capacity
        exploredNodesArray := s.exploredNodesArray ++ [current_node] }
      if ext.winning_condition current_state current_node.state then
        some { s with
          solution := some (saveSolution current_node)
          solution_size := current_node.depth }
      else
        (candidate_moves current_state current_node.state).foldlM
          (process_move ext init_data current_state current_node) s
    else none

/-- The loop is left when the queue is empty or when the `break` was taken, which
is exactly when `solution` was assigned (`saveSolution` never returns `NULL`). -/
def loop_done (s : search_t) : Bool := is_queue_empty s.queue || s.solution.isSome

/-- The `while` loop of `find_solution`, run for at most `fuel` iterations; `none`
when the fuel is used up before the loop is left, or on undefined behaviour. -/
def bfs_loop (ext : externals) (init_data : chessformer_t) : Nat → search_t → Option search_t
  | 0, s => if loop_done s then some s else none
  | fuel + 1, s =>
    if loop_done s then some s
    else (explore_step ext init_data s).bind (bfs_loop ext init_data fuel)

/-- The search of `find_solution` from its first statement to the end of the
`while` loop. -/
def find_solution_search (ext : externals) (init_data : chessformer_t) (fuel : Nat) :
    Option search_t :=
  bfs_loop ext init_data fuel (search_init ext init_data)

/-- What `find_solution` has done when it returns: the final search variables
after the clean-up loops (the queue drained into `freed`, then the explored
array freed from the last index down), the text written to `solution.txt`
if any, whether `free(solution)` was executed and whether the statistics
were printed. -/
structure result_t where
  search : search_t
  solution_file : Option (List c_char)
  solution_freed : Bool
  stats_printed : Bool

/-- The clean-up of `find_solution` after the search loop: every node left in the
queue is dequeued and freed, then `exploredNodesArray[exploredNodes - 1 .. 0]`. -/
def cleanup (s : search_t) : search_t :=
  { s with
    queue := []
    freed := s.freed ++ s.queue ++ (s.exploredNodesArray.take s.exploredNodes).reverse }

/-- The function `find_solution`; `fopen_ok` is the outcome of
`fopen("solution.txt", "w")`. The clock, the console output and the optional
playback (`show_solution`, `play_solution`) have no effect on the variables
and are left out. With a solution and a file that cannot be opened
the function returns right after the message, before `free(solution)` and the
statistics. -/
def find_solution (ext : externals) (init_data : chessformer_t) (fopen_ok : Bool)
    (fuel : Nat) : Option result_t :=
  (find_solution_search ext init_data fuel).map (fun s =>
    let s := cleanup s
    match s.solution with
    | some solution =>
      if fopen_ok then
        { search := s, solution_file := some (c_str solution), solution_freed := true
          stats_printed := true }
      else
        { search := s, solution_file := none, solution_freed := false
          stats_printed := false }
    | none =>
      { search := s, solution_file := none, solution_freed := false, stats_printed := true })

/-! ## Notions used to state the properties -/

/-- Order of the enumeration of candidate moves: `move_y` first, then `move_x`. -/
def move_before (a b : Int × Int) : Prop := a.2 < b.2 ∨ (a.2 = b.2 ∧ a.1 < b.1)

/-- The nodes met by walking the parent links of a node: its parent first, the
root last. -/
def ancestors : node_t → List node_t
  | node_t.mk _ _ _ _ none => []
  | node_t.mk _ _ _ _ (some p) => p :: ancestors p

/-- The ancestor chain of a node, root first and the node itself last; the entry
at index `k` is the chain node `k` moves away from the root. -/
def chain : node_t → List node_t
  | node_t.mk d dx dy st none => [node_t.mk d dx dy st none]
  | node_t.mk d dx dy st (some p) => chain p ++ [node_t.mk d dx dy st (some p)]

/-- The column character of the move that produced `n` from `p`. -/
def move_char_x (p n : node_t) : c_char :=
  int_to_char (96 + p.state.player_x + n.move_delta_x)

/-- The row character of the move that produced `n` from `p`. -/
def move_char_y (p n : node_t) : c_char :=
  int_to_char (48 + p.state.player_y + n.move_delta_y)

/-- The character pairs of the moves along the chain of a node, oldest move
first. -/
def solution_chars : node_t → List c_char
  | node_t.mk _ _ _ _ none => []
  | node_t.mk d dx dy st (some p) =>
    solution_chars p ++
      [move_char_x p (node_t.mk d dx dy st (some p)), move_char_y p (node_t.mk d dx dy st (some p))]

/-- Row width `W` of the puzzle instance, the quotient `num_chars_map / lines`
that `ai.c` computes wherever it needs it. -/
def row_width (init_data : chessformer_t) : Nat := init_data.num_chars_map / init_data.lines

/-- A grid has the dimensions of the puzzle instance: `lines` rows of width `W`. -/
def grid_ok (init_data : chessformer_t) (m : List (List c_char)) : Prop :=
  m.length = init_data.lines ∧ ∀ row ∈ m, row.length = row_width init_data

/-- A snapshot has the dimensions of the puzzle instance. -/
def dims_ok (init_data : chessformer_t) (st : state_t) : Prop := grid_ok init_data st.map

/-- The loaded board is usable by `create_init_node`: at least one line (the
width is a division by `lines`), `lines` rows, each with at least `W`
characters to copy. -/
def wf_board (init_data : chessformer_t) : Prop :=
  0 < init_data.lines ∧ init_data.lines ≤ init_data.map.length ∧
    ∀ row ∈ init_data.map, row_width init_data ≤ row.length

/-- The executor works in place on the rows that `copy_state` allocated: it
leaves the number of rows and the width of every row unchanged. -/
def preserves_dims (ext : externals) (init_data : chessformer_t) : Prop :=
  ∀ (st : state_t) (dx dy : Int), dims_ok init_data st →
    dims_ok init_data (ext.execute_move (current_state_of init_data) st dx dy).2

/-- The key under which `find_solution` looks a snapshot up in the visited set:
`flatten_map` applied to a fresh `calloc`ed buffer of `num_chars_map` bytes. -/
def flat_key (init_data : chessformer_t) (st : state_t) : Option (List c_char) :=
  flatten_map init_data (calloc init_data.num_chars_map) st.map

/-- Every node that was ever put into the frontier, in the order of `enqueue`
calls: the explored array (dequeue order) followed by the queue. -/
def enqueued (s : search_t) : List node_t := s.exploredNodesArray ++ s.queue

/-- The nodes the search can build: the root, and every child that `applyAction`
returns with the flag `true` for a candidate move of a node built before. -/
inductive valid_node (ext : externals) (init_data : chessformer_t) : node_t → Prop where
  | root : valid_node ext init_data (create_init_node init_data)
  | child (p : node_t) (mv : Int × Int) :
      valid_node ext init_data p →
      mv ∈ candidate_moves (current_state_of init_data) p.state →
      (applyAction ext (current_state_of init_data) p mv.1 mv.2).1 = true →
      valid_node ext init_data (applyAction ext (current_state_of init_data) p mv.1 mv.2).2

/-- The states of `find_solution` at the iteration boundaries of its `while` loop:
the state on first reaching the loop, and the state after each iteration that
is entered (queue not empty, no `break` yet). -/
inductive run_state (ext : externals) (init_data : chessformer_t) : search_t → Prop where
  | init : run_state ext init_data (search_init ext init_data)
  | step (s s' : search_t) : run_state ext init_data s → loop_done s = false →
      explore_step ext init_data s = some s' → run_state ext init_data s'

/-- Bookkeeping facts that hold at every iteration boundary of the search loop. -/
structure basic_inv (ext : externals) (init_data : chessformer_t) (s : search_t) : Prop where
  explored_count : s.exploredNodes = s.exploredNodesArray.length
  generated_count : (enqueued s).length = s.generatedNodes
  inserts : s.htInserts = s.hashTable.length
  table_nodup : s.hashTable.Nodup
  table_len : ∀ k ∈ s.hashTable, k.length = init_data.num_chars_map
  enq : ∃ children, enqueued s = create_init_node init_data :: children ∧
    children.map (fun n => flat_key init_data n.state) = s.hashTable.map some
  counters : s.duplicatedNodes + (s.generatedNodes - 1) = s.movedChildren
  valid : ∀ n ∈ enqueued s, valid_node ext init_data n
  solved : ∀ buf, s.solution = some buf →
    ∃ g, s.exploredNodesArray.getLast? = some g ∧ buf = saveSolution g ∧
      ext.winning_condition (current_state_of init_data) g.state = true ∧
      s.solution_size = g.depth

/-- The snapshot of the root node: the initial board. -/
def initial_state (init_data : chessformer_t) : state_t := (create_init_node init_data).state

/-- Replays a sequence of moves through the executor: every move must be a
candidate move of the snapshot it is applied to (its destination lies on the
board) and the executor must report movement; `none` otherwise. -/
def run_moves (ext : externals) (init_data : chessformer_t) :
    state_t → List (Int × Int) → Option state_t
  | st, [] => some st
  | st, mv :: rest =>
    if mv ∈ candidate_moves (current_state_of init_data) st then
      let r := ext.execute_move (current_state_of init_data) st mv.1 mv.2
      if r.1 then run_moves ext init_data r.2 rest else none
    else none

/-- The boards that some sequence of moves produces from the initial board. -/
def reachable (ext : externals) (init_data : chessformer_t) (st : state_t) : Prop :=
  ∃ mvs, run_moves ext init_data (initial_state init_data) mvs = some st

/-- The move sequence leads from the initial board to a board that satisfies the
goal test. -/
def reaches_goal (ext : externals) (init_data : chessformer_t) (mvs : List (Int × Int)) : Prop :=
  ∃ t, run_moves ext init_data (initial_state init_data) mvs = some t ∧
    ext.winning_condition (current_state_of init_data) t = true

/-- Among the reachable boards the grid determines the whole snapshot, that is
the player coordinates can be read off the grid. -/
def grid_determines_player (ext : externals) (init_data : chessformer_t) : Prop :=
  ∀ s1 s2, reachable ext init_data s1 → reachable ext init_data s2 → s1.map = s2.map → s1 = s2

/-- Level structure of the search at an iteration boundary, relative to a depth
`d`: explored nodes are at most `d` deep, queued nodes are `d` or `d + 1` deep
and in non-decreasing depth order, and every key of the visited set belongs to
an enqueued node at most `d + 1` deep. -/
structure level_inv (init_data : chessformer_t) (d : Nat) (s : search_t) : Prop where
  explored_le : ∀ e ∈ s.exploredNodesArray, e.depth ≤ d
  queue_ge : ∀ q ∈ s.queue, d ≤ q.depth ∧ q.depth ≤ d + 1
  queue_sorted : s.queue.Pairwise (fun a b => a.depth ≤ b.depth)
  table : ∀ k ∈ s.hashTable, ∃ n ∈ enqueued s,
    flat_key init_data n.state = some k ∧ n.depth ≤ d + 1

/-- The move `mv` of the node `e` is accounted for: if its child moved, a node
with the key of that child, at most one level below `e`, has been enqueued. -/
def closed_for (ext : externals) (init_data : chessformer_t) (s : search_t) (e : node_t)
    (mv : Int × Int) : Prop :=
  (applyAction ext (current_state_of init_data) e mv.1 mv.2).1 = true →
    ∃ n ∈ enqueued s,
      flat_key init_data n.state =
        flat_key init_data (applyAction ext (current_state_of init_data) e mv.1 mv.2).2.state ∧
      (flat_key init_data n.state).isSome ∧ n.depth ≤ e.depth + 1

/-- While no goal has been found: no explored node satisfies the goal test, and
every candidate move of every explored node is accounted for. -/
structure complete_inv (ext : externals) (init_data : chessformer_t) (s : search_t) : Prop where
  not_goal : ∀ e ∈ s.exploredNodesArray,
    ext.winning_condition (current_state_of init_data) e.state = false
  closed : ∀ e ∈ s.exploredNodesArray,
    ∀ mv ∈ candidate_moves (current_state_of init_data) e.state, closed_for ext init_data s e mv

/-- Decoding of a solution string: each pair of characters is a destination
cell, `x` = first character minus the backquote and `y` = second character
minus the digit zero. -/
def decode_solution : List c_char → List (Int × Int)
  | x :: y :: rest => ((x.val : Int) - 96, (y.val : Int) - 48) :: decode_solution rest
  | _ => []

/-- Replays destination cells through the executor: each destination is turned
into the delta from the current player position; `none` as soon as a move
reports no movement. -/
def replay_solution (ext : externals) (init_data : chessformer_t) :
    state_t → List (Int × Int) → Option state_t
  | st, [] => some st
  | st, dest :: rest =>
    let r := ext.execute_move (current_state_of init_data) st
      (dest.1 - st.player_x) (dest.2 - st.player_y)
    if r.1 then replay_solution ext init_data r.2 rest else none

/-! ## Concrete boards and executors

Small instances on which the definitions above are evaluated. The cells are
`@` (64) for the player, `$` (36) for a piece and `.` (46) for free floor. -/

/-- The cell at column `x`, row `y` (1-indexed); NUL outside the grid. -/
def get_cell (m : List (List c_char)) (x y : Int) : c_char :=
  (m.getD (y - 1).toNat []).getD (x - 1).toNat 0

/-- The grid with the cell at column `x`, row `y` replaced. -/
def set_cell (m : List (List c_char)) (x y : Int) (c : c_char) : List (List c_char) :=
  m.set (y - 1).toNat ((m.getD (y - 1).toNat []).set (x - 1).toNat c)

/-- An executor that jumps onto a piece: the move succeeds exactly when the
destination holds `$`; the player marker is moved there. -/
def capture_move (_ : chessformer_t) (st : state_t) (dx dy : Int) : Bool × state_t :=
  if get_cell st.map (st.player_x + dx) (st.player_y + dy) = 36 then
    (true,
      { map := set_cell (set_cell st.map st.player_x st.player_y 46)
          (st.player_x + dx) (st.player_y + dy) 64
        player_x := st.player_x + dx
        player_y := st.player_y + dy })
  else (false, st)

/-- An executor that walks: the move succeeds exactly when it is one orthogonal
step onto free floor or onto a piece; the player marker is moved there. -/
def walk_move (_ : chessformer_t) (st : state_t) (dx dy : Int) : Bool × state_t :=
  if dx.natAbs + dy.natAbs = 1 ∧
      (get_cell st.map (st.player_x + dx) (st.player_y + dy) = 46 ∨
        get_cell st.map (st.player_x + dx) (st.player_y + dy) = 36) then
    (true,
      { map := set_cell (set_cell st.map st.player_x st.player_y 46)
          (st.player_x + dx) (st.player_y + dy) 64
        player_x := st.player_x + dx
        player_y := st.player_y + dy })
  else (false, st)

/-- An executor that keeps no player marker in the grid: every move succeeds and
only the coordinates change. -/
def blind_move (_ : chessformer_t) (st : state_t) (dx dy : Int) : Bool × state_t :=
  (true, { st with player_x := st.player_x + dx, player_y := st.player_y + dy })

/-- Goal test: no `$` is left in the grid. -/
def no_piece (_ : chessformer_t) (st : state_t) : Bool :=
  st.map.all (fun row => row.all (fun c => c != 36))

/-- Goal test: the player stands in column 3. -/
def at_column_three (_ : chessformer_t) (st : state_t) : Bool := st.player_x == 3

/-- Capturing executor with the goal test `no_piece`. -/
def capture_ext : externals :=
  { execute_move := capture_move, winning_condition := no_piece, INITIAL_CAPACITY := 2 }

/-- Walking executor with the goal test `no_piece`. -/
def walk_ext : externals :=
  { execute_move := walk_move, winning_condition := no_piece, INITIAL_CAPACITY := 2 }

/-- Marker-free executor with the goal test `at_column_three`. -/
def blind_ext : externals :=
  { execute_move := blind_move, winning_condition := at_column_three, INITIAL_CAPACITY := 2 }

/-- The board `@$`: one row, two columns, the player in column 1 next to the only
piece. -/
def trivial_board : chessformer_t :=
  { map := [[64, 36]], lines := 1, num_chars_map := 2, player_x := 1, player_y := 1, soln := [] }

/-- The board `@..$`: one row, four columns. -/
def corridor_board : chessformer_t :=
  { map := [[64, 46, 46, 36]], lines := 1, num_chars_map := 4, player_x := 1, player_y := 1
    soln := [] }

/-- The board `...`: one row of three free cells, the player at column 1. -/
def open_board : chessformer_t :=
  { map := [[46, 46, 46]], lines := 1, num_chars_map := 3, player_x := 1, player_y := 1
    soln := [] }

/-- One row of 160 columns: the player in column 1, free floor, and the only
piece in column 160. -/
def wide_board : chessformer_t :=
  { map := [64 :: (List.replicate 158 46 ++ [36])], lines := 1, num_chars_map := 160
    player_x := 1, player_y := 1, soln := [] }

/-! ## Further notions used to state the properties -/

/-- Node bookkeeping at an iteration boundary: the nodes created so far are,
up to order, the nodes in the queue, in the explored array and the nodes
already freed; no node was created twice; the parent of every created node
is in the explored array. -/
structure release_inv (s : search_t) : Prop where
  partition : List.Perm s.created (s.queue ++ s.exploredNodesArray ++ s.freed)
  nodup : s.created.Nodup
  parents : ∀ c ∈ s.created, ∀ p, c.parent = some p → p ∈ s.exploredNodesArray

/-- The cell `map[i][j]` of a loaded board, rows and columns counted from 0;
NUL where the board has no such cell. -/
def board_cell (chessformer : chessformer_t) (i j : Nat) : c_char :=
  (chessformer.map.getD i []).getD j 0

/-- The read `chessformer.map[i][j]`: a character of row `i`, or the terminator
that follows the characters of the row; any other read is undefined. -/
def read_cell (chessformer : chessformer_t) (i j : Nat) : Option c_char :=
  match chessformer.map[i]? with
  | none => none
  | some row => if j < row.length then row[j]? else if j = row.length then some 0 else none

/-- Inner loop of `winning_state` on row `i`, at column `j` with `k` columns to
go: `false` is returned at the first `$` (36). -/
def winning_row (chessformer : chessformer_t) (i : Nat) : Nat → Nat → Option Bool
  | 0, _ => some true
  | k + 1, j =>
    match read_cell chessformer i j with
    | none => none
    | some c => if c = 36 then some false else winning_row chessformer i k (j + 1)

/-- Outer loop of `winning_state`, at row `i` with `k` rows to go; `width` is
the bound `num_chars_map / lines` of the inner loop. -/
def winning_rows (chessformer : chessformer_t) (width : Nat) : Nat → Nat → Option Bool
  | 0, _ => some true
  | k + 1, i =>
    match winning_row chessformer i width 0 with
    | none => none
    | some false => some false
    | some true => winning_rows chessformer width k (i + 1)

/-- The function `winning_state`: the two loops over `i < lines` and
`j < num_chars_map / lines` return `false` at the first cell that holds `$`,
and `true` is returned after the loops. -/
def winning_state (chessformer : chessformer_t) : Option Bool :=
  winning_rows chessformer (chessformer.num_chars_map / chessformer.lines) chessformer.lines 0

/-- Successive calls `head = enqueue(head, n)` for the nodes of a list, in
order. -/
def enqueue_all (head : queue_t) (nodes : List node_t) : queue_t := nodes.foldl enqueue head

/-- The results of `k` successive calls `head = dequeue(head, &node)`: the nodes
returned, in call order (`none` for `NULL`), and the queue that is left. -/
def dequeue_many : Nat → queue_t → List (Option node_t) × queue_t
  | 0, head => ([], head)
  | k + 1, head =>
    ((dequeue head).2 :: (dequeue_many k (dequeue head).1).1,
      (dequeue_many k (dequeue head).1).2)

/-- The board `@.#$`: one row, four columns, a wall (`#`, 35) between the free
cell and the only piece. -/
def wall_board : chessformer_t :=
  { map := [[64, 46, 35, 36]], lines := 1, num_chars_map := 4, player_x := 1, player_y := 1
    soln := [] }

/-! ## Rows in memory

`copy_state` and the in-place writes of the executor on an explicit memory of
row buffers, to state that a child shares no row with its parent. -/

/-- The row buffers allocated so far; the address of a buffer is its index. -/
abbrev row_heap := List (List c_char)

/-- A `state_t` as it is stored: `map[i]` is the address of the buffer of row
`i`. -/
structure state_ptr where
  map : List Nat
  player_x : Int
  player_y : Int

/-- The snapshot that a stored state holds in a given memory. -/
def load_state (heap : row_heap) (p : state_ptr) : state_t :=
  { map := p.map.map (fun a => heap.getD a [])
    player_x := p.player_x
    player_y := p.player_y }

/-- The function `copy_state` on memory: for every `i < lines` a new buffer is
allocated (`malloc` returns the next unused address) and receives a copy of
the source row `i`; the coordinates are copied. -/
def copy_state_mem (init_data : chessformer_t) (heap : row_heap) (src : state_ptr) :
    row_heap × state_ptr :=
  let rows := (src.map.take init_data.lines).map (fun a => heap.getD a [])
  (heap ++ rows,
    { map := (List.range rows.length).map (fun (i : Nat) => heap.length + i)
      player_x := src.player_x
      player_y := src.player_y })

/-- The writes of an executor through the `state_t *` it is given: row `i` of
the mutated snapshot is stored in the buffer at `map[i]`. -/
def store_rows : row_heap → List Nat → List (List c_char) → row_heap
  | heap, a :: addrs, row :: rows => store_rows (heap.set a row) addrs rows
  | heap, _, _ => heap

/-- The function `applyAction` on memory: the child state is a copy in new
buffers, the executor reads and mutates the child state in place. The result
is the executor flag, the memory afterwards and the stored child state. -/
def applyAction_mem (ext : externals) (init_data : chessformer_t) (heap : row_heap)
    (parent : state_ptr) (move_delta_x move_delta_y : Int) : Bool × row_heap × state_ptr :=
  let c := copy_state_mem init_data heap parent
  let r := ext.execute_move init_data (load_state c.1 c.2) move_delta_x move_delta_y
  (r.1, store_rows c.1 c.2.map r.2.map,
    { map := c.2.map, player_x := r.2.player_x, player_y := r.2.player_y })

/-- A sequence of `applyAction` calls on memory, each on some stored parent
state with some delta; the result is the memory after the last call. -/
def run_actions_mem (ext : externals) (init_data : chessformer_t) :
    row_heap → List (state_ptr × Int × Int) → row_heap
  | heap, [] => heap
  | heap, c :: calls =>
    run_actions_mem ext init_data (applyAction_mem ext init_data heap c.1 c.2.1 c.2.2).2.1 calls

/-! ## The explored-node array as allocated

In `search_t` the explored nodes are the list of the entries stored so far. The
definitions below follow lines 268-278 of `find_solution` on an array of
`capacity` slots, where a store outside the allocation is undefined. -/

/-- The allocated array `exploredNodesArray`: one entry per slot, `none` for a
slot that has not been written. -/
abbrev explored_array := List (Option node_t)

/-- The call `malloc(capacity * sizeof(node_t*))`. -/
def malloc_array (capacity : Nat) : explored_array := List.replicate capacity none

/-- The call `realloc(array, capacity * sizeof(node_t*))`: the old entries are
kept (up to the new size), the new slots are unwritten. -/
def realloc_array (arr : explored_array) (capacity : Nat) : explored_array :=
  arr.take capacity ++ List.replicate (capacity - arr.length) none

/-- The statement `exploredNodesArray[i] = current_node`; outside the
allocation it is undefined. -/
def store_explored (arr : explored_array) (i : Nat) (current_node : node_t) :
    Option explored_array :=
  if i < arr.length then some (arr.set i (some current_node)) else none

/-- The state of the explored store: `exploredNodes`, `capacity` and the array. -/
structure explored_store where
  exploredNodes : Nat
  capacity : Nat
  exploredNodesArray : explored_array

/-- The store before the loop: no explored node, `INITIAL_CAPACITY` slots. -/
def explored_store_init (ext : externals) : explored_store :=
  { exploredNodes := 0
    capacity := ext.INITIAL_CAPACITY
    exploredNodesArray := malloc_array ext.INITIAL_CAPACITY }

/-- Lines 268-278 of `find_solution` for one dequeued node: the counter is
incremented, the capacity doubles if the counter exceeds it, and the node is
stored at index `exploredNodes - 1`. -/
def record_explored (st : explored_store) (current_node : node_t) : Option explored_store :=
  let exploredNodes := st.exploredNodes + 1
  let grow := decide (exploredNodes > st.capacity)
  let capacity := if grow then st.capacity * 2 else st.capacity
  let arr := if grow then realloc_array st.exploredNodesArray capacity else st.exploredNodesArray
  (store_explored arr (exploredNodes - 1) current_node).map (fun a =>
    { exploredNodes := exploredNodes, capacity := capacity, exploredNodesArray := a })

/-- The explored store after the nodes of a list have been dequeued in order. -/
def record_all (ext : externals) (nodes : List node_t) : Option explored_store :=
  nodes.foldlM record_explored (explored_store_init ext)

/-! ## Iteration boundaries by number -/

/-- The state at the iteration boundary after `k` iterations of the `while`
loop of `find_solution`; `none` if the loop is left earlier or an iteration
is undefined. -/
def state_after (ext : externals) (init_data : chessformer_t) : Nat → Option search_t
  | 0 => some (search_init ext init_data)
  | k + 1 =>
    (state_after ext init_data k).bind (fun s =>
      if loop_done s then none else explore_step ext init_data s)

/-- The board of two rows `@.` and `.$`, the player in the upper left corner. -/
def square_board : chessformer_t :=
  { map := [[64, 46], [46, 36]], lines := 2, num_chars_map := 4, player_x := 1, player_y := 1
    soln := [] }

/-! ## Field access on built nodes -/

@[simp] theorem node_t.depth_mk (d : Nat) (x y : Int) (s : state_t) (p : Option node_t) :
    (node_t.mk d x y s p).depth = d := rfl

@[simp] theorem node_t.move_delta_x_mk (d : Nat) (x y : Int) (s : state_t)
    (p : Option node_t) : (node_t.mk d x y s p).move_delta_x = x := rfl

@[simp] theorem node_t.move_delta_y_mk (d : Nat) (x y : Int) (s : state_t)
    (p : Option node_t) : (node_t.mk d x y s p).move_delta_y = y := rfl

@[simp] theorem node_t.state_mk (d : Nat) (x y : Int) (s : state_t) (p : Option node_t) :
    (node_t.mk d x y s p).state = s := rfl

@[simp] theorem node_t.parent_mk (d : Nat) (x y : Int) (s : state_t) (p : Option node_t) :
    (node_t.mk d x y s p).parent = p := rfl

theorem mem_int_range (lo hi v : Int) : v ∈ int_range lo hi ↔ lo ≤ v ∧ v ≤ hi := by
  unfold int_range
  simp only [List.mem_map, List.mem_range]
  constructor
  · rintro ⟨k, hk, rfl⟩
    omega
  · rintro ⟨h1, h2⟩
    exact ⟨(v - lo).toNat, by omega, by omega⟩

theorem int_range_sorted (lo hi : Int) : (int_range lo hi).Pairwise (fun a b => a < b) := by
  unfold int_range
  rw [List.pairwise_map]
  exact (List.pairwise_lt_range _).imp (fun h => by omega)

theorem int_range_length (lo hi : Int) : (int_range lo hi).length = (hi + 1 - lo).toNat := by
  simp [int_range]

theorem mem_candidate_moves (cs : chessformer_t) (st : state_t) (mv : Int × Int) :
    mv ∈ candidate_moves cs st ↔
      mv ≠ (0, 0) ∧ 1 ≤ st.player_x + mv.1 ∧
        st.player_x + mv.1 ≤ ((cs.num_chars_map / cs.lines : Nat) : Int) ∧
        1 ≤ st.player_y + mv.2 ∧ st.player_y + mv.2 ≤ (cs.lines : Int) := by
  obtain ⟨dx, dy⟩ := mv
  unfold candidate_moves
  simp only [List.mem_flatMap, List.mem_map, List.mem_filter, mem_int_range, Prod.mk.injEq,
    Bool.not_eq_true', Bool.and_eq_false_imp, beq_iff_eq, beq_eq_false_iff_ne, ne_eq]
  constructor
  · rintro ⟨my, ⟨h1, h2⟩, mx, ⟨⟨h3, h4⟩, h5⟩, rfl, rfl⟩
    refine ⟨fun h => ?_, by omega, by omega, by omega, by omega⟩
    exact h5 h.1 h.2
  · rintro ⟨h0, h1, h2, h3, h4⟩
    refine ⟨dy, ⟨by omega, by omega⟩, dx, ⟨⟨by omega, by omega⟩, fun hx hy => h0 ?_⟩, rfl, rfl⟩
    exact ⟨hx, hy⟩

theorem candidate_moves_sorted (cs : chessformer_t) (st : state_t) :
    (candidate_moves cs st).Pairwise move_before := by
  unfold candidate_moves
  rw [List.pairwise_flatMap]
  constructor
  · intro my _
    rw [List.pairwise_map]
    exact ((int_range_sorted _ _).sublist (List.filter_sublist _)).imp
      (fun h => Or.inr ⟨rfl, h⟩)
  · refine (int_range_sorted _ _).imp ?_
    intro a b hab x hx y hy
    simp only [List.mem_map] at hx hy
    obtain ⟨_, _, rfl⟩ := hx
    obtain ⟨_, _, rfl⟩ := hy
    exact Or.inl hab

theorem candidate_moves_nodup (cs : chessformer_t) (st : state_t) :
    (candidate_moves cs st).Nodup := by
  refine (candidate_moves_sorted cs st).imp ?_
  intro a b h heq
  subst heq
  rcases h with h | ⟨_, h⟩ <;> omega

theorem candidate_moves_length (cs : chessformer_t) (st : state_t)
    (hx : 1 ≤ st.player_x ∧ st.player_x ≤ ((cs.num_chars_map / cs.lines : Nat) : Int))
    (hy : 1 ≤ st.player_y ∧ st.player_y ≤ (cs.lines : Int)) :
    (candidate_moves cs st).length = cs.lines * (cs.num_chars_map / cs.lines) - 1 := by
  have hnd := candidate_moves_nodup cs st
  rw [← List.toFinset_card_of_nodup hnd]
  have hset : (candidate_moves cs st).toFinset =
      ((Finset.Icc (1 - st.player_x) (((cs.num_chars_map / cs.lines : Nat) : Int) - st.player_x)) ×ˢ
        (Finset.Icc (1 - st.player_y) ((cs.lines : Int) - st.player_y))).erase (0, 0) := by
    ext ⟨dx, dy⟩
    simp only [List.mem_toFinset, mem_candidate_moves, Finset.mem_erase, Finset.mem_product,
      Finset.mem_Icc, ne_eq]
    constructor
    · rintro ⟨h0, h1, h2, h3, h4⟩
      exact ⟨h0, ⟨by omega, by omega⟩, ⟨by omega, by omega⟩⟩
    · rintro ⟨h0, ⟨h1, h2⟩, ⟨h3, h4⟩⟩
      exact ⟨h0, by omega, by omega, by omega, by omega⟩
  rw [hset, Finset.card_erase_of_mem, Finset.card_product, Int.card_Icc, Int.card_Icc]
  · congr 1
    rw [Nat.mul_comm]
    congr 1 <;> omega
  · simp only [Finset.mem_product, Finset.mem_Icc]
    omega

/-! ## `saveSolution` -/

theorem hierarchyCount_pos : ∀ n : node_t, 0 < hierarchyCount n
  | node_t.mk _ _ _ _ none => by simp [hierarchyCount]
  | node_t.mk _ _ _ _ (some _) => by simp [hierarchyCount]

theorem hierarchyCount_eq_ancestors : ∀ n : node_t, hierarchyCount n = (ancestors n).length + 1
  | node_t.mk _ _ _ _ none => by simp [hierarchyCount, ancestors]
  | node_t.mk _ _ _ _ (some p) => by
    simp [hierarchyCount, ancestors, hierarchyCount_eq_ancestors p]

theorem chain_length : ∀ n : node_t, (chain n).length = hierarchyCount n
  | node_t.mk _ _ _ _ none => by simp [hierarchyCount, chain]
  | node_t.mk _ _ _ _ (some p) => by
    simp [hierarchyCount, chain, chain_length p]

theorem chain_last : ∀ n : node_t, (chain n)[hierarchyCount n - 1]? = some n
  | node_t.mk _ _ _ _ none => by simp [hierarchyCount, chain]
  | node_t.mk _ _ _ _ (some p) => by
    simp [hierarchyCount, chain, List.getElem?_append_right, chain_length p]

theorem solution_chars_length : ∀ n : node_t,
    (solution_chars n).length = 2 * (hierarchyCount n - 1)
  | node_t.mk _ _ _ _ none => by simp [hierarchyCount, solution_chars]
  | node_t.mk _ _ _ _ (some p) => by
    have := hierarchyCount_pos p
    simp [hierarchyCount, solution_chars, solution_chars_length p]
    omega

theorem drop_set_set (l : List c_char) (i : Nat) (x y : c_char) (h : i + 2 ≤ l.length) :
    ((l.set i x).set (i + 1) y).drop i = x :: y :: l.drop (i + 2) := by
  induction l generalizing i with
  | nil => simp at h
  | cons a l ih =>
    cases i with
    | zero =>
      cases l with
      | nil => simp at h
      | cons b l => simp
    | succ i =>
      simp only [List.set_cons_succ, List.drop_succ_cons]
      exact ih i (by simpa using h)

theorem saveSolution_fill_eq : ∀ (n : node_t) (left : Nat) (soln : List c_char),
    left + 1 = hierarchyCount n → 2 * left ≤ soln.length →
    saveSolution_fill n left soln = solution_chars n ++ soln.drop (2 * left)
  | node_t.mk _ _ _ _ none, left, soln, h, _ => by
    simp only [hierarchyCount] at h
    have : left = 0 := by omega
    subst this
    simp [saveSolution_fill, solution_chars]
  | node_t.mk d dx dy st (some p), left, soln, h, hlen => by
    simp only [hierarchyCount] at h
    have hp := hierarchyCount_pos p
    obtain ⟨l, rfl⟩ : ∃ l, left = l + 1 := ⟨left - 1, by omega⟩
    have ih := saveSolution_fill_eq p l
      ((soln.set (2 * l) (int_to_char (p.state.player_x + dx + 96))).set (2 * l + 1)
        (int_to_char (p.state.player_y + dy + 48))) (by omega) (by simp; omega)
    simp only [saveSolution_fill, Nat.add_sub_cancel, solution_chars, move_char_x, move_char_y,
      node_t.move_delta_x, node_t.move_delta_y]
    rw [ih, drop_set_set _ _ _ _ (by omega)]
    have e1 : 96 + p.state.player_x + dx = p.state.player_x + dx + 96 := by ring
    have e2 : 48 + p.state.player_y + dy = p.state.player_y + dy + 48 := by ring
    rw [e1, e2]
    simp [Nat.mul_add]

/-- The buffer returned by `saveSolution`: the move characters, the terminator,
and the two bytes of the allocation that are never written. -/
theorem saveSolution_eq (n : node_t) : saveSolution n = solution_chars n ++ [0, 0, 0] := by
  have hp := hierarchyCount_pos n
  have hl := solution_chars_length n
  unfold saveSolution
  simp only
  rw [saveSolution_fill_eq n (hierarchyCount n - 1) _ (by omega) (by simp; omega)]
  rw [← hl, List.set_append_right _ _ (le_refl _)]
  simp only [List.drop_replicate, Nat.sub_self, List.length_replicate]
  have : hierarchyCount n * 2 + 1 - (solution_chars n).length = 3 := by omega
  rw [this]
  rfl

theorem solution_chars_index : ∀ (n : node_t) (k : Nat), 1 ≤ k → k < hierarchyCount n →
    ∃ c p, (chain n)[k]? = some c ∧ c.parent = some p ∧ (chain n)[k - 1]? = some p ∧
      (solution_chars n)[2 * (k - 1)]? = some (move_char_x p c) ∧
      (solution_chars n)[2 * (k - 1) + 1]? = some (move_char_y p c)
  | node_t.mk _ _ _ _ none, k, h1, h2 => by
    simp only [hierarchyCount] at h2
    omega
  | node_t.mk d dx dy st (some p), k, h1, h2 => by
    simp only [hierarchyCount] at h2
    have hp := hierarchyCount_pos p
    have hcl := chain_length p
    have hsl := solution_chars_length p
    by_cases hk : k < hierarchyCount p
    · obtain ⟨c, q, e1, e2, e3, e4, e5⟩ := solution_chars_index p k h1 hk
      refine ⟨c, q, ?_, e2, ?_, ?_, ?_⟩
      · rw [chain, List.getElem?_append_left (by omega)]; exact e1
      · rw [chain, List.getElem?_append_left (by omega)]; exact e3
      · rw [solution_chars, List.getElem?_append_left (by omega)]; exact e4
      · rw [solution_chars, List.getElem?_append_left (by omega)]; exact e5
    · have hk' : k = hierarchyCount p := by omega
      subst hk'
      refine ⟨node_t.mk d dx dy st (some p), p, ?_, rfl, ?_, ?_, ?_⟩
      · rw [chain, List.getElem?_append_right (by omega)]; simp [hcl]
      · rw [chain, List.getElem?_append_left (by omega)]; exact chain_last p
      · rw [solution_chars, List.getElem?_append_right (by omega)]; simp [hsl]
      · rw [solution_chars, List.getElem?_append_right (by omega)]
        have : 2 * (hierarchyCount p - 1) + 1 - (solution_chars p).length = 1 := by omega
        simp [this]

/-! ## `flatten_map` -/

theorem flatten_row_eq : ∀ (row pre mid post : List c_char), mid.length = row.length →
    flatten_row row (pre ++ mid ++ post, pre.length) =
      some (pre ++ row ++ post, pre.length + row.length)
  | [], pre, mid, post, h => by
    have : mid = [] := List.length_eq_zero.mp (by simpa using h)
    subst this
    simp [flatten_row]
  | c :: cs, pre, [], post, h => by simp at h
  | c :: cs, pre, m :: mid, post, h => by
    have hi : pre.length < (pre ++ m :: mid ++ post).length := by
      simp only [List.length_append, List.length_cons]; omega
    have hset : (pre ++ m :: mid ++ post).set pre.length c = (pre ++ [c]) ++ mid ++ post := by
      simp [List.append_assoc, List.set_append_right]
    simp only [flatten_row, write_char, hi, if_true, Option.some_bind, hset]
    have ih := flatten_row_eq cs (pre ++ [c]) mid post (by simpa using h)
    simp only [List.length_append, List.length_cons, List.length_nil, Nat.zero_add] at ih
    rw [ih]
    simp [List.append_assoc, Nat.add_assoc, Nat.add_comm 1]

theorem flatten_rows_eq : ∀ (k : Nat) (rows : List (List c_char)) (pre mid post : List c_char),
    k ≤ rows.length → mid.length = (rows.take k).flatten.length →
    flatten_rows k rows (pre ++ mid ++ post, pre.length) =
      some (pre ++ (rows.take k).flatten ++ post, pre.length + (rows.take k).flatten.length)
  | 0, rows, pre, mid, post, _, h => by
    have : mid = [] := List.length_eq_zero.mp (by simpa using h)
    subst this
    simp [flatten_rows]
  | k + 1, [], _, _, _, h, _ => by simp at h
  | k + 1, row :: rows, pre, mid, post, h, hlen => by
    simp only [List.take_succ_cons, List.flatten_cons, List.length_append] at hlen ⊢
    simp only [List.length_cons, Nat.add_le_add_iff_right] at h
    have hsplit : mid = mid.take row.length ++ mid.drop row.length :=
      (List.take_append_drop _ _).symm
    have h1 : (mid.take row.length).length = row.length := by
      rw [List.length_take]; omega
    have h2 : (mid.drop row.length).length = (rows.take k).flatten.length := by
      rw [List.length_drop]; omega
    have e : pre ++ mid ++ post =
        pre ++ mid.take row.length ++ (mid.drop row.length ++ post) := by
      simp only [List.append_assoc]
      rw [← List.append_assoc (mid.take _), List.take_append_drop]
    rw [flatten_rows, e, flatten_row_eq row pre _ _ h1, Option.some_bind]
    have ih := flatten_rows_eq k rows (pre ++ row) (mid.drop row.length) post h h2
    simp only [List.length_append] at ih
    rw [← List.append_assoc, ih]
    simp [List.append_assoc, Nat.add_assoc]

theorem flatten_length_of_grid_ok (init_data : chessformer_t) (m : List (List c_char))
    (h : grid_ok init_data m) : m.flatten.length = init_data.lines * row_width init_data := by
  obtain ⟨h1, h2⟩ := h
  rw [← h1]
  clear h1
  induction m with
  | nil => simp
  | cons r m ih =>
    simp only [List.flatten_cons, List.length_append, List.length_cons]
    rw [ih (fun row hr => h2 row (List.mem_cons_of_mem _ hr)), h2 r (List.mem_cons_self _ _)]
    ring

theorem lines_mul_width_le (init_data : chessformer_t) :
    init_data.lines * row_width init_data ≤ init_data.num_chars_map :=
  Nat.mul_div_le _ _

/-- On a grid of the instance dimensions `flatten_map` succeeds and the key is
the row-major concatenation followed by the untouched zero bytes. -/
theorem flat_key_eq (init_data : chessformer_t) (st : state_t) (h : dims_ok init_data st) :
    flat_key init_data st =
      some (st.map.flatten ++
        List.replicate (init_data.num_chars_map - init_data.lines * row_width init_data) 0) := by
  have hlen := flatten_length_of_grid_ok init_data st.map h
  have hle := lines_mul_width_le init_data
  have htake : st.map.take init_data.lines = st.map := List.take_of_length_le (by rw [h.1])
  have hsplit : calloc init_data.num_chars_map =
      [] ++ List.replicate (init_data.lines * row_width init_data) 0 ++
        List.replicate (init_data.num_chars_map - init_data.lines * row_width init_data) 0 := by
    simp only [calloc, List.nil_append, List.append_replicate_replicate]
    congr 1
    omega
  unfold flat_key flatten_map
  rw [hsplit, show (0 : Nat) = ([] : List c_char).length from rfl,
    flatten_rows_eq _ _ _ _ _ (by rw [h.1]) (by rw [htake, hlen]; simp)]
  simp [htake]

theorem flatten_injective_of_width (w : Nat) : ∀ (m1 m2 : List (List c_char)),
    m1.length = m2.length → (∀ row ∈ m1, row.length = w) → (∀ row ∈ m2, row.length = w) →
    m1.flatten = m2.flatten → m1 = m2
  | [], [], _, _, _, _ => rfl
  | [], _ :: _, h, _, _, _ => by simp at h
  | _ :: _, [], h, _, _, _ => by simp at h
  | r1 :: m1, r2 :: m2, h, h1, h2, he => by
    simp only [List.flatten_cons] at he
    have hr1 := h1 r1 (List.mem_cons_self _ _)
    have hr2 := h2 r2 (List.mem_cons_self _ _)
    obtain ⟨e1, e2⟩ := List.append_inj he (by rw [hr1, hr2])
    rw [e1, flatten_injective_of_width w m1 m2 (by simpa using h)
      (fun row hr => h1 row (List.mem_cons_of_mem _ hr))
      (fun row hr => h2 row (List.mem_cons_of_mem _ hr)) e2]

theorem flat_key_injective (init_data : chessformer_t) (s1 s2 : state_t)
    (h1 : dims_ok init_data s1) (h2 : dims_ok init_data s2)
    (hk : flat_key init_data s1 = flat_key init_data s2) : s1.map = s2.map := by
  rw [flat_key_eq init_data s1 h1, flat_key_eq init_data s2 h2] at hk
  have hk' := Option.some.inj hk
  have hl1 := flatten_length_of_grid_ok init_data s1.map h1
  have hl2 := flatten_length_of_grid_ok init_data s2.map h2
  obtain ⟨e, _⟩ := List.append_inj hk' (by rw [hl1, hl2])
  exact flatten_injective_of_width (row_width init_data) _ _ (by rw [h1.1, h2.1]) h1.2 h2.2 e

/-! ## The loop body, case by case -/

theorem enqueue_eq_append : ∀ (q : queue_t) (n : node_t), enqueue q n = q ++ [n]
  | [], _ => rfl
  | h :: t, n => by simp [enqueue, enqueue_eq_append t n]

theorem ht_insert_of_not_mem (table : HashTable) (key : List c_char) (h : key ∉ table) :
    ht_insert table key = table ++ [key] := by
  simp [ht_insert, h]

/-- The three outcomes of the loop body for one candidate move. -/
theorem process_move_cases (ext : externals) (init_data cs : chessformer_t) (h : node_t)
    (s s' : search_t) (mv : Int × Int)
    (hp : process_move ext init_data cs h s mv = some s') :
    ((applyAction ext cs h mv.1 mv.2).1 = false ∧
      s' = { s with
        created := s.created ++ [(applyAction ext cs h mv.1 mv.2).2]
        freed := s.freed ++ [(applyAction ext cs h mv.1 mv.2).2] }) ∨
    ((applyAction ext cs h mv.1 mv.2).1 = true ∧
      ∃ k, flat_key init_data (applyAction ext cs h mv.1 mv.2).2.state = some k ∧
        k ∈ s.hashTable ∧
        s' = { s with
          created := s.created ++ [(applyAction ext cs h mv.1 mv.2).2]
          movedChildren := s.movedChildren + 1
          duplicatedNodes := s.duplicatedNodes + 1
          freed := s.freed ++ [(applyAction ext cs h mv.1 mv.2).2] }) ∨
    ((applyAction ext cs h mv.1 mv.2).1 = true ∧
      ∃ k, flat_key init_data (applyAction ext cs h mv.1 mv.2).2.state = some k ∧
        k ∉ s.hashTable ∧
        s' = { s with
          created := s.created ++ [(applyAction ext cs h mv.1 mv.2).2]
          movedChildren := s.movedChildren + 1
          hashTable := s.hashTable ++ [k]
          htInserts := s.htInserts + 1
          queue := s.queue ++ [(applyAction ext cs h mv.1 mv.2).2]
          generatedNodes := s.generatedNodes + 1 }) := by
  unfold process_move at hp
  simp only at hp
  by_cases hm : (applyAction ext cs h mv.1 mv.2).1 = true
  · simp only [hm, if_true] at hp
    cases hk : flatten_map init_data (calloc init_data.num_chars_map)
        (applyAction ext cs h mv.1 mv.2).2.state.map with
    | none => simp [hk] at hp
    | some k =>
      simp only [hk] at hp
      by_cases hc : k ∈ s.hashTable
      · right; left
        refine ⟨hm, k, hk, hc, ?_⟩
        simp only [ht_contains, hc, decide_True, Bool.not_true, Bool.false_eq_true, if_false,
          Option.some.injEq] at hp
        exact hp.symm
      · right; right
        refine ⟨hm, k, hk, hc, ?_⟩
        simp only [ht_contains, hc, decide_False, Bool.not_false, if_true,
          Option.some.injEq, ht_insert_of_not_mem _ _ hc, enqueue_eq_append] at hp
        exact hp.symm
  · left
    simp only [hm, if_false, Bool.false_eq_true, Option.some.injEq] at hp
    exact ⟨by simpa using hm, hp.symm⟩

/-- The loop body succeeds exactly when the key of a moved child can be computed. -/
theorem process_move_isSome (ext : externals) (init_data cs : chessformer_t) (h : node_t)
    (s : search_t) (mv : Int × Int)
    (hk : (applyAction ext cs h mv.1 mv.2).1 = true →
      (flat_key init_data (applyAction ext cs h mv.1 mv.2).2.state).isSome) :
    ∃ s', process_move ext init_data cs h s mv = some s' := by
  unfold process_move
  simp only
  by_cases hm : (applyAction ext cs h mv.1 mv.2).1 = true
  · simp only [hm, if_true]
    obtain ⟨k, hk'⟩ := Option.isSome_iff_exists.mp (hk hm)
    unfold flat_key at hk'
    simp only [hk']
    split <;> exact ⟨_, rfl⟩
  · simp only [hm, if_false, Bool.false_eq_true]
    exact ⟨_, rfl⟩

/-- Invariants of a monadic fold, indexed by the elements processed so far. -/
theorem foldlM_invariant {α σ : Type} (f : σ → α → Option σ) (P : List α → σ → Prop) :
    ∀ (l done : List α) (s s' : σ),
      (∀ (pre : List α) (a : α) (post : List α) (t t' : σ), done ++ l = pre ++ a :: post →
        done.length ≤ pre.length → P pre t → f t a = some t' → P (pre ++ [a]) t') →
      P done s → l.foldlM f s = some s' → P (done ++ l) s'
  | [], done, s, s', _, hP, hf => by
    simp only [List.foldlM_nil, Option.pure_def, Option.some.injEq] at hf
    subst hf
    simpa using hP
  | a :: l, done, s, s', hstep, hP, hf => by
    simp only [List.foldlM_cons, Option.bind_eq_bind] at hf
    cases hfa : f s a with
    | none => simp [hfa] at hf
    | some t =>
      simp only [hfa, Option.some_bind] at hf
      have h1 := hstep done a l s t rfl (le_refl _) hP hfa
      have := foldlM_invariant f P l (done ++ [a]) t s'
        (fun pre b post u u' e hl => hstep pre b post u u' (by simpa using e)
          (by simp at hl; omega)) h1 hf
      simpa using this

theorem foldlM_isSome {α σ : Type} (f : σ → α → Option σ) :
    ∀ (l : List α) (s : σ), (∀ a ∈ l, ∀ t, ∃ t', f t a = some t') →
      ∃ s', l.foldlM f s = some s'
  | [], s, _ => ⟨s, rfl⟩
  | a :: l, s, h => by
    obtain ⟨t, ht⟩ := h a (List.mem_cons_self _ _) s
    obtain ⟨s', hs'⟩ := foldlM_isSome f l t (fun b hb => h b (List.mem_cons_of_mem _ hb))
    exact ⟨s', by simp [List.foldlM_cons, ht, hs']⟩

/-- The two ways an iteration of the search loop can end. -/
theorem explore_step_cases (ext : externals) (init_data : chessformer_t) (s s' : search_t)
    (hs : explore_step ext init_data s = some s') :
    ∃ g t, s.queue = g :: t ∧
      ((ext.winning_condition (current_state_of init_data) g.state = true ∧
        s' = { s with
          queue := t
          exploredNodes := s.exploredNodes + 1
          capacity := if s.exploredNodes + 1 > s.capacity then s.capacity * 2 else s.capacity
          exploredNodesArray := s.exploredNodesArray ++ [g]
          solution := some (saveSolution g)
          solution_size := g.depth }) ∨
      (ext.winning_condition (current_state_of init_data) g.state = false ∧
        (candidate_moves (current_state_of init_data) g.state).foldlM
          (process_move ext init_data (current_state_of init_data) g)
          { s with
            queue := t
            exploredNodes := s.exploredNodes + 1
            capacity := if s.exploredNodes + 1 > s.capacity then s.capacity * 2 else s.capacity
            exploredNodesArray := s.exploredNodesArray ++ [g] } = some s')) := by
  unfold explore_step at hs
  cases hq : s.queue with
  | nil => simp [hq, dequeue] at hs
  | cons g t =>
    refine ⟨g, t, rfl, ?_⟩
    simp only [hq, dequeue] at hs
    by_cases hidx : s.exploredNodes + 1 - 1 <
        (if s.exploredNodes + 1 > s.capacity then s.capacity * 2 else s.capacity)
    case neg =>
      rw [if_neg hidx] at hs
      exact absurd hs (by simp)
    rw [if_pos hidx] at hs
    by_cases hg : ext.winning_condition (current_state_of init_data) g.state = true
    · left
      simp only [hg, if_true, Option.some.injEq] at hs
      exact ⟨hg, hs.symm⟩
    · right
      simp only [hg, if_false, Bool.false_eq_true] at hs
      exact ⟨by simpa using hg, hs⟩

/-- Induction over the iterations of the search loop: a property that holds on
entry and is kept by every iteration holds for the state the loop returns,
and that state has left the loop. -/
theorem bfs_loop_induct (ext : externals) (init_data : chessformer_t) (P : search_t → Prop)
    (hstep : ∀ s s', P s → loop_done s = false → explore_step ext init_data s = some s' → P s') :
    ∀ (fuel : Nat) (s r : search_t), P s → bfs_loop ext init_data fuel s = some r →
      P r ∧ loop_done r = true
  | 0, s, r, hP, hr => by
    unfold bfs_loop at hr
    by_cases hd : loop_done s = true
    · simp only [hd, if_true, Option.some.injEq] at hr
      subst hr
      exact ⟨hP, hd⟩
    · simp [hd] at hr
  | fuel + 1, s, r, hP, hr => by
    unfold bfs_loop at hr
    by_cases hd : loop_done s = true
    · simp only [hd, if_true, Option.some.injEq] at hr
      subst hr
      exact ⟨hP, hd⟩
    · simp only [hd, if_false, Bool.false_eq_true] at hr
      cases hs : explore_step ext init_data s with
      | none => simp [hs] at hr
      | some s' =>
        simp only [hs, Option.some_bind] at hr
        exact bfs_loop_induct ext init_data P hstep fuel s' r
          (hstep s s' hP (by simpa using hd) hs) hr

/-- More fuel does not change the result of the loop. -/
theorem bfs_loop_mono (ext : externals) (init_data : chessformer_t) :
    ∀ (fuel : Nat) (s r : search_t) (k : Nat), bfs_loop ext init_data fuel s = some r →
      bfs_loop ext init_data (fuel + k) s = some r
  | 0, s, r, k, hr => by
    unfold bfs_loop at hr
    by_cases hd : loop_done s = true
    · simp only [hd, if_true, Option.some.injEq] at hr
      subst hr
      cases k <;> simp [bfs_loop, hd]
    · simp [hd] at hr
  | fuel + 1, s, r, k, hr => by
    rw [show fuel + 1 + k = (fuel + k) + 1 by omega]
    unfold bfs_loop at hr ⊢
    by_cases hd : loop_done s = true
    · simpa [hd] using hr
    · simp only [hd, if_false, Bool.false_eq_true] at hr ⊢
      cases hs : explore_step ext init_data s with
      | none => simp [hs] at hr
      | some s' =>
        simp only [hs, Option.some_bind] at hr ⊢
        exact bfs_loop_mono ext init_data fuel s' r k hr

/-! ## Bookkeeping invariant -/

theorem write_char_length (dst : List c_char) (i : Nat) (c : c_char) (d : List c_char)
    (h : write_char dst i c = some d) : d.length = dst.length := by
  unfold write_char at h
  split at h
  · simp only [Option.some.injEq] at h
    subst h
    simp
  · simp at h

theorem flatten_row_length : ∀ (row dst : List c_char) (i : Nat) (r : List c_char × Nat),
    flatten_row row (dst, i) = some r → r.1.length = dst.length
  | [], dst, i, r, h => by
    simp only [flatten_row, Option.some.injEq] at h
    subst h
    rfl
  | c :: cs, dst, i, r, h => by
    simp only [flatten_row] at h
    cases hw : write_char dst i c with
    | none => simp [hw] at h
    | some d =>
      simp only [hw, Option.some_bind] at h
      rw [flatten_row_length cs d (i + 1) r h, write_char_length dst i c d hw]

theorem flatten_rows_length : ∀ (k : Nat) (rows : List (List c_char)) (acc r : List c_char × Nat),
    flatten_rows k rows acc = some r → r.1.length = acc.1.length
  | 0, _, acc, r, h => by
    simp only [flatten_rows, Option.some.injEq] at h
    subst h
    rfl
  | k + 1, [], _, _, h => by simp [flatten_rows] at h
  | k + 1, row :: rows, (dst, i), r, h => by
    simp only [flatten_rows] at h
    cases hr : flatten_row row (dst, i) with
    | none => simp [hr] at h
    | some a =>
      simp only [hr, Option.some_bind] at h
      rw [flatten_rows_length k rows a r h, flatten_row_length row dst i a hr]

/-- A key that `flatten_map` produces has the size of the buffer it was given. -/
theorem flat_key_length (init_data : chessformer_t) (st : state_t) (k : List c_char)
    (h : flat_key init_data st = some k) : k.length = init_data.num_chars_map := by
  unfold flat_key flatten_map at h
  cases hr : flatten_rows init_data.lines st.map (calloc init_data.num_chars_map, 0) with
  | none => simp [hr] at h
  | some r =>
    simp only [hr, Option.map_some', Option.some.injEq] at h
    subst h
    rw [flatten_rows_length _ _ _ r hr]
    simp [calloc]

theorem basic_inv_init (ext : externals) (init_data : chessformer_t) :
    basic_inv ext init_data (search_init ext init_data) where
  explored_count := rfl
  generated_count := rfl
  inserts := rfl
  table_nodup := List.nodup_nil
  table_len := by intro k hk; simp [search_init, ht_setup] at hk
  enq := ⟨[], rfl, rfl⟩
  counters := rfl
  valid := by
    intro n hn
    simp only [enqueued, search_init, enqueue, List.nil_append, List.mem_singleton] at hn
    subst hn
    exact valid_node.root
  solved := by intro buf h; simp [search_init] at h

/-- One candidate move keeps the bookkeeping invariant. -/
theorem basic_inv_process_move (ext : externals) (init_data : chessformer_t) (h : node_t)
    (s s' : search_t) (mv : Int × Int)
    (hmv : mv ∈ candidate_moves (current_state_of init_data) h.state)
    (hinv : basic_inv ext init_data s ∧ s.solution = none ∧ h ∈ s.exploredNodesArray)
    (hp : process_move ext init_data (current_state_of init_data) h s mv = some s') :
    basic_inv ext init_data s' ∧ s'.solution = none ∧ h ∈ s'.exploredNodesArray := by
  obtain ⟨hb, hsol, hmem⟩ := hinv
  rcases process_move_cases ext init_data _ h s s' mv hp with
    ⟨_, rfl⟩ | ⟨_, k, _, _, rfl⟩ | ⟨hm, k, hk, hnk, rfl⟩
  · exact ⟨⟨hb.explored_count, hb.generated_count, hb.inserts, hb.table_nodup, hb.table_len,
      hb.enq, hb.counters, hb.valid, hb.solved⟩, hsol, hmem⟩
  · refine ⟨⟨hb.explored_count, hb.generated_count, hb.inserts, hb.table_nodup, hb.table_len,
      hb.enq, ?_, hb.valid, hb.solved⟩, hsol, hmem⟩
    have := hb.counters
    simp only
    omega
  · have hgen := hb.generated_count
    have hcnt := hb.counters
    obtain ⟨children, he, hkeys⟩ := hb.enq
    simp only [enqueued] at hgen he
    refine ⟨⟨hb.explored_count, ?_, ?_, ?_, ?_, ?_, ?_, ?_, hb.solved⟩, hsol, hmem⟩
    · simp only [enqueued, List.length_append, List.length_cons, List.length_nil] at hgen ⊢
      omega
    · have := hb.inserts
      simp only [List.length_append, List.length_cons, List.length_nil]
      omega
    · exact List.nodup_append.mpr ⟨hb.table_nodup, List.nodup_singleton _,
        fun a ha hk' => hnk (List.mem_singleton.mp hk' ▸ ha)⟩
    · intro k' hk'
      rcases List.mem_append.mp hk' with h1 | h1
      · exact hb.table_len k' h1
      · rw [List.mem_singleton.mp h1]
        exact flat_key_length init_data _ k hk
    · refine ⟨children ++ [(applyAction ext (current_state_of init_data) h mv.1 mv.2).2], ?_, ?_⟩
      · simp only [enqueued, ← List.append_assoc, he, List.cons_append]
      · simp only [List.map_append, hkeys, List.map_cons, List.map_nil, hk]
    · have hpos : 1 ≤ s.generatedNodes := by
        rw [← hgen, he]
        simp
      simp only
      omega
    · intro n hn
      simp only [enqueued, ← List.append_assoc, List.mem_append, List.mem_singleton] at hn
      rcases hn with hn | rfl
      · exact hb.valid n (by simpa [enqueued] using hn)
      · exact valid_node.child h mv
          (hb.valid h (List.mem_append_left _ hmem)) hmv hm

/-- The candidate loops keep the bookkeeping invariant. -/
theorem basic_inv_expand (ext : externals) (init_data : chessformer_t) (h : node_t)
    (s s' : search_t)
    (hinv : basic_inv ext init_data s ∧ s.solution = none ∧ h ∈ s.exploredNodesArray)
    (hp : (candidate_moves (current_state_of init_data) h.state).foldlM
      (process_move ext init_data (current_state_of init_data) h) s = some s') :
    basic_inv ext init_data s' ∧ s'.solution = none ∧ h ∈ s'.exploredNodesArray := by
  have := foldlM_invariant (process_move ext init_data (current_state_of init_data) h)
    (fun _ t => basic_inv ext init_data t ∧ t.solution = none ∧ h ∈ t.exploredNodesArray)
    (candidate_moves (current_state_of init_data) h.state) [] s s'
    (fun pre a post t t' e _ hP hf =>
      basic_inv_process_move ext init_data h t t' a
        (by simp only [List.nil_append] at e; rw [e]; simp) hP hf)
    hinv hp
  exact this

theorem solution_none_of_not_done (s : search_t) (h : loop_done s = false) :
    s.solution = none ∧ s.queue ≠ [] := by
  unfold loop_done is_queue_empty at h
  simp only [Bool.or_eq_false_iff] at h
  obtain ⟨h1, h2⟩ := h
  refine ⟨by cases hs : s.solution <;> simp_all, ?_⟩
  intro hq
  simp [hq] at h1

/-- Every iteration of the search loop keeps the bookkeeping invariant. -/
theorem basic_inv_step (ext : externals) (init_data : chessformer_t) (s s' : search_t)
    (hb : basic_inv ext init_data s) (hd : loop_done s = false)
    (hs : explore_step ext init_data s = some s') : basic_inv ext init_data s' := by
  obtain ⟨hsol, _⟩ := solution_none_of_not_done s hd
  obtain ⟨g, t, hq, hcase⟩ := explore_step_cases ext init_data s s' hs
  have henq : ∀ (u : search_t), u.exploredNodesArray = s.exploredNodesArray ++ [g] →
      u.queue = t → enqueued u = enqueued s := by
    intro u h1 h2
    simp [enqueued, h1, h2, hq]
  have hdeq : basic_inv ext init_data
      { s with
        queue := t
        exploredNodes := s.exploredNodes + 1
        capacity := if s.exploredNodes + 1 > s.capacity then s.capacity * 2 else s.capacity
        exploredNodesArray := s.exploredNodesArray ++ [g] } := by
    refine ⟨?_, ?_, hb.inserts, hb.table_nodup, hb.table_len, ?_, hb.counters, ?_, ?_⟩
    · simp [hb.explored_count]
    · rw [henq _ rfl rfl]; exact hb.generated_count
    · rw [henq _ rfl rfl]; exact hb.enq
    · rw [henq _ rfl rfl]; exact hb.valid
    · intro buf h
      simp [hsol] at h
  rcases hcase with ⟨hg, rfl⟩ | ⟨_, hfold⟩
  · refine ⟨hdeq.explored_count, ?_, hb.inserts, hb.table_nodup, hb.table_len, ?_, hb.counters,
      ?_, ?_⟩
    · rw [henq _ rfl rfl]; exact hb.generated_count
    · rw [henq _ rfl rfl]; exact hb.enq
    · rw [henq _ rfl rfl]; exact hb.valid
    · intro buf h
      simp only [Option.some.injEq] at h
      exact ⟨g, by simp, h.symm, hg, rfl⟩
  · exact (basic_inv_expand ext init_data g _ s' ⟨hdeq, hsol, by simp⟩ hfold).1

/-- The bookkeeping invariant holds at every iteration boundary. -/
theorem basic_inv_of_run_state (ext : externals) (init_data : chessformer_t) (s : search_t)
    (h : run_state ext init_data s) : basic_inv ext init_data s := by
  induction h with
  | init => exact basic_inv_init ext init_data
  | step s s' _ hd hs ih => exact basic_inv_step ext init_data s s' ih hd hs

/-- What the loop returns is a state at an iteration boundary that has left the
loop. -/
theorem run_state_of_search (ext : externals) (init_data : chessformer_t) (fuel : Nat)
    (r : search_t) (h : find_solution_search ext init_data fuel = some r) :
    run_state ext init_data r ∧ loop_done r = true :=
  bfs_loop_induct ext init_data (run_state ext init_data)
    (fun s s' hs hd he => run_state.step s s' hs hd he) fuel _ r run_state.init h

/-! ## Nodes built by the search -/

theorem dims_ok_root (init_data : chessformer_t) (hwf : wf_board init_data) :
    dims_ok init_data (initial_state init_data) := by
  obtain ⟨_, h2, h3⟩ := hwf
  constructor
  · simp only [initial_state, create_init_node, node_t.state, List.length_map, List.length_take]
    omega
  · intro row hrow
    simp only [initial_state, create_init_node, node_t.state_mk, List.mem_map] at hrow
    obtain ⟨r, hr, rfl⟩ := hrow
    have := h3 r (List.mem_of_mem_take hr)
    simp only [List.length_take, row_width] at this ⊢
    omega

theorem copy_state_eq (init_data : chessformer_t) (st : state_t) (h : dims_ok init_data st) :
    copy_state (current_state_of init_data) st = st := by
  unfold copy_state
  have : st.map.take (current_state_of init_data).lines = st.map :=
    List.take_of_length_le (by rw [h.1]; exact le_refl _)
  rw [this]

/-- On a parent of the instance dimensions `applyAction` runs the executor on the
parent snapshot itself. -/
theorem applyAction_eq (ext : externals) (init_data : chessformer_t) (p : node_t)
    (dx dy : Int) (h : dims_ok init_data p.state) :
    applyAction ext (current_state_of init_data) p dx dy =
      ((ext.execute_move (current_state_of init_data) p.state dx dy).1,
        node_t.mk (p.depth + 1) dx dy
          (ext.execute_move (current_state_of init_data) p.state dx dy).2 (some p)) := by
  simp only [applyAction, create_node, node_t.state_mk, node_t.depth_mk, node_t.move_delta_x_mk,
    node_t.move_delta_y_mk, node_t.parent_mk, copy_state_eq init_data p.state h]

theorem valid_node_dims (ext : externals) (init_data : chessformer_t)
    (hwf : wf_board init_data) (hd : preserves_dims ext init_data) (n : node_t)
    (h : valid_node ext init_data n) : dims_ok init_data n.state := by
  induction h with
  | root => exact dims_ok_root init_data hwf
  | child p mv _ _ _ ih =>
    rw [applyAction_eq ext init_data p mv.1 mv.2 ih]
    exact hd p.state mv.1 mv.2 ih

theorem valid_node_depth (ext : externals) (init_data : chessformer_t) (n : node_t)
    (h : valid_node ext init_data n) : n.depth = (ancestors n).length := by
  induction h with
  | root => rfl
  | child p mv _ _ _ ih =>
    simp only [applyAction, create_node, node_t.depth_mk, node_t.parent_mk, ancestors,
      List.length_cons, ih]

theorem run_moves_append (ext : externals) (init_data : chessformer_t) :
    ∀ (mvs : List (Int × Int)) (st : state_t) (rest : List (Int × Int)),
      run_moves ext init_data st (mvs ++ rest) =
        (run_moves ext init_data st mvs).bind (fun t => run_moves ext init_data t rest)
  | [], st, rest => by simp [run_moves]
  | mv :: mvs, st, rest => by
    simp only [List.cons_append, run_moves]
    split
    · split
      · exact run_moves_append ext init_data mvs _ rest
      · rfl
    · rfl

/-- The snapshot of a node built by the search is produced from the initial
board by `depth` moves. -/
theorem valid_node_path (ext : externals) (init_data : chessformer_t)
    (hwf : wf_board init_data) (hd : preserves_dims ext init_data) (n : node_t)
    (h : valid_node ext init_data n) :
    ∃ mvs, mvs.length = n.depth ∧
      run_moves ext init_data (initial_state init_data) mvs = some n.state := by
  induction h with
  | root => exact ⟨[], rfl, rfl⟩
  | child p mv hp hmv hm ih =>
    obtain ⟨mvs, hl, hr⟩ := ih
    have hdp := valid_node_dims ext init_data hwf hd p hp
    rw [applyAction_eq ext init_data p mv.1 mv.2 hdp] at hm ⊢
    refine ⟨mvs ++ [mv], by simp [hl], ?_⟩
    rw [run_moves_append, hr]
    simp only at hm
    simp [run_moves, hmv, hm]

theorem valid_node_reachable (ext : externals) (init_data : chessformer_t)
    (hwf : wf_board init_data) (hd : preserves_dims ext init_data) (n : node_t)
    (h : valid_node ext init_data n) : reachable ext init_data n.state := by
  obtain ⟨mvs, _, hr⟩ := valid_node_path ext init_data hwf hd n h
  exact ⟨mvs, hr⟩

theorem reachable_dims (ext : externals) (init_data : chessformer_t)
    (hwf : wf_board init_data) (hd : preserves_dims ext init_data) :
    ∀ (mvs : List (Int × Int)) (st t : state_t), dims_ok init_data st →
      run_moves ext init_data st mvs = some t → dims_ok init_data t
  | [], st, t, h, hr => by
    simp only [run_moves, Option.some.injEq] at hr
    subst hr
    exact h
  | mv :: mvs, st, t, h, hr => by
    simp only [run_moves] at hr
    split at hr
    · split at hr
      · exact reachable_dims ext init_data hwf hd mvs _ t (hd st mv.1 mv.2 h) hr
      · simp at hr
    · simp at hr

/-! ## Level order and completeness of the search -/

theorem applyAction_depth (ext : externals) (cs : chessformer_t) (p : node_t) (dx dy : Int) :
    (applyAction ext cs p dx dy).2.depth = p.depth + 1 := by
  simp [applyAction, create_node]

theorem level_inv_init (ext : externals) (init_data : chessformer_t) :
    level_inv init_data 0 (search_init ext init_data) where
  explored_le := by intro e he; simp [search_init] at he
  queue_ge := by
    intro q hq
    simp only [search_init, enqueue, List.mem_singleton] at hq
    subst hq
    simp [create_init_node]
  queue_sorted := by simp [search_init, enqueue]
  table := by intro k hk; simp [search_init, ht_setup] at hk

/-- Taking the head of the queue moves the level to the depth of that head. -/
theorem level_inv_dequeue (init_data : chessformer_t) (d : Nat) (s u : search_t) (g : node_t)
    (t : List node_t) (hl : level_inv init_data d s) (hq : s.queue = g :: t)
    (hE : u.exploredNodesArray = s.exploredNodesArray ++ [g]) (hQ : u.queue = t)
    (hK : u.hashTable = s.hashTable) : level_inv init_data g.depth u := by
  have hg := hl.queue_ge g (by rw [hq]; exact List.mem_cons_self _ _)
  have hsorted := hl.queue_sorted
  rw [hq, List.pairwise_cons] at hsorted
  have henq : enqueued u = enqueued s := by simp [enqueued, hE, hQ, hq]
  refine ⟨?_, ?_, ?_, ?_⟩
  · intro e he
    rw [hE] at he
    rcases List.mem_append.mp he with h1 | h1
    · exact le_trans (hl.explored_le e h1) hg.1
    · rw [List.mem_singleton.mp h1]
  · intro q hq'
    rw [hQ] at hq'
    have := hl.queue_ge q (by rw [hq]; exact List.mem_cons_of_mem _ hq')
    exact ⟨hsorted.1 q hq', by omega⟩
  · rw [hQ]; exact hsorted.2
  · intro k hk
    rw [hK] at hk
    obtain ⟨n, hn, hkey, hdepth⟩ := hl.table k hk
    exact ⟨n, by rw [henq]; exact hn, hkey, by omega⟩

/-- One candidate move of the node `h`, processed at level `h.depth`: the level
structure is kept, moves accounted for stay so, and the processed move is
accounted for. -/
theorem level_inv_process_move (ext : externals) (init_data : chessformer_t) (h : node_t)
    (s s' : search_t) (mv : Int × Int) (hl : level_inv init_data h.depth s)
    (hp : process_move ext init_data (current_state_of init_data) h s mv = some s') :
    level_inv init_data h.depth s' ∧ s'.exploredNodesArray = s.exploredNodesArray ∧
      (∀ n ∈ enqueued s, n ∈ enqueued s') ∧ closed_for ext init_data s' h mv := by
  rcases process_move_cases ext init_data _ h s s' mv hp with
    ⟨hm, rfl⟩ | ⟨_, k, hk, hmem, rfl⟩ | ⟨_, k, hk, _, rfl⟩
  · refine ⟨⟨hl.explored_le, hl.queue_ge, hl.queue_sorted, hl.table⟩, rfl, fun n hn => hn, ?_⟩
    intro hm'
    rw [hm] at hm'
    exact absurd hm' (by simp)
  · refine ⟨⟨hl.explored_le, hl.queue_ge, hl.queue_sorted, hl.table⟩, rfl, fun n hn => hn, ?_⟩
    intro _
    obtain ⟨n, hn, hkey, hdepth⟩ := hl.table k hmem
    exact ⟨n, hn, by rw [hkey, hk], by simp [hkey], hdepth⟩
  · have hsub : ∀ n ∈ enqueued s, n ∈ enqueued
        { s with
          created := s.created ++ [(applyAction ext (current_state_of init_data) h mv.1 mv.2).2]
          movedChildren := s.movedChildren + 1
          hashTable := s.hashTable ++ [k]
          htInserts := s.htInserts + 1
          queue := s.queue ++ [(applyAction ext (current_state_of init_data) h mv.1 mv.2).2]
          generatedNodes := s.generatedNodes + 1 } := by
      intro n hn
      simp only [enqueued, List.mem_append] at hn ⊢
      tauto
    have hc : (applyAction ext (current_state_of init_data) h mv.1 mv.2).2 ∈ enqueued
        { s with
          created := s.created ++ [(applyAction ext (current_state_of init_data) h mv.1 mv.2).2]
          movedChildren := s.movedChildren + 1
          hashTable := s.hashTable ++ [k]
          htInserts := s.htInserts + 1
          queue := s.queue ++ [(applyAction ext (current_state_of init_data) h mv.1 mv.2).2]
          generatedNodes := s.generatedNodes + 1 } := by
      simp [enqueued]
    refine ⟨⟨hl.explored_le, ?_, ?_, ?_⟩, rfl, hsub, ?_⟩
    · intro q hq
      rcases List.mem_append.mp hq with h1 | h1
      · exact hl.queue_ge q h1
      · rw [List.mem_singleton.mp h1, applyAction_depth]
        omega
    · refine List.pairwise_append.mpr ⟨hl.queue_sorted, List.pairwise_singleton _ _, ?_⟩
      intro a ha b hb
      rw [List.mem_singleton.mp hb, applyAction_depth]
      exact (hl.queue_ge a ha).2
    · intro k' hk'
      rcases List.mem_append.mp hk' with h1 | h1
      · obtain ⟨n, hn, hkey, hdepth⟩ := hl.table k' h1
        exact ⟨n, hsub n hn, hkey, hdepth⟩
      · rw [List.mem_singleton.mp h1]
        exact ⟨_, hc, hk, by rw [applyAction_depth]⟩
    · intro _
      exact ⟨_, hc, rfl, by simp [hk], by rw [applyAction_depth]⟩

theorem closed_for_mono (ext : externals) (init_data : chessformer_t) (s s' : search_t)
    (e : node_t) (mv : Int × Int) (hsub : ∀ n ∈ enqueued s, n ∈ enqueued s')
    (h : closed_for ext init_data s e mv) : closed_for ext init_data s' e mv := by
  intro hm
  obtain ⟨n, hn, h1, h2, h3⟩ := h hm
  exact ⟨n, hsub n hn, h1, h2, h3⟩

/-- The candidate loops for the node `h`: the level structure is kept, the moves
accounted for before stay so, and every candidate move of `h` is accounted
for afterwards. -/
theorem level_inv_expand (ext : externals) (init_data : chessformer_t) (h : node_t)
    (R : node_t → Int × Int → Prop) (s s' : search_t)
    (hl : level_inv init_data h.depth s)
    (hR : ∀ e mv, R e mv → closed_for ext init_data s e mv)
    (hp : (candidate_moves (current_state_of init_data) h.state).foldlM
      (process_move ext init_data (current_state_of init_data) h) s = some s') :
    level_inv init_data h.depth s' ∧ s'.exploredNodesArray = s.exploredNodesArray ∧
      (∀ e mv, R e mv → closed_for ext init_data s' e mv) ∧
      (∀ mv ∈ candidate_moves (current_state_of init_data) h.state,
        closed_for ext init_data s' h mv) := by
  have := foldlM_invariant (process_move ext init_data (current_state_of init_data) h)
    (fun done t => level_inv init_data h.depth t ∧
      t.exploredNodesArray = s.exploredNodesArray ∧
      (∀ e mv, R e mv → closed_for ext init_data t e mv) ∧
      (∀ mv ∈ done, closed_for ext init_data t h mv))
    (candidate_moves (current_state_of init_data) h.state) [] s s'
    (fun pre a post t t' _ _ hP hf => by
      obtain ⟨h1, h2, h3, h4⟩ := hP
      obtain ⟨g1, g2, g3, g4⟩ := level_inv_process_move ext init_data h t t' a h1 hf
      refine ⟨g1, by rw [g2, h2], ?_, ?_⟩
      · intro e mv hr
        exact closed_for_mono ext init_data t t' e mv g3 (h3 e mv hr)
      · intro mv hmv
        rcases List.mem_append.mp hmv with hm | hm
        · exact closed_for_mono ext init_data t t' h mv g3 (h4 mv hm)
        · rw [List.mem_singleton.mp hm]
          exact g4)
    ⟨hl, rfl, hR, by simp⟩ hp
  simpa using this

/-- Every iteration keeps the level structure, at the depth of the node it
dequeues. -/
theorem level_inv_step (ext : externals) (init_data : chessformer_t) (d : Nat)
    (s s' : search_t) (hl : level_inv init_data d s)
    (hs : explore_step ext init_data s = some s') :
    ∃ g t, s.queue = g :: t ∧ level_inv init_data g.depth s' := by
  obtain ⟨g, t, hq, hcase⟩ := explore_step_cases ext init_data s s' hs
  refine ⟨g, t, hq, ?_⟩
  rcases hcase with ⟨_, rfl⟩ | ⟨_, hfold⟩
  · exact level_inv_dequeue init_data d s _ g t hl hq rfl rfl rfl
  · have hl1 := level_inv_dequeue init_data d s
      { s with
        queue := t
        exploredNodes := s.exploredNodes + 1
        capacity := if s.exploredNodes + 1 > s.capacity then s.capacity * 2 else s.capacity
        exploredNodesArray := s.exploredNodesArray ++ [g] } g t hl hq rfl rfl rfl
    exact (level_inv_expand ext init_data g (fun _ _ => False) _ s' hl1
      (fun _ _ h => h.elim) hfold).1

/-- An iteration that does not find the goal keeps the completeness invariant. -/
theorem complete_inv_step (ext : externals) (init_data : chessformer_t) (d : Nat)
    (s s' : search_t) (hl : level_inv init_data d s) (hc : complete_inv ext init_data s)
    (hs : explore_step ext init_data s = some s') (hsol : s'.solution = none) :
    complete_inv ext init_data s' := by
  obtain ⟨g, t, hq, hcase⟩ := explore_step_cases ext init_data s s' hs
  rcases hcase with ⟨_, rfl⟩ | ⟨hg, hfold⟩
  · simp at hsol
  · have hl1 := level_inv_dequeue init_data d s
      { s with
        queue := t
        exploredNodes := s.exploredNodes + 1
        capacity := if s.exploredNodes + 1 > s.capacity then s.capacity * 2 else s.capacity
        exploredNodesArray := s.exploredNodesArray ++ [g] } g t hl hq rfl rfl rfl
    obtain ⟨_, hE, hold, hnew⟩ := level_inv_expand ext init_data g
      (fun e mv => e ∈ s.exploredNodesArray ∧
        mv ∈ candidate_moves (current_state_of init_data) e.state) _ s' hl1
      (fun e mv hr => closed_for_mono ext init_data s _ e mv
        (by intro n hn; simpa [enqueued, hq] using hn) (hc.closed e hr.1 mv hr.2)) hfold
    constructor
    · intro e he
      rw [hE] at he
      rcases List.mem_append.mp he with h1 | h1
      · exact hc.not_goal e h1
      · rw [List.mem_singleton.mp h1]; exact hg
    · intro e he mv hmv
      rw [hE] at he
      rcases List.mem_append.mp he with h1 | h1
      · exact hold e mv ⟨h1, hmv⟩
      · rw [List.mem_singleton.mp h1] at hmv ⊢
        exact hnew mv hmv

theorem complete_inv_init (ext : externals) (init_data : chessformer_t) :
    complete_inv ext init_data (search_init ext init_data) where
  not_goal := by intro e he; simp [search_init] at he
  closed := by intro e he; simp [search_init] at he

/-- At every iteration boundary the level structure holds for some depth, and
while no solution is recorded the completeness invariant holds as well. -/
theorem level_inv_of_run_state (ext : externals) (init_data : chessformer_t) (s : search_t)
    (h : run_state ext init_data s) :
    (∃ d, level_inv init_data d s) ∧ (s.solution = none → complete_inv ext init_data s) := by
  induction h with
  | init =>
    exact ⟨⟨0, level_inv_init ext init_data⟩, fun _ => complete_inv_init ext init_data⟩
  | step s s' _ hd hs ih =>
    obtain ⟨⟨d, hl⟩, hc⟩ := ih
    obtain ⟨g, t, _, hl'⟩ := level_inv_step ext init_data d s s' hl hs
    exact ⟨⟨g.depth, hl'⟩, fun hsol => complete_inv_step ext init_data d s s' hl
      (hc (solution_none_of_not_done s hd).1) hs hsol⟩

/-! ## Termination of the search loop -/

/-- There are at most `256 ^ n` distinct keys of `n` bytes. -/
theorem keys_length_le (n : Nat) (K : List (List c_char)) (hnd : K.Nodup)
    (hlen : ∀ k ∈ K, k.length = n) : K.length ≤ 256 ^ n := by
  have hinj : ∀ (a : List c_char) (ha : a.length = n) (b : List c_char) (hb : b.length = n),
      (⟨a, ha⟩ : Mathlib.Vector c_char n) = ⟨b, hb⟩ → a = b :=
    fun a _ b _ h => congrArg Subtype.val h
  have hnd' : (K.pmap (fun a ha => (⟨a, ha⟩ : Mathlib.Vector c_char n)) hlen).Nodup :=
    List.Nodup.pmap hinj hnd
  have h := @List.Nodup.length_le_card (Mathlib.Vector c_char n) _ _ hnd'
  rw [card_vector, List.length_pmap, Fintype.card_fin] at h
  exact h

theorem process_move_explored (ext : externals) (init_data cs : chessformer_t) (h : node_t)
    (s s' : search_t) (mv : Int × Int)
    (hp : process_move ext init_data cs h s mv = some s') :
    s'.exploredNodesArray = s.exploredNodesArray := by
  rcases process_move_cases ext init_data cs h s s' mv hp with
    ⟨_, rfl⟩ | ⟨_, _, _, _, rfl⟩ | ⟨_, _, _, _, rfl⟩ <;> rfl

/-- An iteration appends the dequeued node to the explored array. -/
theorem explore_step_explored (ext : externals) (init_data : chessformer_t) (s s' : search_t)
    (hs : explore_step ext init_data s = some s') :
    ∃ g t, s.queue = g :: t ∧ s'.exploredNodesArray = s.exploredNodesArray ++ [g] := by
  obtain ⟨g, t, hq, hcase⟩ := explore_step_cases ext init_data s s' hs
  refine ⟨g, t, hq, ?_⟩
  rcases hcase with ⟨_, rfl⟩ | ⟨_, hfold⟩
  · rfl
  · exact foldlM_invariant (process_move ext init_data (current_state_of init_data) g)
      (fun _ u => u.exploredNodesArray = s.exploredNodesArray ++ [g])
      (candidate_moves (current_state_of init_data) g.state) [] _ s'
      (fun _ a _ u u' _ _ hP hf => by
        show u'.exploredNodesArray = _
        rw [process_move_explored ext init_data _ g u u' a hf]
        exact hP) rfl hfold

/-- An iteration appends the dequeued node, increments `exploredNodes` and
doubles `capacity` exactly when the incremented counter exceeds it. -/
theorem explore_step_counters (ext : externals) (init_data : chessformer_t) (s s' : search_t)
    (g : node_t) (t : List node_t) (hq : s.queue = g :: t)
    (hs : explore_step ext init_data s = some s') :
    s'.exploredNodesArray = s.exploredNodesArray ++ [g] ∧
      s'.exploredNodes = s.exploredNodes + 1 ∧
      s'.capacity =
        (if s.exploredNodes + 1 > s.capacity then s.capacity * 2 else s.capacity) := by
  obtain ⟨g', t', hq', hcase⟩ := explore_step_cases ext init_data s s' hs
  have hgg : g' = g := by
    rw [hq] at hq'
    exact (List.cons.inj hq').1.symm
  subst hgg
  rcases hcase with ⟨_, rfl⟩ | ⟨_, hfold⟩
  · exact ⟨rfl, rfl, rfl⟩
  · exact foldlM_invariant (process_move ext init_data (current_state_of init_data) g')
      (fun _ u => u.exploredNodesArray = s.exploredNodesArray ++ [g'] ∧
        u.exploredNodes = s.exploredNodes + 1 ∧
        u.capacity =
          (if s.exploredNodes + 1 > s.capacity then s.capacity * 2 else s.capacity))
      (candidate_moves (current_state_of init_data) g'.state) [] _ s'
      (fun _ a _ u u' _ _ hP hf => by
        rcases process_move_cases ext init_data _ g' u u' a hf with
          ⟨_, rfl⟩ | ⟨_, _, _, _, rfl⟩ | ⟨_, _, _, _, rfl⟩ <;> exact hP)
      ⟨rfl, rfl, rfl⟩ hfold

/-- With at least one slot to start from, the explored nodes never outnumber
the slots allocated. -/
theorem capacity_inv_of_run_state (ext : externals) (init_data : chessformer_t)
    (hcap : 1 ≤ ext.INITIAL_CAPACITY) (s : search_t) (h : run_state ext init_data s) :
    1 ≤ s.capacity ∧ s.exploredNodes ≤ s.capacity := by
  induction h with
  | init => exact ⟨hcap, Nat.zero_le _⟩
  | step s s' _ _ hs ih =>
    obtain ⟨g, t, hq, _⟩ := explore_step_explored ext init_data s s' hs
    obtain ⟨_, hN, hC⟩ := explore_step_counters ext init_data s s' g t hq hs
    rw [hN, hC]
    split <;> omega

/-- With an executor that keeps the dimensions an iteration never runs into
undefined behaviour. -/
theorem explore_step_isSome (ext : externals) (init_data : chessformer_t)
    (hwf : wf_board init_data) (hd : preserves_dims ext init_data) (s : search_t)
    (hb : basic_inv ext init_data s) (hnd : loop_done s = false)
    (hslots : 1 ≤ s.capacity ∧ s.exploredNodes ≤ s.capacity) :
    ∃ s', explore_step ext init_data s = some s' := by
  obtain ⟨_, hq⟩ := solution_none_of_not_done s hnd
  obtain ⟨g, t, hgt⟩ := List.exists_cons_of_ne_nil hq
  have hg : valid_node ext init_data g :=
    hb.valid g (by simp [enqueued, hgt])
  have hgd := valid_node_dims ext init_data hwf hd g hg
  have hidx : s.exploredNodes + 1 - 1 <
      (if s.exploredNodes + 1 > s.capacity then s.capacity * 2 else s.capacity) := by
    split <;> omega
  unfold explore_step
  simp only [hgt, dequeue, hidx, if_true]
  split
  · exact ⟨_, rfl⟩
  · apply foldlM_isSome
    intro mv _ u
    apply process_move_isSome
    intro _
    rw [applyAction_eq ext init_data g mv.1 mv.2 hgd]
    simp only [node_t.state_mk]
    rw [flat_key_eq init_data _ (hd g.state mv.1 mv.2 hgd)]
    rfl

/-- The number of iterations is bounded: the explored array cannot hold more
than one node plus one node per key. -/
theorem explored_length_le (ext : externals) (init_data : chessformer_t) (s : search_t)
    (hb : basic_inv ext init_data s) :
    s.exploredNodesArray.length + s.queue.length ≤ 1 + 256 ^ init_data.num_chars_map := by
  have h1 := hb.generated_count
  obtain ⟨children, he, hkeys⟩ := hb.enq
  have h2 := keys_length_le init_data.num_chars_map s.hashTable hb.table_nodup hb.table_len
  have h3 : children.length = s.hashTable.length := by
    simpa using congrArg List.length hkeys
  have h4 : (enqueued s).length = 1 + children.length := by
    rw [he]
    simp [Nat.add_comm]
  simp only [enqueued, List.length_append] at h4
  omega

theorem bfs_loop_terminates (ext : externals) (init_data : chessformer_t)
    (hwf : wf_board init_data) (hd : preserves_dims ext init_data)
    (hcap : 1 ≤ ext.INITIAL_CAPACITY) :
    ∀ (fuel : Nat) (s : search_t), run_state ext init_data s →
      1 + 256 ^ init_data.num_chars_map - s.exploredNodesArray.length < fuel →
      ∃ r, bfs_loop ext init_data fuel s = some r
  | 0, _, _, h => by omega
  | fuel + 1, s, hrs, h => by
    unfold bfs_loop
    by_cases hdone : loop_done s = true
    · exact ⟨s, by simp [hdone]⟩
    · have hnd : loop_done s = false := by simpa using hdone
      have hb := basic_inv_of_run_state ext init_data s hrs
      obtain ⟨s', hs'⟩ := explore_step_isSome ext init_data hwf hd s hb hnd
        (capacity_inv_of_run_state ext init_data hcap s hrs)
      obtain ⟨g, t, hq, hE⟩ := explore_step_explored ext init_data s s' hs'
      have hle := explored_length_le ext init_data s hb
      rw [hq] at hle
      simp only [List.length_cons] at hle
      obtain ⟨r, hr⟩ := bfs_loop_terminates ext init_data hwf hd hcap fuel s'
        (run_state.step s s' hrs hnd hs') (by rw [hE]; simp only [List.length_append,
          List.length_cons, List.length_nil]; omega)
      exact ⟨r, by simp [hdone, hs', hr]⟩

/-- The search terminates without undefined behaviour. -/
theorem search_terminates (ext : externals) (init_data : chessformer_t)
    (hwf : wf_board init_data) (hd : preserves_dims ext init_data)
    (hcap : 1 ≤ ext.INITIAL_CAPACITY) :
    ∃ r, find_solution_search ext init_data (2 + 256 ^ init_data.num_chars_map) = some r :=
  bfs_loop_terminates ext init_data hwf hd hcap _ _ run_state.init
    (by
      simp only [search_init, List.length_nil]
      generalize 256 ^ init_data.num_chars_map = N
      omega)

/-! ## From the search loop to `find_solution` -/

@[simp] theorem cleanup_solution (s : search_t) : (cleanup s).solution = s.solution := rfl

@[simp] theorem cleanup_solution_size (s : search_t) :
    (cleanup s).solution_size = s.solution_size := rfl

@[simp] theorem cleanup_generatedNodes (s : search_t) :
    (cleanup s).generatedNodes = s.generatedNodes := rfl

@[simp] theorem cleanup_duplicatedNodes (s : search_t) :
    (cleanup s).duplicatedNodes = s.duplicatedNodes := rfl

@[simp] theorem cleanup_movedChildren (s : search_t) :
    (cleanup s).movedChildren = s.movedChildren := rfl

@[simp] theorem cleanup_exploredNodesArray (s : search_t) :
    (cleanup s).exploredNodesArray = s.exploredNodesArray := rfl

/-- A result of `find_solution` is the cleaned-up final state of its search
loop. -/
theorem find_solution_eq_some (ext : externals) (init_data : chessformer_t) (fopen_ok : Bool)
    (fuel : Nat) (res : result_t) (h : find_solution ext init_data fopen_ok fuel = some res) :
    ∃ r, find_solution_search ext init_data fuel = some r ∧ res.search = cleanup r := by
  unfold find_solution at h
  cases hr : find_solution_search ext init_data fuel with
  | none => simp [hr] at h
  | some r =>
    refine ⟨r, rfl, ?_⟩
    simp only [hr, Option.map_some', Option.some.injEq] at h
    subst h
    cases hs : (cleanup r).solution with
    | none => simp only []
    | some buf => cases fopen_ok <;> simp

/-- When the search loop returns, `find_solution` returns, whatever the outcome
of opening the result file. -/
theorem find_solution_of_search (ext : externals) (init_data : chessformer_t)
    (fopen_ok : Bool) (fuel : Nat) (r : search_t)
    (h : find_solution_search ext init_data fuel = some r) :
    ∃ res, find_solution ext init_data fopen_ok fuel = some res ∧ res.search = cleanup r := by
  cases hres : find_solution ext init_data fopen_ok fuel with
  | none => simp [find_solution, h] at hres
  | some res =>
    obtain ⟨r', hr', hc⟩ := find_solution_eq_some ext init_data fopen_ok fuel res hres
    rw [h] at hr'
    rw [← Option.some.inj hr'] at hc
    exact ⟨res, rfl, hc⟩

/-! ## Shortest solutions -/

theorem run_moves_snoc (ext : externals) (init_data : chessformer_t) (st t : state_t)
    (pre : List (Int × Int)) (mv : Int × Int)
    (h : run_moves ext init_data st (pre ++ [mv]) = some t) :
    ∃ st0, run_moves ext init_data st pre = some st0 ∧
      mv ∈ candidate_moves (current_state_of init_data) st0 ∧
      ext.execute_move (current_state_of init_data) st0 mv.1 mv.2 = (true, t) := by
  rw [run_moves_append] at h
  cases h0 : run_moves ext init_data st pre with
  | none => simp [h0] at h
  | some st0 =>
    simp only [h0, Option.some_bind, run_moves] at h
    refine ⟨st0, rfl, ?_⟩
    split at h
    · rename_i hmem
      split at h
      · rename_i hm
        simp only [Option.some.injEq] at h
        exact ⟨hmem, Prod.ext hm h⟩
      · simp at h
    · simp at h

/-- While the goal has not been found, every board that a move sequence of
length at most `D` produces is the snapshot of an enqueued node that is at
most as deep as the sequence is long, where `D` bounds the depth of the
queued nodes from below. -/
theorem path_node (ext : externals) (init_data : chessformer_t) (hwf : wf_board init_data)
    (hd : preserves_dims ext init_data) (hf : grid_determines_player ext init_data)
    (s : search_t) (D : Nat) (hb : basic_inv ext init_data s)
    (hc : complete_inv ext init_data s) (hD : ∀ q ∈ s.queue, D ≤ q.depth) :
    ∀ (mvs : List (Int × Int)) (st : state_t),
      run_moves ext init_data (initial_state init_data) mvs = some st → mvs.length ≤ D →
      ∃ n ∈ enqueued s, n.state = st ∧ n.depth ≤ mvs.length := by
  intro mvs
  induction mvs using List.reverseRecOn with
  | nil =>
    intro st hr _
    simp only [run_moves, Option.some.injEq] at hr
    obtain ⟨children, he, _⟩ := hb.enq
    exact ⟨create_init_node init_data, by rw [he]; exact List.mem_cons_self _ _, hr,
      by simp [create_init_node]⟩
  | append_singleton pre mv ih =>
    intro st hr hlen
    simp only [List.length_append, List.length_cons, List.length_nil] at hlen ⊢
    obtain ⟨st0, hr0, hmv, hex⟩ := run_moves_snoc ext init_data _ st pre mv hr
    obtain ⟨n0, hn0, hst0, hdep0⟩ := ih st0 hr0 (by omega)
    have hn0E : n0 ∈ s.exploredNodesArray := by
      rcases List.mem_append.mp hn0 with h1 | h1
      · exact h1
      · have := hD n0 h1
        omega
    have hv0 := hb.valid n0 hn0
    have hd0 := valid_node_dims ext init_data hwf hd n0 hv0
    have hcl := hc.closed n0 hn0E mv (by rw [hst0]; exact hmv)
    unfold closed_for at hcl
    rw [applyAction_eq ext init_data n0 mv.1 mv.2 hd0, hst0, hex] at hcl
    obtain ⟨n, hn, hkey, _, hdep⟩ := hcl rfl
    simp only [node_t.state_mk] at hkey
    have hvn := hb.valid n hn
    have hdn := valid_node_dims ext init_data hwf hd n hvn
    have hdst : dims_ok init_data st :=
      reachable_dims ext init_data hwf hd _ _ st (dims_ok_root init_data hwf) hr
    have hmap := flat_key_injective init_data n.state st hdn hdst hkey
    have hst := hf n.state st (valid_node_reachable ext init_data hwf hd n hvn)
      ⟨pre ++ [mv], hr⟩ hmap
    exact ⟨n, hn, hst, by omega⟩

theorem process_move_solution (ext : externals) (init_data cs : chessformer_t) (h : node_t)
    (s s' : search_t) (mv : Int × Int)
    (hp : process_move ext init_data cs h s mv = some s') : s'.solution = s.solution := by
  rcases process_move_cases ext init_data cs h s s' mv hp with
    ⟨_, rfl⟩ | ⟨_, _, _, _, rfl⟩ | ⟨_, _, _, _, rfl⟩ <;> rfl

/-- A state that records a solution was produced by an iteration that dequeued a
goal node from a state without solution. -/
theorem run_state_solved (ext : externals) (init_data : chessformer_t) (r : search_t)
    (buf : List c_char) (hr : run_state ext init_data r) (hsol : r.solution = some buf) :
    ∃ s g t, run_state ext init_data s ∧ s.solution = none ∧ s.queue = g :: t ∧
      ext.winning_condition (current_state_of init_data) g.state = true ∧
      r.solution_size = g.depth ∧ buf = saveSolution g ∧
      r.exploredNodesArray = s.exploredNodesArray ++ [g] := by
  cases hr with
  | init => simp [search_init] at hsol
  | step s _ hs hnd he =>
    obtain ⟨hnone, _⟩ := solution_none_of_not_done s hnd
    obtain ⟨g, t, hq, hcase⟩ := explore_step_cases ext init_data s r he
    rcases hcase with ⟨hg, rfl⟩ | ⟨_, hfold⟩
    · simp only [Option.some.injEq] at hsol
      exact ⟨s, g, t, hs, hnone, hq, hg, rfl, hsol.symm, rfl⟩
    · have hkeep := foldlM_invariant
        (process_move ext init_data (current_state_of init_data) g)
        (fun _ u => u.solution = s.solution)
        (candidate_moves (current_state_of init_data) g.state) []
        { s with
          queue := t
          exploredNodes := s.exploredNodes + 1
          capacity := if s.exploredNodes + 1 > s.capacity then s.capacity * 2 else s.capacity
          exploredNodesArray := s.exploredNodesArray ++ [g] } r
        (fun _ a _ u u' _ _ hP hf => by
          show u'.solution = _
          rw [process_move_solution ext init_data _ g u u' a hf]
          exact hP) rfl hfold
      simp only at hkeep
      rw [hkeep, hnone] at hsol
      simp at hsol

/-- What the search returns, for an executor that keeps the dimensions and boards
whose grid determines the player position: without a recorded solution no
move sequence reaches the goal; a recorded solution has `solution_size`
moves, some sequence of that length reaches the goal and none shorter does. -/
theorem search_result_optimal (ext : externals) (init_data : chessformer_t)
    (hwf : wf_board init_data) (hd : preserves_dims ext init_data)
    (hf : grid_determines_player ext init_data) (r : search_t)
    (hr : run_state ext init_data r) (hdone : loop_done r = true) :
    (r.solution = none → ∀ mvs, ¬ reaches_goal ext init_data mvs) ∧
    (∀ buf, r.solution = some buf →
      (∃ sol, sol.length = r.solution_size ∧ reaches_goal ext init_data sol) ∧
      ∀ mvs, reaches_goal ext init_data mvs → r.solution_size ≤ mvs.length) := by
  constructor
  · intro hnone mvs hgoal
    obtain ⟨t, hrun, hwin⟩ := hgoal
    have hb := basic_inv_of_run_state ext init_data r hr
    have hc := (level_inv_of_run_state ext init_data r hr).2 hnone
    have hq : r.queue = [] := by
      unfold loop_done is_queue_empty at hdone
      simp only [hnone, Option.isSome_none, Bool.or_false, List.isEmpty_iff] at hdone
      exact hdone
    obtain ⟨n, hn, hst, _⟩ := path_node ext init_data hwf hd hf r mvs.length hb hc
      (by intro q hq'; rw [hq] at hq'; simp at hq') mvs t hrun (le_refl _)
    simp only [enqueued, hq, List.append_nil] at hn
    have := hc.not_goal n hn
    rw [hst, hwin] at this
    exact absurd this (by simp)
  · intro buf hsol
    obtain ⟨s, g, t, hs, hnone, hq, hg, hsize, _, _⟩ :=
      run_state_solved ext init_data r buf hr hsol
    have hb := basic_inv_of_run_state ext init_data s hs
    obtain ⟨⟨d, hl⟩, hc'⟩ := level_inv_of_run_state ext init_data s hs
    have hc := hc' hnone
    have hgv := hb.valid g (by simp [enqueued, hq])
    constructor
    · obtain ⟨sol, hlen, hrun⟩ := valid_node_path ext init_data hwf hd g hgv
      exact ⟨sol, by rw [hlen, hsize], g.state, hrun, hg⟩
    · intro mvs hgoal
      obtain ⟨u, hrun, hwin⟩ := hgoal
      by_contra hlt
      have hsorted := hl.queue_sorted
      rw [hq, List.pairwise_cons] at hsorted
      obtain ⟨n, hn, hst, hdep⟩ := path_node ext init_data hwf hd hf s g.depth hb hc
        (by
          intro q hq'
          rw [hq] at hq'
          rcases List.mem_cons.mp hq' with h1 | h1
          · rw [h1]
          · exact hsorted.1 q h1) mvs u hrun (by omega)
      have hnE : n ∈ s.exploredNodesArray := by
        rcases List.mem_append.mp hn with h1 | h1
        · exact h1
        · rw [hq] at h1
          rcases List.mem_cons.mp h1 with h2 | h2
          · rw [h2] at hdep; omega
          · have := hsorted.1 n h2
            omega
      have := hc.not_goal n hnE
      rw [hst, hwin] at this
      exact absurd this (by simp)

/-! ## Facts about the concrete executors and boards -/

theorem grid_ok_set_cell (init_data : chessformer_t) (m : List (List c_char)) (x y : Int)
    (c : c_char) (h : grid_ok init_data m) : grid_ok init_data (set_cell m x y c) := by
  obtain ⟨h1, h2⟩ := h
  unfold set_cell
  refine ⟨by simp [h1], ?_⟩
  intro row hrow
  by_cases hi : (y - 1).toNat < m.length
  · rcases List.mem_or_eq_of_mem_set hrow with hr | hr
    · exact h2 row hr
    · rw [hr, List.length_set, List.getD_eq_getElem _ _ hi]
      exact h2 _ (List.getElem_mem _)
  · rw [List.set_eq_of_length_le (by omega)] at hrow
    exact h2 row hrow

theorem capture_preserves_dims (init_data : chessformer_t) :
    preserves_dims capture_ext init_data := by
  intro st dx dy h
  show dims_ok init_data (capture_move (current_state_of init_data) st dx dy).2
  unfold capture_move
  split
  · exact grid_ok_set_cell _ _ _ _ _ (grid_ok_set_cell _ _ _ _ _ h)
  · exact h

theorem walk_preserves_dims (init_data : chessformer_t) :
    preserves_dims walk_ext init_data := by
  intro st dx dy h
  show dims_ok init_data (walk_move (current_state_of init_data) st dx dy).2
  unfold walk_move
  split
  · exact grid_ok_set_cell _ _ _ _ _ (grid_ok_set_cell _ _ _ _ _ h)
  · exact h

theorem blind_preserves_dims (init_data : chessformer_t) :
    preserves_dims blind_ext init_data := by
  intro st dx dy h
  exact h

theorem wf_trivial_board : wf_board trivial_board := by
  refine ⟨by decide, by decide, ?_⟩
  intro row hrow
  simp only [trivial_board, List.mem_singleton] at hrow
  subst hrow
  decide

theorem wf_open_board : wf_board open_board := by
  refine ⟨by decide, by decide, ?_⟩
  intro row hrow
  simp only [open_board, List.mem_singleton] at hrow
  subst hrow
  decide

/-- On the board `@$` the capturing executor reaches two boards only. -/
theorem trivial_board_reachable (st : state_t)
    (h : reachable capture_ext trivial_board st) :
    st = { map := [[64, 36]], player_x := 1, player_y := 1 } ∨
      st = { map := [[46, 64]], player_x := 2, player_y := 1 } := by
  obtain ⟨mvs, hr⟩ := h
  match mvs, hr with
  | [], hr =>
    left
    simp only [run_moves, Option.some.injEq] at hr
    exact hr.symm
  | mv :: rest, hr =>
    simp only [run_moves] at hr
    split at hr
    · rename_i hmem
      have hc : candidate_moves (current_state_of trivial_board) (initial_state trivial_board) =
          [(1, 0)] := by rfl
      rw [hc, List.mem_singleton] at hmem
      subst hmem
      have he : capture_ext.execute_move (current_state_of trivial_board)
          (initial_state trivial_board) (1, 0).1 (1, 0).2 =
          (true, { map := [[46, 64]], player_x := 2, player_y := 1 }) := by rfl
      rw [he] at hr
      simp only [if_true] at hr
      match rest, hr with
      | [], hr =>
        right
        simp only [run_moves, Option.some.injEq] at hr
        exact hr.symm
      | mv' :: rest', hr =>
        simp only [run_moves] at hr
        split at hr
        · rename_i hmem'
          have hc' : candidate_moves (current_state_of trivial_board)
              { map := [[46, 64]], player_x := 2, player_y := 1 } = [(-1, 0)] := by rfl
          rw [hc', List.mem_singleton] at hmem'
          subst hmem'
          have he' : (capture_ext.execute_move (current_state_of trivial_board)
              { map := [[46, 64]], player_x := 2, player_y := 1 } (-1, 0).1 (-1, 0).2).1 =
              false := by rfl
          rw [he'] at hr
          simp at hr
        · simp at hr
    · simp at hr

theorem trivial_board_faithful : grid_determines_player capture_ext trivial_board := by
  intro s1 s2 h1 h2 hmap
  rcases trivial_board_reachable s1 h1 with rfl | rfl <;>
    rcases trivial_board_reachable s2 h2 with rfl | rfl <;>
    first
      | rfl
      | exact absurd hmap (by decide)

/-- Results of the loop for different amounts of fuel agree. -/
theorem bfs_loop_unique (ext : externals) (init_data : chessformer_t) (f1 f2 : Nat)
    (s r1 r2 : search_t) (h1 : bfs_loop ext init_data f1 s = some r1)
    (h2 : bfs_loop ext init_data f2 s = some r2) : r1 = r2 := by
  have e1 := bfs_loop_mono ext init_data f1 s r1 f2 h1
  have e2 := bfs_loop_mono ext init_data f2 s r2 f1 h2
  rw [Nat.add_comm] at e2
  rw [e1] at e2
  exact Option.some.inj e2

/-! ## Decoding and replaying a solution -/

theorem int_to_char_val (v : Int) (h0 : 0 ≤ v) (h1 : v < 256) :
    ((int_to_char v).val : Int) = v := by
  unfold int_to_char
  simp only [Fin.ofNat, Fin.val_mk]
  omega

theorem decode_solution_append_pair : ∀ (A : List c_char) (x y : c_char), 2 ∣ A.length →
    decode_solution (A ++ [x, y]) =
      decode_solution A ++ [((x.val : Int) - 96, (y.val : Int) - 48)]
  | [], x, y, _ => by simp [decode_solution]
  | [a], x, y, h => by simp at h
  | a :: b :: A, x, y, h => by
    have h' : 2 ∣ A.length := by
      simp only [List.length_cons] at h
      omega
    simp [decode_solution, decode_solution_append_pair A x y h']

theorem replay_solution_append (ext : externals) (init_data : chessformer_t) :
    ∀ (D : List (Int × Int)) (st : state_t) (E : List (Int × Int)),
      replay_solution ext init_data st (D ++ E) =
        (replay_solution ext init_data st D).bind (fun t => replay_solution ext init_data t E)
  | [], st, E => by simp [replay_solution]
  | d :: D, st, E => by
    simp only [List.cons_append, replay_solution]
    split
    · exact replay_solution_append ext init_data D _ E
    · rfl

theorem c_str_append_nul (A rest : List c_char) (h : ∀ c ∈ A, c ≠ 0) :
    c_str (A ++ 0 :: rest) = A := by
  unfold c_str
  induction A with
  | nil => simp
  | cons a A ih =>
    have ha := h a (List.mem_cons_self _ _)
    simp only [List.cons_append, List.takeWhile_cons, ne_eq, ha, not_false_eq_true,
      decide_True, if_true, List.cons.injEq, true_and]
    exact ih (fun c hc => h c (List.mem_cons_of_mem _ hc))

/-- For a node built by the search on a board of at most 159 columns and 207
rows, no move character is NUL and replaying the decoded characters yields
the snapshot of the node. -/
theorem valid_node_round_trip (ext : externals) (init_data : chessformer_t)
    (hwf : wf_board init_data) (hd : preserves_dims ext init_data)
    (hw : row_width init_data ≤ 159) (hl : init_data.lines ≤ 207) (n : node_t)
    (h : valid_node ext init_data n) :
    (∀ c ∈ solution_chars n, c ≠ 0) ∧
      replay_solution ext init_data (initial_state init_data)
        (decode_solution (solution_chars n)) = some n.state := by
  induction h with
  | root =>
    simp [create_init_node, solution_chars, decode_solution, replay_solution, initial_state]
  | child p mv hp hmv hm ih =>
    obtain ⟨ih1, ih2⟩ := ih
    have hdp := valid_node_dims ext init_data hwf hd p hp
    rw [applyAction_eq ext init_data p mv.1 mv.2 hdp] at hm ⊢
    simp only at hm
    obtain ⟨_, hx1, hx2, hy1, hy2⟩ := (mem_candidate_moves _ _ _).mp hmv
    have hx2' : p.state.player_x + mv.1 ≤ 159 := by
      have : ((current_state_of init_data).num_chars_map /
        (current_state_of init_data).lines : Nat) ≤ 159 := hw
      omega
    have hy2' : p.state.player_y + mv.2 ≤ 207 := by
      have : (current_state_of init_data).lines ≤ 207 := hl
      omega
    have hvx := int_to_char_val (96 + p.state.player_x + mv.1) (by omega) (by omega)
    have hvy := int_to_char_val (48 + p.state.player_y + mv.2) (by omega) (by omega)
    have hlen : 2 ∣ (solution_chars p).length := ⟨_, solution_chars_length p⟩
    simp only [solution_chars, move_char_x, move_char_y, node_t.move_delta_x_mk,
      node_t.move_delta_y_mk, node_t.state_mk]
    constructor
    · intro c hc
      rcases List.mem_append.mp hc with h1 | h1
      · exact ih1 c h1
      · simp only [List.mem_cons, List.mem_singleton, List.not_mem_nil, or_false] at h1
        intro h0
        rcases h1 with h1 | h1
        · rw [← h1, h0] at hvx
          simp at hvx
          omega
        · rw [← h1, h0] at hvy
          simp at hvy
          omega
    · rw [decode_solution_append_pair _ _ _ hlen, replay_solution_append, ih2, hvx, hvy]
      simp only [Option.some_bind, replay_solution]
      have e1 : 96 + p.state.player_x + mv.1 - 96 - p.state.player_x = mv.1 := by omega
      have e2 : 48 + p.state.player_y + mv.2 - 48 - p.state.player_y = mv.2 := by omega
      rw [e1, e2, hm]
      rfl

/-! ## The properties of the search, claim by claim -/

/-- C1, counterexample. With an executor that keeps no player marker in the grid
(`blind_move`) on the board `...`, the goal "player in column 3" is reached by
the single candidate move `(2, 0)`, the board is well formed and the executor
keeps the dimensions, yet `find_solution` ends without a solution (two nodes
explored, two generated, three duplicates), whatever the fuel: the child of
`(2, 0)` has the same flattened key as the child of `(1, 0)` and is discarded
as a duplicate. The explored-node array starts with two slots. -/
theorem C1_counterexample :
    reaches_goal blind_ext open_board [(2, 0)] ∧
      wf_board open_board ∧ preserves_dims blind_ext open_board ∧
      1 ≤ blind_ext.INITIAL_CAPACITY ∧
      (find_solution blind_ext open_board true 5).map
          (fun res => (res.search.solution, res.search.exploredNodes,
            res.search.generatedNodes, res.search.duplicatedNodes)) =
        some (none, 2, 2, 3) ∧
      (∀ fopen_ok fuel res, find_solution blind_ext open_board fopen_ok fuel = some res →
        res.search.solution = none) :=
  ⟨⟨_, rfl, rfl⟩, wf_open_board, blind_preserves_dims open_board, by decide, rfl,
    fun fopen_ok fuel res h => by
      obtain ⟨r, hr, hc⟩ := find_solution_eq_some blind_ext open_board fopen_ok fuel res h
      have h5 : ∃ r0, find_solution_search blind_ext open_board 5 = some r0 ∧
          r0.solution = none := ⟨_, rfl, rfl⟩
      obtain ⟨r0, e0, hs0⟩ := h5
      rw [hc, cleanup_solution, bfs_loop_unique blind_ext open_board fuel 5 _ r r0 hr e0]
      exact hs0⟩

/-- C1, amended. For a well-formed board, an executor that keeps the grid
dimensions, an explored-node array of at least one initial slot
(`INITIAL_CAPACITY >= 1`), and boards whose grid determines the player
position among the reachable ones: if some sequence of candidate moves reaches a goal board, the
search returns (for some fuel, without undefined behaviour) with a solution,
the goal node is the last explored node, its depth is `solution_size`, some
move sequence of that length reaches the goal and no shorter one does. -/
theorem C1_bfs_optimal (ext : externals) (init_data : chessformer_t)
    (hwf : wf_board init_data) (hd : preserves_dims ext init_data)
    (hcap : 1 ≤ ext.INITIAL_CAPACITY)
    (hf : grid_determines_player ext init_data) (mvs : List (Int × Int))
    (hgoal : reaches_goal ext init_data mvs) (fopen_ok : Bool) :
    ∃ fuel res buf g, find_solution ext init_data fopen_ok fuel = some res ∧
      res.search.solution = some buf ∧ res.search.exploredNodesArray.getLast? = some g ∧
      buf = saveSolution g ∧
      ext.winning_condition (current_state_of init_data) g.state = true ∧
      g.depth = res.search.solution_size ∧
      (∃ sol, sol.length = res.search.solution_size ∧ reaches_goal ext init_data sol) ∧
      (∀ other, reaches_goal ext init_data other →
        res.search.solution_size ≤ other.length) := by
  obtain ⟨r, hr⟩ := search_terminates ext init_data hwf hd hcap
  obtain ⟨hrs, hdone⟩ := run_state_of_search ext init_data _ r hr
  obtain ⟨hnone, hsome⟩ := search_result_optimal ext init_data hwf hd hf r hrs hdone
  obtain ⟨res, hres, hclean⟩ := find_solution_of_search ext init_data fopen_ok _ r hr
  cases hsol : r.solution with
  | none => exact absurd hgoal (hnone hsol mvs)
  | some buf =>
    obtain ⟨g, hlast, hbuf, hwin, hsize⟩ :=
      (basic_inv_of_run_state ext init_data r hrs).solved buf hsol
    obtain ⟨hex, hmin⟩ := hsome buf hsol
    refine ⟨_, res, buf, g, hres, ?_, ?_, hbuf, hwin, ?_, ?_, ?_⟩
    · rw [hclean]; exact hsol
    · rw [hclean]; exact hlast
    · rw [hclean]; exact hsize.symm
    · rw [hclean]; exact hex
    · rw [hclean]; exact hmin

/-- C1, witness: the capturing executor on the board `@$`. -/
theorem C1_bfs_optimal_witness :
    wf_board trivial_board ∧ preserves_dims capture_ext trivial_board ∧
      1 ≤ capture_ext.INITIAL_CAPACITY ∧
      grid_determines_player capture_ext trivial_board ∧
      reaches_goal capture_ext trivial_board [(1, 0)] ∧
      ∃ fuel res buf g, find_solution capture_ext trivial_board true fuel = some res ∧
        res.search.solution = some buf ∧ res.search.exploredNodesArray.getLast? = some g ∧
        buf = saveSolution g ∧
        capture_ext.winning_condition (current_state_of trivial_board) g.state = true ∧
        g.depth = res.search.solution_size ∧
        (∃ sol, sol.length = res.search.solution_size ∧
          reaches_goal capture_ext trivial_board sol) ∧
        (∀ other, reaches_goal capture_ext trivial_board other →
          res.search.solution_size ≤ other.length) :=
  ⟨wf_trivial_board, capture_preserves_dims trivial_board, by decide, trivial_board_faithful,
    ⟨_, rfl, rfl⟩,
    C1_bfs_optimal capture_ext trivial_board wf_trivial_board
      (capture_preserves_dims trivial_board) (by decide) trivial_board_faithful [(1, 0)]
      ⟨_, rfl, rfl⟩
      true⟩

/-- C2, counterexample. On a well-formed board of one row and 160 columns whose
only piece is in column 160, the capturing executor (which keeps the grid
dimensions) solves the puzzle with the single move to column 160; `saveSolution` stores `160 + 96 = 256` into a `char`,
which is NUL, so the solution string is empty: replaying it leaves the
initial board, which does not satisfy the goal test. Reading the two bytes
before the terminator instead gives the destination `(-96, 1)`, a move the
executor refuses. -/
theorem C2_counterexample :
    wf_board wide_board ∧ preserves_dims capture_ext wide_board ∧
      (find_solution capture_ext wide_board true 5).map
          (fun res => (res.search.solution, res.search.solution_size, res.solution_file)) =
        some (some [0, 49, 0, 0, 0], 1, some []) ∧
      c_str [0, 49, 0, 0, 0] = [] ∧
      replay_solution capture_ext wide_board (initial_state wide_board)
        (decode_solution (c_str [0, 49, 0, 0, 0])) = some (initial_state wide_board) ∧
      capture_ext.winning_condition (current_state_of wide_board)
        (initial_state wide_board) = false ∧
      decode_solution (List.take 2 [0, 49, 0, 0, 0]) = [(-96, 1)] ∧
      replay_solution capture_ext wide_board (initial_state wide_board)
        (decode_solution (List.take 2 [0, 49, 0, 0, 0])) = none := by
  have hwf : wf_board wide_board := by
    refine ⟨by decide, by decide, ?_⟩
    intro row hrow
    simp only [wide_board, List.mem_singleton] at hrow
    subst hrow
    simp [row_width, wide_board]
  set_option maxRecDepth 1000000 in
  exact ⟨hwf, capture_preserves_dims wide_board, rfl, rfl, rfl, rfl, rfl, rfl⟩

/-- C2, amended. On a well-formed board of at most 159 columns and 207 rows
(so that every column and row character fits a byte and is not NUL), with an
executor that keeps the grid dimensions: whenever the search returns a
solution, decoding its string and replaying the destinations through the
executor from the initial board succeeds at every move and ends on a board
that satisfies the goal test. -/
theorem C2_round_trip (ext : externals) (init_data : chessformer_t)
    (hwf : wf_board init_data) (hd : preserves_dims ext init_data)
    (hw : row_width init_data ≤ 159) (hl : init_data.lines ≤ 207) (fopen_ok : Bool)
    (fuel : Nat) (res : result_t) (buf : List c_char)
    (hres : find_solution ext init_data fopen_ok fuel = some res)
    (hsol : res.search.solution = some buf) :
    ∃ t, replay_solution ext init_data (initial_state init_data)
        (decode_solution (c_str buf)) = some t ∧
      ext.winning_condition (current_state_of init_data) t = true := by
  obtain ⟨r, hr, hclean⟩ := find_solution_eq_some ext init_data fopen_ok fuel res hres
  rw [hclean, cleanup_solution] at hsol
  obtain ⟨hrs, _⟩ := run_state_of_search ext init_data fuel r hr
  have hb := basic_inv_of_run_state ext init_data r hrs
  obtain ⟨g, hlast, hbuf, hwin, _⟩ := hb.solved buf hsol
  have hg : valid_node ext init_data g :=
    hb.valid g (List.mem_append_left _ (List.mem_of_getLast?_eq_some hlast))
  obtain ⟨h1, h2⟩ := valid_node_round_trip ext init_data hwf hd hw hl g hg
  refine ⟨g.state, ?_, hwin⟩
  rw [hbuf, saveSolution_eq, c_str_append_nul _ _ h1]
  exact h2

/-- C2, witness: the walking executor on the board `@..$`, whose solution
string is `b1c1d1`. -/
theorem C2_round_trip_witness :
    ∃ res buf, find_solution walk_ext corridor_board true 6 = some res ∧
      res.search.solution = some buf ∧ c_str buf = [98, 49, 99, 49, 100, 49] ∧
      ∃ t, replay_solution walk_ext corridor_board (initial_state corridor_board)
          (decode_solution (c_str buf)) = some t ∧
        walk_ext.winning_condition (current_state_of corridor_board) t = true :=
  ⟨_, _, rfl, rfl, rfl,
    C2_round_trip walk_ext corridor_board
      ⟨by decide, by decide, by
        intro row hrow
        simp only [corridor_board, List.mem_singleton] at hrow
        subst hrow
        decide⟩
      (walk_preserves_dims corridor_board) (by decide) (by decide) true 6 _ _ rfl rfl⟩


/-- C3, counterexample. On the board of one row and 160 columns whose only
piece is in column 160, the search with the capturing executor ends at a goal
node whose chain has `L = 2` nodes (the root and the child by the move
`(159, 0)`). The character of the destination column is `96 + 1 + 159 = 256`
stored in a `char`, which is NUL: `saveSolution` returns the bytes
`0, 49, 0, 0, 0`, a string of 0 characters and not of `2 * (L - 1) = 2`. -/
theorem C3_counterexample :
    (find_solution_search capture_ext wide_board 5).map
        (fun r => r.exploredNodesArray.getLast?.map
          (fun g => (capture_ext.winning_condition (current_state_of wide_board) g.state,
            hierarchyCount g, (chain g).length, g.move_delta_x, g.move_delta_y,
            g.parent.map (fun p => (p.state.player_x, p.state.player_y)),
            saveSolution g, c_str (saveSolution g), (c_str (saveSolution g)).length,
            2 * (hierarchyCount g - 1)))) =
      some (some (true, 2, 2, 159, 0, some (1, 1), [0, 49, 0, 0, 0], [], 0, 2)) ∧
      int_to_char (96 + 1 + 159) = 0 := by
  set_option maxRecDepth 1000000 in
  exact ⟨rfl, rfl⟩

/-- C3, amended. Format of the buffer returned by `saveSolution` for a node whose chain
has `L = hierarchyCount` nodes (the node, its ancestors, the root): the buffer
has `2 * L + 1` bytes, the terminator is at index `2 * (L - 1)`, and for every
`k` in `1 .. L - 1` the bytes at `2 * (k - 1)` and `2 * (k - 1) + 1` are the
characters `96 + parent.player_x + move_delta_x` and
`48 + parent.player_y + move_delta_y` of the chain node `k` moves from the
root (oldest move first); 96 is the backquote and 48 the digit zero, so the
coordinate 1 gives `a` (97) and `1` (49), and every coordinate in `1 .. 159`
gives the byte `96 + v`. When no move character is NUL the C string is exactly
these `2 * (L - 1)` characters, and for the root alone it is empty. -/
theorem C3_saveSolution_format (g : node_t) :
    (chain g).length = hierarchyCount g ∧
      hierarchyCount g = (ancestors g).length + 1 ∧
      (saveSolution g).length = 2 * hierarchyCount g + 1 ∧
      (saveSolution g)[2 * (hierarchyCount g - 1)]? = some 0 ∧
      (∀ k, 1 ≤ k → k < hierarchyCount g →
        ∃ c p, (chain g)[k]? = some c ∧ c.parent = some p ∧ (chain g)[k - 1]? = some p ∧
          (saveSolution g)[2 * (k - 1)]? =
            some (int_to_char (96 + p.state.player_x + c.move_delta_x)) ∧
          (saveSolution g)[2 * (k - 1) + 1]? =
            some (int_to_char (48 + p.state.player_y + c.move_delta_y))) ∧
      (∀ v : Int, 1 ≤ v → v ≤ 159 → ((int_to_char (96 + v)).val : Int) = 96 + v) ∧
      (∀ v : Int, 1 ≤ v → v ≤ 207 → ((int_to_char (48 + v)).val : Int) = 48 + v) ∧
      int_to_char (96 + 1) = 97 ∧ int_to_char (48 + 1) = 49 ∧
      ((∀ c ∈ (saveSolution g).take (2 * (hierarchyCount g - 1)), c ≠ 0) →
        c_str (saveSolution g) = (saveSolution g).take (2 * (hierarchyCount g - 1)) ∧
          (c_str (saveSolution g)).length = 2 * (hierarchyCount g - 1)) ∧
      (hierarchyCount g = 1 → c_str (saveSolution g) = []) := by
  have hlen := solution_chars_length g
  have hpos := hierarchyCount_pos g
  have htake : (saveSolution g).take (2 * (hierarchyCount g - 1)) = solution_chars g := by
    rw [saveSolution_eq, ← hlen, List.take_left']
    rfl
  refine ⟨chain_length g, hierarchyCount_eq_ancestors g, ?_, ?_, ?_, ?_, ?_, rfl, rfl, ?_, ?_⟩
  · rw [saveSolution_eq, List.length_append, hlen]
    simp only [List.length_cons, List.length_nil]
    omega
  · rw [saveSolution_eq, ← hlen, List.getElem?_append_right (le_refl _)]
    simp
  · intro k h1 h2
    obtain ⟨c, p, e1, e2, e3, e4, e5⟩ := solution_chars_index g k h1 h2
    refine ⟨c, p, e1, e2, e3, ?_, ?_⟩
    · rw [saveSolution_eq, List.getElem?_append_left (by omega)]
      exact e4
    · rw [saveSolution_eq, List.getElem?_append_left (by omega)]
      exact e5
  · intro v h1 h2
    exact int_to_char_val _ (by omega) (by omega)
  · intro v h1 h2
    exact int_to_char_val _ (by omega) (by omega)
  · intro hnz
    rw [htake] at hnz ⊢
    rw [saveSolution_eq, c_str_append_nul _ _ hnz]
    exact ⟨rfl, hlen⟩
  · intro h1
    have h0 : solution_chars g = [] := List.length_eq_zero.mp (by rw [hlen, h1])
    rw [saveSolution_eq, h0]
    rfl

/-- C3, witness: a root with the player at `(1, 1)` and its child by the move
`(1, 0)`; the buffer is `b1` followed by the terminator. -/
theorem C3_saveSolution_format_witness :
    saveSolution (node_t.mk 1 1 0 { map := [[46, 64]], player_x := 2, player_y := 1 }
        (some (node_t.mk 0 0 0 { map := [[64, 36]], player_x := 1, player_y := 1 } none))) =
        [98, 49, 0, 0, 0] ∧
      (saveSolution (node_t.mk 1 1 0 { map := [[46, 64]], player_x := 2, player_y := 1 }
        (some (node_t.mk 0 0 0 { map := [[64, 36]], player_x := 1, player_y := 1 }
          none))))[2 * (1 - 1)]? = some (int_to_char (96 + 1 + 1)) ∧
      c_str (saveSolution (node_t.mk 0 0 0 { map := [[64, 36]], player_x := 1, player_y := 1 }
        none)) = [] := by
  have h := C3_saveSolution_format
    (node_t.mk 1 1 0 { map := [[46, 64]], player_x := 2, player_y := 1 }
      (some (node_t.mk 0 0 0 { map := [[64, 36]], player_x := 1, player_y := 1 } none)))
  have h0 := C3_saveSolution_format
    (node_t.mk 0 0 0 { map := [[64, 36]], player_x := 1, player_y := 1 } none)
  refine ⟨rfl, ?_, h0.2.2.2.2.2.2.2.2.2.2 rfl⟩
  obtain ⟨c, p, e1, e2, e3, e4, _⟩ := h.2.2.2.2.1 1 (le_refl _) (by decide)
  simp only [chain, List.nil_append, List.cons_append, List.getElem?_cons_succ,
    List.getElem?_cons_zero, Option.some.injEq] at e1
  subst e1
  simp only [node_t.parent_mk, Option.some.injEq] at e2
  subst e2
  exact e4

/-- C4, the search at the failing input. With the walking executor on the board
`@..$` the search returns after exploring five nodes; the explored array
holds at index 0 the root and at index 2 a node of depth 2, two different
nodes with one and the same flattened key `@..$`: the key of the root is
never inserted into the visited set, so the child that walks back to the
initial board is accepted and expanded again. -/
theorem C4_root_expanded_twice :
    ∃ r a b, find_solution_search walk_ext corridor_board 6 = some r ∧
      r.exploredNodes = 5 ∧
      r.exploredNodesArray[0]? = some a ∧ r.exploredNodesArray[2]? = some b ∧
      a = create_init_node corridor_board ∧ a.depth = 0 ∧ b.depth = 2 ∧ a ≠ b ∧
      flat_key corridor_board a.state = some [64, 46, 46, 36] ∧
      flat_key corridor_board b.state = some [64, 46, 46, 36] ∧
      r.hashTable = [[46, 64, 46, 36], [64, 46, 46, 36], [46, 46, 64, 36], [46, 46, 46, 64]] :=
  ⟨_, _, _, rfl, rfl, rfl, rfl, rfl, rfl, rfl,
    fun h => absurd (congrArg node_t.depth h) (by decide), rfl, rfl, rfl⟩

/-- C5, the search at the failing input. With the capturing executor on the
board `@$` the search enqueues the root and one child, whose flattened keys
`@$` and `.@` are two distinct encodings, while `ht_insert` is called once:
the key of the root is never inserted. -/
theorem C5_root_key_not_inserted :
    ∃ r, find_solution_search capture_ext trivial_board 3 = some r ∧
      (enqueued r).map (fun n => flat_key trivial_board n.state) =
        [some [64, 36], some [46, 64]] ∧
      ((enqueued r).map (fun n => flat_key trivial_board n.state)).dedup.length = 2 ∧
      r.htInserts = 1 ∧ r.hashTable = [[46, 64]] :=
  ⟨_, rfl, rfl, rfl, rfl, rfl⟩

/-- C6, counterexample. Two snapshots of the same dimensions with the same grid
`..` and the player in column 1 and in column 2: `flatten_map` gives both the
key `..`, although `player_x` differs. -/
theorem C6_counterexample :
    dims_ok open_board { map := [[46, 46, 46]], player_x := 1, player_y := 1 } ∧
      dims_ok open_board { map := [[46, 46, 46]], player_x := 2, player_y := 1 } ∧
      flat_key open_board { map := [[46, 46, 46]], player_x := 1, player_y := 1 } =
        some [46, 46, 46] ∧
      flat_key open_board { map := [[46, 46, 46]], player_x := 2, player_y := 1 } =
        some [46, 46, 46] ∧
      ({ map := [[46, 46, 46]], player_x := 1, player_y := 1 } : state_t).player_x ≠
        ({ map := [[46, 46, 46]], player_x := 2, player_y := 1 } : state_t).player_x := by
  have hd : ∀ x : Int, dims_ok open_board { map := [[46, 46, 46]], player_x := x, player_y := 1 } := by
    intro x
    refine ⟨rfl, ?_⟩
    intro row hrow
    simp only [List.mem_singleton] at hrow
    subst hrow
    rfl
  exact ⟨hd 1, hd 2, rfl, rfl, by decide⟩

/-- C6, amended. The key is a faithful encoding of the grid alone: for two
snapshots of the instance dimensions (`lines` rows of width
`num_chars_map / lines`) `flatten_map` succeeds, equal keys imply equal grids,
and the key does not depend on the player coordinates. -/
theorem C6_key_faithful_for_grid (init_data : chessformer_t) (s1 s2 : state_t)
    (h1 : dims_ok init_data s1) (h2 : dims_ok init_data s2) :
    (flat_key init_data s1).isSome ∧
      (flat_key init_data s1 = flat_key init_data s2 → s1.map = s2.map) ∧
      (s1.map = s2.map → flat_key init_data s1 = flat_key init_data s2) ∧
      (∀ x y : Int, flat_key init_data { s1 with player_x := x, player_y := y } =
        flat_key init_data s1) :=
  ⟨by rw [flat_key_eq init_data s1 h1]; rfl,
    flat_key_injective init_data s1 s2 h1 h2,
    fun h => by unfold flat_key; rw [h],
    fun _ _ => rfl⟩

/-- C6, witness: two snapshots of the board `@$`. -/
theorem C6_key_faithful_for_grid_witness :
    (flat_key trivial_board { map := [[64, 36]], player_x := 1, player_y := 1 }).isSome ∧
      (flat_key trivial_board { map := [[64, 36]], player_x := 1, player_y := 1 } =
          flat_key trivial_board { map := [[46, 64]], player_x := 2, player_y := 1 } →
        ({ map := [[64, 36]], player_x := 1, player_y := 1 } : state_t).map =
          ({ map := [[46, 64]], player_x := 2, player_y := 1 } : state_t).map) ∧
      (({ map := [[64, 36]], player_x := 1, player_y := 1 } : state_t).map =
          ({ map := [[46, 64]], player_x := 2, player_y := 1 } : state_t).map →
        flat_key trivial_board { map := [[64, 36]], player_x := 1, player_y := 1 } =
          flat_key trivial_board { map := [[46, 64]], player_x := 2, player_y := 1 }) ∧
      (∀ x y : Int,
        flat_key trivial_board
          { ({ map := [[64, 36]], player_x := 1, player_y := 1 } : state_t) with
            player_x := x, player_y := y } =
        flat_key trivial_board { map := [[64, 36]], player_x := 1, player_y := 1 }) :=
  C6_key_faithful_for_grid trivial_board
    { map := [[64, 36]], player_x := 1, player_y := 1 }
    { map := [[46, 64]], player_x := 2, player_y := 1 }
    ⟨rfl, by intro row hrow; simp only [List.mem_singleton] at hrow; subst hrow; rfl⟩
    ⟨rfl, by intro row hrow; simp only [List.mem_singleton] at hrow; subst hrow; rfl⟩


theorem enqueued_le_distinct_keys (ext : externals) (init_data : chessformer_t) (s : search_t)
    (hb : basic_inv ext init_data s) :
    (enqueued s).length ≤
      1 + ((enqueued s).map (fun n => flat_key init_data n.state)).dedup.length := by
  obtain ⟨children, he, hkeys⟩ := hb.enq
  have hnd : (children.map (fun n => flat_key init_data n.state)).Nodup := by
    rw [hkeys]
    exact hb.table_nodup.map (Option.some_injective _)
  have hsub : children.map (fun n => flat_key init_data n.state) ⊆
      ((enqueued s).map (fun n => flat_key init_data n.state)).dedup := by
    intro k hk
    rw [List.mem_dedup, he, List.map_cons]
    exact List.mem_cons_of_mem _ hk
  have hle := (List.subperm_of_subset hnd hsub).length_le
  rw [List.length_map] at hle
  rw [he, List.length_cons]
  rw [he] at hle
  omega

/-- C7. Termination of the search loop. For a well-formed board (`lines >= 1`,
`lines` rows of at least the row width), an executor that keeps the grid
dimensions and an explored-node array of at least one initial slot
(`INITIAL_CAPACITY >= 1`) there is an amount of fuel for which the loop returns, without
undefined behaviour (and so does `find_solution`), in one of two final states: SOLVED, a solution is
recorded and the last dequeued node satisfies the goal test, or EXHAUSTED,
the queue is empty and `solution` is `NULL`. The number of enqueued nodes is
`generatedNodes`; it is at most 1 plus the number of distinct flattened keys
of the enqueued nodes, hence at most 1 plus the number `256 ^ num_chars_map`
of keys there are. -/
theorem C7_search_terminates (ext : externals) (init_data : chessformer_t)
    (hwf : wf_board init_data) (hd : preserves_dims ext init_data)
    (hcap : 1 ≤ ext.INITIAL_CAPACITY) :
    ∃ fuel r, find_solution_search ext init_data fuel = some r ∧
      (∀ fopen_ok, ∃ res, find_solution ext init_data fopen_ok fuel = some res ∧
        res.search = cleanup r) ∧
      ((∃ buf g, r.solution = some buf ∧ r.exploredNodesArray.getLast? = some g ∧
          ext.winning_condition (current_state_of init_data) g.state = true) ∨
        (r.queue = [] ∧ r.solution = none)) ∧
      (enqueued r).length = r.generatedNodes ∧
      (enqueued r).length ≤
        1 + ((enqueued r).map (fun n => flat_key init_data n.state)).dedup.length ∧
      (enqueued r).length ≤ 1 + 256 ^ init_data.num_chars_map := by
  obtain ⟨r, hr⟩ := search_terminates ext init_data hwf hd hcap
  obtain ⟨hrs, hdone⟩ := run_state_of_search ext init_data _ r hr
  have hb := basic_inv_of_run_state ext init_data r hrs
  refine ⟨_, r, hr, fun ok => find_solution_of_search ext init_data ok _ r hr, ?_,
    hb.generated_count, enqueued_le_distinct_keys ext init_data r hb, ?_⟩
  · cases hsol : r.solution with
    | none =>
      right
      unfold loop_done is_queue_empty at hdone
      simp only [hsol, Option.isSome_none, Bool.or_false, List.isEmpty_iff] at hdone
      exact ⟨hdone, rfl⟩
    | some buf =>
      left
      obtain ⟨g, hlast, _, hwin, _⟩ := hb.solved buf hsol
      exact ⟨buf, g, rfl, hlast, hwin⟩
  · have := explored_length_le ext init_data r hb
    simpa [enqueued] using this

/-- C7, witness: the walking executor on the board `@..$`. -/
theorem C7_search_terminates_witness :
    wf_board corridor_board ∧ preserves_dims walk_ext corridor_board ∧
      1 ≤ walk_ext.INITIAL_CAPACITY ∧
      ∃ fuel r, find_solution_search walk_ext corridor_board fuel = some r ∧
        (∀ fopen_ok, ∃ res, find_solution walk_ext corridor_board fopen_ok fuel = some res ∧
          res.search = cleanup r) ∧
        ((∃ buf g, r.solution = some buf ∧ r.exploredNodesArray.getLast? = some g ∧
            walk_ext.winning_condition (current_state_of corridor_board) g.state = true) ∨
          (r.queue = [] ∧ r.solution = none)) ∧
        (enqueued r).length = r.generatedNodes ∧
        (enqueued r).length ≤
          1 + ((enqueued r).map (fun n => flat_key corridor_board n.state)).dedup.length ∧
        (enqueued r).length ≤ 1 + 256 ^ corridor_board.num_chars_map :=
  have hwf : wf_board corridor_board :=
    ⟨by decide, by decide, by
      intro row hrow
      simp only [corridor_board, List.mem_singleton] at hrow
      subst hrow
      decide⟩
  ⟨hwf, walk_preserves_dims corridor_board, by decide,
    C7_search_terminates walk_ext corridor_board hwf (walk_preserves_dims corridor_board)
      (by decide)⟩

theorem process_move_created (ext : externals) (init_data cs : chessformer_t) (h : node_t)
    (s s' : search_t) (mv : Int × Int)
    (hp : process_move ext init_data cs h s mv = some s') :
    s'.created = s.created ++ [(applyAction ext cs h mv.1 mv.2).2] := by
  rcases process_move_cases ext init_data cs h s s' mv hp with
    ⟨_, rfl⟩ | ⟨_, _, _, _, rfl⟩ | ⟨_, _, _, _, rfl⟩ <;> rfl

/-- C8. Move enumeration. In an iteration that dequeues a node `g` which is not
a goal, with the player at `(px, py)`, `1 <= px <= W` and `1 <= py <= H`
(`H = lines`, `W = num_chars_map / lines`): the children built by
`applyAction` in this iteration are, in call order, the children for the
deltas of `candidate_moves`, each child recording its delta; a delta is in
that list exactly when it is not the zero vector and its destination
`(px + dx, py + dy)` lies in `[1, W] x [1, H]`; the list has no repetition,
`H * W - 1` entries, and is ordered by `dy` ascending and, for equal `dy`,
by `dx` ascending. -/
theorem C8_move_enumeration (ext : externals) (init_data : chessformer_t) (s s' : search_t)
    (g : node_t) (t : List node_t) (hq : s.queue = g :: t)
    (hng : ext.winning_condition (current_state_of init_data) g.state = false)
    (hs : explore_step ext init_data s = some s')
    (hx : 1 ≤ g.state.player_x ∧ g.state.player_x ≤ (row_width init_data : Int))
    (hy : 1 ≤ g.state.player_y ∧ g.state.player_y ≤ (init_data.lines : Int)) :
    s'.created = s.created ++
        (candidate_moves (current_state_of init_data) g.state).map
          (fun mv => (applyAction ext (current_state_of init_data) g mv.1 mv.2).2) ∧
      (∀ mv : Int × Int,
        (applyAction ext (current_state_of init_data) g mv.1 mv.2).2.move_delta_x = mv.1 ∧
        (applyAction ext (current_state_of init_data) g mv.1 mv.2).2.move_delta_y = mv.2) ∧
      (∀ dx dy : Int, (dx, dy) ∈ candidate_moves (current_state_of init_data) g.state ↔
        (dx, dy) ≠ (0, 0) ∧ 1 ≤ g.state.player_x + dx ∧
          g.state.player_x + dx ≤ (row_width init_data : Int) ∧
          1 ≤ g.state.player_y + dy ∧ g.state.player_y + dy ≤ (init_data.lines : Int)) ∧
      (candidate_moves (current_state_of init_data) g.state).Nodup ∧
      (candidate_moves (current_state_of init_data) g.state).length =
        init_data.lines * row_width init_data - 1 ∧
      (candidate_moves (current_state_of init_data) g.state).Pairwise move_before := by
  refine ⟨?_, fun mv => ⟨rfl, rfl⟩, fun dx dy => mem_candidate_moves _ _ (dx, dy),
    candidate_moves_nodup _ _, candidate_moves_length _ _ hx hy, candidate_moves_sorted _ _⟩
  obtain ⟨g', t', hq', hcase⟩ := explore_step_cases ext init_data s s' hs
  rw [hq] at hq'
  obtain ⟨rfl, rfl⟩ := List.cons.inj hq'
  rcases hcase with ⟨hg, _⟩ | ⟨_, hfold⟩
  · rw [hng] at hg
    exact absurd hg (by simp)
  · have := foldlM_invariant (process_move ext init_data (current_state_of init_data) g)
      (fun done u => u.created = s.created ++
        done.map (fun mv => (applyAction ext (current_state_of init_data) g mv.1 mv.2).2))
      (candidate_moves (current_state_of init_data) g.state) []
      { s with
        queue := t
        exploredNodes := s.exploredNodes + 1
        capacity := if s.exploredNodes + 1 > s.capacity then s.capacity * 2 else s.capacity
        exploredNodesArray := s.exploredNodesArray ++ [g] } s'
      (fun pre a _ u u' _ _ hP hf => by
        show u'.created = _
        rw [process_move_created ext init_data _ g u u' a hf, hP]
        simp)
      (by simp) hfold
    simpa using this

/-- C8, witness: the first iteration of the capturing executor on the board
`@$`, whose only candidate is `(1, 0)`. -/
theorem C8_move_enumeration_witness :
    ∃ s', explore_step capture_ext trivial_board (search_init capture_ext trivial_board) =
        some s' ∧
      candidate_moves (current_state_of trivial_board)
        (create_init_node trivial_board).state = [(1, 0)] ∧
      s'.created = (search_init capture_ext trivial_board).created ++
        (candidate_moves (current_state_of trivial_board)
          (create_init_node trivial_board).state).map
          (fun mv => (applyAction capture_ext (current_state_of trivial_board)
            (create_init_node trivial_board) mv.1 mv.2).2) ∧
      (candidate_moves (current_state_of trivial_board)
        (create_init_node trivial_board).state).length =
        trivial_board.lines * row_width trivial_board - 1 :=
  have h := C8_move_enumeration capture_ext trivial_board
    (search_init capture_ext trivial_board) _ (create_init_node trivial_board) [] rfl rfl rfl
    (by decide) (by decide)
  ⟨_, rfl, rfl, h.1, h.2.2.2.2.1⟩

/-- C9. Depth invariant. The node built by `create_init_node` has depth 0, no
parent and move delta `(0, 0)`; a node built by `create_node`, and so the
child returned by `applyAction`, has the depth of its parent plus one and the
parent as parent reference; and at every iteration boundary of a run every
node of the explored array and of the queue has a depth equal to the number
of its ancestors. -/
theorem C9_depth_invariant (ext : externals) (init_data : chessformer_t) (s : search_t)
    (hs : run_state ext init_data s) :
    ((create_init_node init_data).depth = 0 ∧ (create_init_node init_data).parent = none ∧
        (create_init_node init_data).move_delta_x = 0 ∧
        (create_init_node init_data).move_delta_y = 0 ∧
        ancestors (create_init_node init_data) = []) ∧
      (∀ (cs : chessformer_t) (p : node_t) (dx dy : Int),
        (create_node cs p dx dy).depth = p.depth + 1 ∧
        (create_node cs p dx dy).parent = some p ∧
        (applyAction ext cs p dx dy).2.depth = p.depth + 1 ∧
        (applyAction ext cs p dx dy).2.parent = some p ∧
        ancestors (applyAction ext cs p dx dy).2 = p :: ancestors p) ∧
      (∀ n ∈ s.exploredNodesArray, n.depth = (ancestors n).length) ∧
      (∀ n ∈ s.queue, n.depth = (ancestors n).length) := by
  have hb := basic_inv_of_run_state ext init_data s hs
  refine ⟨⟨rfl, rfl, rfl, rfl, rfl⟩, fun cs p dx dy => ⟨rfl, rfl, rfl, rfl, rfl⟩, ?_, ?_⟩
  · intro n hn
    exact valid_node_depth ext init_data n (hb.valid n (List.mem_append_left _ hn))
  · intro n hn
    exact valid_node_depth ext init_data n (hb.valid n (List.mem_append_right _ hn))

/-- C9, witness: the final state of the walking executor on the board `@..$`,
with five explored nodes of depths 0, 1, 2, 2 and 3. -/
theorem C9_depth_invariant_witness :
    ∃ r, find_solution_search walk_ext corridor_board 6 = some r ∧
      r.exploredNodesArray.map node_t.depth = [0, 1, 2, 2, 3] ∧
      (∀ n ∈ r.exploredNodesArray, n.depth = (ancestors n).length) ∧
      (∀ n ∈ r.queue, n.depth = (ancestors n).length) :=
  ⟨_, rfl, rfl,
    (C9_depth_invariant walk_ext corridor_board _
      (run_state_of_search walk_ext corridor_board 6 _ rfl).1).2.2⟩

/-- C10. Counter identity. When `find_solution` returns, `duplicatedNodes` plus
`generatedNodes - 1` equals the number of calls of `applyAction` for which
the executor reported movement, and `generatedNodes - 1` is the number of
children accepted into the frontier: the enqueued nodes are the root followed
by `generatedNodes - 1` children. -/
theorem C10_counter_identity (ext : externals) (init_data : chessformer_t)
    (fopen_ok : Bool) (fuel : Nat) (res : result_t)
    (hres : find_solution ext init_data fopen_ok fuel = some res) :
    res.search.duplicatedNodes + (res.search.generatedNodes - 1) = res.search.movedChildren ∧
      ∃ r children, find_solution_search ext init_data fuel = some r ∧
        enqueued r = create_init_node init_data :: children ∧
        children.length = res.search.generatedNodes - 1 := by
  obtain ⟨r, hr, hclean⟩ := find_solution_eq_some ext init_data fopen_ok fuel res hres
  have hb := basic_inv_of_run_state ext init_data r
    (run_state_of_search ext init_data fuel r hr).1
  rw [hclean]
  refine ⟨hb.counters, ?_⟩
  obtain ⟨children, he, _⟩ := hb.enq
  refine ⟨r, children, hr, he, ?_⟩
  have := hb.generated_count
  rw [he, List.length_cons] at this
  simp only [cleanup_generatedNodes]
  omega

/-- C10, witness: the walking executor on the board `@..$`: two duplicates,
five generated nodes, six moved children. -/
theorem C10_counter_identity_witness :
    ∃ res, find_solution walk_ext corridor_board true 6 = some res ∧
      res.search.duplicatedNodes = 2 ∧ res.search.generatedNodes = 5 ∧
      res.search.movedChildren = 6 ∧
      res.search.duplicatedNodes + (res.search.generatedNodes - 1) =
        res.search.movedChildren ∧
      ∃ r children, find_solution_search walk_ext corridor_board 6 = some r ∧
        enqueued r = create_init_node corridor_board :: children ∧
        children.length = res.search.generatedNodes - 1 :=
  ⟨_, rfl, rfl, rfl, rfl, C10_counter_identity walk_ext corridor_board true 6 _ rfl⟩

/-! ## Every node is freed once -/

theorem applyAction_parent (ext : externals) (cs : chessformer_t) (p : node_t) (dx dy : Int) :
    (applyAction ext cs p dx dy).2.parent = some p := rfl

theorem applyAction_delta (ext : externals) (cs : chessformer_t) (p : node_t) (dx dy : Int) :
    (applyAction ext cs p dx dy).2.move_delta_x = dx ∧
      (applyAction ext cs p dx dy).2.move_delta_y = dy := ⟨rfl, rfl⟩

theorem applyAction_child_injective (ext : externals) (cs : chessformer_t) (p : node_t)
    (a b : Int × Int)
    (h : (applyAction ext cs p a.1 a.2).2 = (applyAction ext cs p b.1 b.2).2) : a = b := by
  have hx := congrArg node_t.move_delta_x h
  have hy := congrArg node_t.move_delta_y h
  rw [(applyAction_delta ext cs p a.1 a.2).1, (applyAction_delta ext cs p b.1 b.2).1] at hx
  rw [(applyAction_delta ext cs p a.1 a.2).2, (applyAction_delta ext cs p b.1 b.2).2] at hy
  exact Prod.ext hx hy

theorem perm_move_one {α : Type} (Q E F : List α) (c : α) :
    (Q ++ E ++ F ++ [c]).Perm (Q ++ [c] ++ E ++ F) := by
  apply Multiset.coe_eq_coe.mp
  simp only [← Multiset.coe_add]
  abel

theorem perm_dequeue {α : Type} (g : α) (t E F : List α) :
    ((g :: t) ++ E ++ F).Perm (t ++ (E ++ [g]) ++ F) := by
  apply Multiset.coe_eq_coe.mp
  rw [show g :: t = [g] ++ t from rfl]
  simp only [← Multiset.coe_add]
  abel

theorem perm_cleanup {α : Type} (Q E F : List α) :
    (F ++ Q ++ E.reverse).Perm (Q ++ E ++ F) := by
  apply Multiset.coe_eq_coe.mp
  simp only [← Multiset.coe_add, Multiset.coe_reverse]
  abel

theorem process_move_partition (ext : externals) (init_data cs : chessformer_t) (h : node_t)
    (s s' : search_t) (mv : Int × Int)
    (hp : process_move ext init_data cs h s mv = some s')
    (hperm : List.Perm s.created (s.queue ++ s.exploredNodesArray ++ s.freed)) :
    List.Perm s'.created (s'.queue ++ s'.exploredNodesArray ++ s'.freed) := by
  rcases process_move_cases ext init_data cs h s s' mv hp with
    ⟨_, rfl⟩ | ⟨_, _, _, _, rfl⟩ | ⟨_, _, _, _, rfl⟩
  · simp only [← List.append_assoc]
    exact List.Perm.append_right _ hperm
  · simp only [← List.append_assoc]
    exact List.Perm.append_right _ hperm
  · exact (List.Perm.append_right _ hperm).trans (perm_move_one _ _ _ _)

/-- The candidate loops for the node `g`: closed form of the creation record,
and the partition of the created nodes is kept. -/
theorem expand_release (ext : externals) (init_data : chessformer_t) (g : node_t)
    (s s' : search_t)
    (hperm : List.Perm s.created (s.queue ++ s.exploredNodesArray ++ s.freed))
    (hp : (candidate_moves (current_state_of init_data) g.state).foldlM
      (process_move ext init_data (current_state_of init_data) g) s = some s') :
    s'.created = s.created ++
        (candidate_moves (current_state_of init_data) g.state).map
          (fun mv => (applyAction ext (current_state_of init_data) g mv.1 mv.2).2) ∧
      s'.exploredNodesArray = s.exploredNodesArray ∧
      List.Perm s'.created (s'.queue ++ s'.exploredNodesArray ++ s'.freed) := by
  have := foldlM_invariant (process_move ext init_data (current_state_of init_data) g)
    (fun done u => u.created = s.created ++
        done.map (fun mv => (applyAction ext (current_state_of init_data) g mv.1 mv.2).2) ∧
      u.exploredNodesArray = s.exploredNodesArray ∧
      List.Perm u.created (u.queue ++ u.exploredNodesArray ++ u.freed))
    (candidate_moves (current_state_of init_data) g.state) [] s s'
    (fun pre a _ u u' _ _ hP hf => by
      obtain ⟨h1, h2, h3⟩ := hP
      refine ⟨?_, ?_, process_move_partition ext init_data _ g u u' a hf h3⟩
      · rw [process_move_created ext init_data _ g u u' a hf, h1]
        simp
      · rw [process_move_explored ext init_data _ g u u' a hf, h2])
    ⟨by simp, rfl, hperm⟩ hp
  simpa using this

theorem release_inv_init (ext : externals) (init_data : chessformer_t) :
    release_inv (search_init ext init_data) where
  partition := by simp [search_init, enqueue]
  nodup := by simp [search_init]
  parents := by
    intro c hc p hp
    simp only [search_init, List.mem_singleton] at hc
    subst hc
    simp [create_init_node] at hp

theorem release_inv_step (ext : externals) (init_data : chessformer_t) (s s' : search_t)
    (hr : release_inv s) (hs : explore_step ext init_data s = some s') : release_inv s' := by
  obtain ⟨g, t, hq, hcase⟩ := explore_step_cases ext init_data s s' hs
  have hperm : List.Perm s.created (t ++ (s.exploredNodesArray ++ [g]) ++ s.freed) := by
    refine hr.partition.trans ?_
    rw [hq]
    exact perm_dequeue g t _ _
  have hnd : (s.queue ++ s.exploredNodesArray ++ s.freed).Nodup :=
    hr.partition.nodup_iff.mp hr.nodup
  have hgE : g ∉ s.exploredNodesArray := by
    intro hg
    rw [hq, List.append_assoc, List.cons_append] at hnd
    have := (List.nodup_cons.mp hnd).1
    exact this (List.mem_append_right _ (List.mem_append_left _ hg))
  rcases hcase with ⟨_, rfl⟩ | ⟨_, hfold⟩
  · refine ⟨hperm, hr.nodup, ?_⟩
    intro c hc p hp
    exact List.mem_append_left _ (hr.parents c hc p hp)
  · obtain ⟨hcr, hE, hpart⟩ := expand_release ext init_data g
      { s with
        queue := t
        exploredNodes := s.exploredNodes + 1
        capacity := if s.exploredNodes + 1 > s.capacity then s.capacity * 2 else s.capacity
        exploredNodesArray := s.exploredNodesArray ++ [g] } s' hperm hfold
    simp only at hcr hE
    refine ⟨hpart, ?_, ?_⟩
    · rw [hcr]
      refine List.nodup_append.mpr ⟨hr.nodup, ?_, ?_⟩
      · exact (candidate_moves_nodup _ _).map_on
          (fun a _ b _ h => applyAction_child_injective ext _ g a b h)
      · intro c hc hc'
        obtain ⟨mv, _, rfl⟩ := List.mem_map.mp hc'
        exact hgE (hr.parents _ hc g (applyAction_parent ext _ g mv.1 mv.2))
    · intro c hc p hp
      rw [hE]
      rw [hcr] at hc
      rcases List.mem_append.mp hc with h1 | h1
      · exact List.mem_append_left _ (hr.parents c h1 p hp)
      · obtain ⟨mv, _, rfl⟩ := List.mem_map.mp h1
        rw [applyAction_parent] at hp
        rw [← Option.some.inj hp]
        simp

theorem release_inv_of_run_state (ext : externals) (init_data : chessformer_t) (s : search_t)
    (h : run_state ext init_data s) : release_inv s := by
  induction h with
  | init => exact release_inv_init ext init_data
  | step s s' _ _ hs ih => exact release_inv_step ext init_data s s' ih hs

theorem root_mem_created (ext : externals) (init_data : chessformer_t) (s : search_t)
    (h : run_state ext init_data s) : create_init_node init_data ∈ s.created := by
  have hr := release_inv_of_run_state ext init_data s h
  obtain ⟨children, he, _⟩ := (basic_inv_of_run_state ext init_data s h).enq
  have hmem : create_init_node init_data ∈ s.queue ++ s.exploredNodesArray ++ s.freed := by
    have : create_init_node init_data ∈ enqueued s := by rw [he]; exact List.mem_cons_self _ _
    simp only [enqueued, List.mem_append] at this ⊢
    tauto
  exact hr.partition.mem_iff.mpr hmem

/-- C11. Every node is released exactly once. At every iteration boundary of
the search loop the created nodes (the root and every node returned by
`applyAction`: accepted children, duplicates, unmoved candidates) are pairwise
different and are, up to order, the nodes of the queue, of the explored array
and the nodes already passed to `free_state`, with no node in two of the
three or twice in one. When `find_solution` returns (with or without a
solution) the queue is empty and the arguments of `free_state` are, up to
order, the created nodes, each exactly once. -/
theorem C11_released_exactly_once (ext : externals) (init_data : chessformer_t) (s : search_t)
    (hs : run_state ext init_data s) :
    create_init_node init_data ∈ s.created ∧ s.created.Nodup ∧
      List.Perm s.created (s.queue ++ s.exploredNodesArray ++ s.freed) ∧
      (s.queue ++ s.exploredNodesArray ++ s.freed).Nodup ∧
      ∀ (fopen_ok : Bool) (fuel : Nat) (res : result_t),
        find_solution ext init_data fopen_ok fuel = some res →
        res.search.queue = [] ∧ res.search.freed.Nodup ∧
          List.Perm res.search.freed res.search.created := by
  have hr := release_inv_of_run_state ext init_data s hs
  refine ⟨root_mem_created ext init_data s hs, hr.nodup, hr.partition,
    hr.partition.nodup_iff.mp hr.nodup, ?_⟩
  intro fopen_ok fuel res hres
  obtain ⟨r, hrun, hclean⟩ := find_solution_eq_some ext init_data fopen_ok fuel res hres
  have hrs := (run_state_of_search ext init_data fuel r hrun).1
  have hrr := release_inv_of_run_state ext init_data r hrs
  have hcount := (basic_inv_of_run_state ext init_data r hrs).explored_count
  have hperm : List.Perm (cleanup r).freed r.created := by
    unfold cleanup
    simp only [hcount, List.take_length]
    exact (perm_cleanup _ _ _).trans hrr.partition.symm
  rw [hclean]
  exact ⟨rfl, hperm.nodup_iff.mpr hrr.nodup, hperm⟩

/-- C11, witness: the final state of the walking executor on the board `@..$`:
thirteen nodes created, five of them explored, eight already freed. -/
theorem C11_released_exactly_once_witness :
    ∃ r, find_solution_search walk_ext corridor_board 6 = some r ∧
      r.created.length = 13 ∧ r.exploredNodesArray.length = 5 ∧ r.queue.length = 0 ∧
      r.freed.length = 8 ∧
      create_init_node corridor_board ∈ r.created ∧ r.created.Nodup ∧
      List.Perm r.created (r.queue ++ r.exploredNodesArray ++ r.freed) ∧
      (r.queue ++ r.exploredNodesArray ++ r.freed).Nodup ∧
      ∀ (fopen_ok : Bool) (fuel : Nat) (res : result_t),
        find_solution walk_ext corridor_board fopen_ok fuel = some res →
        res.search.queue = [] ∧ res.search.freed.Nodup ∧
          List.Perm res.search.freed res.search.created :=
  ⟨_, rfl, rfl, rfl, rfl, rfl,
    C11_released_exactly_once walk_ext corridor_board _
      (run_state_of_search walk_ext corridor_board 6 _ rfl).1⟩

/-! ## `winning_state` and the queue -/

theorem read_cell_eq (chessformer : chessformer_t) (i j : Nat)
    (hi : i < chessformer.map.length) (hj : j < (chessformer.map.getD i []).length) :
    read_cell chessformer i j = some (board_cell chessformer i j) := by
  unfold read_cell board_cell
  rw [List.getD_eq_getElem _ _ hi] at hj ⊢
  rw [List.getElem?_eq_getElem hi]
  simp only [hj, if_true]
  rw [List.getElem?_eq_getElem hj, List.getD_eq_getElem _ _ hj]

theorem winning_row_spec (chessformer : chessformer_t) (i : Nat)
    (hi : i < chessformer.map.length) :
    ∀ (k j : Nat), j + k ≤ (chessformer.map.getD i []).length →
      ∃ b, winning_row chessformer i k j = some b ∧
        (b = true ↔ ∀ c, j ≤ c → c < j + k → board_cell chessformer i c ≠ 36)
  | 0, j, _ => ⟨true, rfl, by simp; intro c h1 h2; omega⟩
  | k + 1, j, h => by
    have hread := read_cell_eq chessformer i j hi (by omega)
    by_cases hc : board_cell chessformer i j = 36
    · refine ⟨false, by simp [winning_row, hread, hc], ?_⟩
      simp only [Bool.false_eq_true, false_iff, not_forall]
      exact ⟨j, le_refl _, by omega, fun hne => hne hc⟩
    · obtain ⟨b, hb, hiff⟩ := winning_row_spec chessformer i hi k (j + 1) (by omega)
      refine ⟨b, by simp [winning_row, hread, hc, hb], ?_⟩
      rw [hiff]
      constructor
      · intro h1 c hjc hck
        rcases Nat.eq_or_lt_of_le hjc with rfl | hlt
        · exact hc
        · exact h1 c hlt (by omega)
      · intro h1 c hjc hck
        exact h1 c (by omega) (by omega)

theorem winning_rows_spec (chessformer : chessformer_t) (width : Nat) :
    ∀ (k i : Nat), i + k ≤ chessformer.map.length →
      (∀ r, i ≤ r → r < i + k → width ≤ (chessformer.map.getD r []).length) →
      ∃ b, winning_rows chessformer width k i = some b ∧
        (b = true ↔ ∀ r c, i ≤ r → r < i + k → c < width → board_cell chessformer r c ≠ 36)
  | 0, i, _, _ => ⟨true, rfl, by simp; intro r c h1 h2; omega⟩
  | k + 1, i, h, hw => by
    obtain ⟨b, hb, hiff⟩ := winning_row_spec chessformer i (by omega) width 0
      (by rw [Nat.zero_add]; exact hw i (le_refl _) (by omega))
    cases b with
    | false =>
      refine ⟨false, by simp [winning_rows, hb], ?_⟩
      simp only [Bool.false_eq_true, false_iff] at hiff ⊢
      intro hall
      exact hiff (fun c _ hc => hall i c (le_refl _) (by omega) (by omega))
    | true =>
      obtain ⟨b', hb', hiff'⟩ := winning_rows_spec chessformer width k (i + 1) (by omega)
        (fun r h1 h2 => hw r (by omega) (by omega))
      refine ⟨b', by simp [winning_rows, hb, hb'], ?_⟩
      rw [hiff']
      have hrow := hiff.mp rfl
      constructor
      · intro h1 r c hir hrk hc
        rcases Nat.eq_or_lt_of_le hir with rfl | hlt
        · exact hrow c (Nat.zero_le _) (by omega)
        · exact h1 r c hlt (by omega) hc
      · intro h1 r c hir hrk hc
        exact h1 r c (by omega) (by omega) hc

/-- C12. Goal predicate. On a board that has the `lines` rows of at least
`num_chars_map / lines` characters that the loops read, `winning_state`
returns, and it returns `true` if and only if no cell `map[i][j]` with
`i < lines` and `j < num_chars_map / lines` holds `$`; it returns `false` if
and only if some such cell holds `$`. -/
theorem C12_winning_state (chessformer : chessformer_t)
    (hrows : chessformer.lines ≤ chessformer.map.length)
    (hwidth : ∀ i, i < chessformer.lines →
      chessformer.num_chars_map / chessformer.lines ≤ (chessformer.map.getD i []).length) :
    (∃ b, winning_state chessformer = some b) ∧
      (winning_state chessformer = some true ↔
        ∀ i j, i < chessformer.lines → j < chessformer.num_chars_map / chessformer.lines →
          board_cell chessformer i j ≠ 36) ∧
      (winning_state chessformer = some false ↔
        ∃ i j, i < chessformer.lines ∧ j < chessformer.num_chars_map / chessformer.lines ∧
          board_cell chessformer i j = 36) ∧
      (∀ (i j : Nat) (hi : i < chessformer.map.length) (hj : j < (chessformer.map[i]).length),
        board_cell chessformer i j = (chessformer.map[i])[j]) := by
  obtain ⟨b, hb, hiff⟩ := winning_rows_spec chessformer
    (chessformer.num_chars_map / chessformer.lines) chessformer.lines 0
    (by rw [Nat.zero_add]; exact hrows) (fun r _ h => hwidth r (by omega))
  have hiff' : b = true ↔
      ∀ i j, i < chessformer.lines → j < chessformer.num_chars_map / chessformer.lines →
        board_cell chessformer i j ≠ 36 := by
    rw [hiff]
    exact ⟨fun h i j hi hj => h i j (Nat.zero_le _) (by omega) hj,
      fun h r c _ hr hc => h r c (by omega) hc⟩
  have hws : winning_state chessformer = some b := hb
  refine ⟨⟨b, hws⟩, ?_, ?_, ?_⟩
  · rw [hws, ← hiff']
    simp
  · rw [hws]
    have : (some b = some false) ↔ ¬ (b = true) := by cases b <;> simp
    rw [this, hiff']
    push_neg
    rfl
  · intro i j hi hj
    unfold board_cell
    rw [List.getD_eq_getElem _ _ hi, List.getD_eq_getElem _ _ hj]

/-- C12, witness: the board `@.#$` still holds a piece, in column index 3. -/
theorem C12_winning_state_witness :
    winning_state wall_board = some false ∧
      ∃ i j, i < wall_board.lines ∧ j < wall_board.num_chars_map / wall_board.lines ∧
        board_cell wall_board i j = 36 :=
  ⟨rfl, (C12_winning_state wall_board (by decide) (by decide)).2.2.1.mp rfl⟩

theorem enqueue_all_eq_append : ∀ (nodes : List node_t) (head : queue_t),
    enqueue_all head nodes = head ++ nodes
  | [], head => by simp [enqueue_all]
  | n :: nodes, head => by
    have ih := enqueue_all_eq_append nodes (enqueue head n)
    simp only [enqueue_all, List.foldl_cons] at ih ⊢
    rw [ih, enqueue_eq_append]
    simp

theorem dequeue_many_eq : ∀ (k : Nat) (head : queue_t), k ≤ head.length →
    dequeue_many k head = ((head.take k).map some, head.drop k)
  | 0, head, _ => by simp [dequeue_many]
  | k + 1, [], h => by simp at h
  | k + 1, n :: head, h => by
    have ih := dequeue_many_eq k head (by simpa using h)
    simp [dequeue_many, dequeue, ih]

/-- C13. The frontier queue is first in, first out. After the nodes `n1 .. nk`
are enqueued onto a queue holding `q1 .. qm`, the queue holds
`q1 .. qm, n1 .. nk`; `j` successive `dequeue` calls return the first `j` of
them in that order and leave the others; `is_queue_empty` is true exactly
when none is left; and `dequeue` on an empty queue returns the empty queue
with a `NULL` node. -/
theorem C13_queue_fifo (head : queue_t) (nodes : List node_t) :
    enqueue_all head nodes = head ++ nodes ∧
      dequeue_many (head ++ nodes).length (enqueue_all head nodes) =
        ((head ++ nodes).map some, []) ∧
      (∀ j, j ≤ (head ++ nodes).length →
        dequeue_many j (enqueue_all head nodes) =
          (((head ++ nodes).take j).map some, (head ++ nodes).drop j) ∧
        (is_queue_empty (dequeue_many j (enqueue_all head nodes)).2 = true ↔
          j = (head ++ nodes).length)) ∧
      (∀ q : queue_t, is_queue_empty q = true ↔ q = []) ∧
      (∀ (q : queue_t) (n : node_t), enqueue q n = q ++ [n] ∧
        is_queue_empty (enqueue q n) = false) ∧
      (∀ (n : node_t) (q : queue_t), dequeue (n :: q) = (q, some n)) ∧
      dequeue [] = ([], none) := by
  have he := enqueue_all_eq_append nodes head
  refine ⟨he, ?_, ?_, ?_, ?_, fun _ _ => rfl, rfl⟩
  · rw [he, dequeue_many_eq _ _ (le_refl _)]
    simp
  · intro j hj
    rw [he, dequeue_many_eq _ _ hj]
    refine ⟨rfl, ?_⟩
    simp only [is_queue_empty, List.isEmpty_iff, List.drop_eq_nil_iff]
    omega
  · intro q
    simp [is_queue_empty]
  · intro q n
    rw [enqueue_eq_append]
    exact ⟨rfl, by simp [is_queue_empty]⟩

/-! ## Scenarios -/

theorem process_move_accept (ext : externals) (init_data : chessformer_t) (g : node_t)
    (s : search_t) (mv : Int × Int) (k : List c_char)
    (hm : (applyAction ext (current_state_of init_data) g mv.1 mv.2).1 = true)
    (hk : flat_key init_data (applyAction ext (current_state_of init_data) g mv.1 mv.2).2.state =
      some k)
    (hnew : k ∉ s.hashTable) :
    process_move ext init_data (current_state_of init_data) g s mv =
      some { s with
        created := s.created ++ [(applyAction ext (current_state_of init_data) g mv.1 mv.2).2]
        movedChildren := s.movedChildren + 1
        hashTable := s.hashTable ++ [k]
        htInserts := s.htInserts + 1
        queue := s.queue ++ [(applyAction ext (current_state_of init_data) g mv.1 mv.2).2]
        generatedNodes := s.generatedNodes + 1 } := by
  unfold flat_key at hk
  unfold process_move
  simp only [hm, if_true, hk, ht_contains, hnew, decide_False, Bool.not_false,
    ht_insert_of_not_mem _ _ hnew, enqueue_eq_append]

theorem bfs_loop_step (ext : externals) (init_data : chessformer_t) (fuel : Nat)
    (s s' : search_t) (hd : loop_done s = false) (hs : explore_step ext init_data s = some s') :
    bfs_loop ext init_data (fuel + 1) s = bfs_loop ext init_data fuel s' := by
  rw [bfs_loop]
  simp only [hd, Bool.false_eq_true, if_false, hs, Option.some_bind]

theorem bfs_loop_done (ext : externals) (init_data : chessformer_t) (fuel : Nat)
    (s : search_t) (hd : loop_done s = true) : bfs_loop ext init_data fuel s = some s := by
  cases fuel <;> simp [bfs_loop, hd]

/-- An iteration that dequeues a goal node records the solution. -/
theorem explore_step_goal (ext : externals) (init_data : chessformer_t) (s : search_t)
    (g : node_t) (t : List node_t) (hq : s.queue = g :: t)
    (hslots : 1 ≤ s.capacity ∧ s.exploredNodes ≤ s.capacity)
    (hg : ext.winning_condition (current_state_of init_data) g.state = true) :
    explore_step ext init_data s =
      some { s with
        queue := t
        exploredNodes := s.exploredNodes + 1
        capacity := if s.exploredNodes + 1 > s.capacity then s.capacity * 2 else s.capacity
        exploredNodesArray := s.exploredNodesArray ++ [g]
        solution := some (saveSolution g)
        solution_size := g.depth } := by
  have hidx : s.exploredNodes + 1 - 1 <
      (if s.exploredNodes + 1 > s.capacity then s.capacity * 2 else s.capacity) := by
    split <;> omega
  unfold explore_step
  simp only [hq, dequeue, hidx, hg, if_true]

/-- C14. Trivial-board scenario. On a board of one row and two columns with the
player at `(1, 1)`, an executor that reports movement for the delta `(1, 0)`
and leaves a board of the same dimensions, a goal test that is false on
the initial board and true on the resulting board, and an explored-node array
of at least one initial slot (`INITIAL_CAPACITY >= 1`): `find_solution` returns
after two iterations with the solution string `b1` (bytes 98 and 49, length
2), `generatedNodes = 2`, `duplicatedNodes = 0`, two explored nodes and
solution length 1. -/
theorem C14_trivial_board (ext : externals) (init_data : chessformer_t)
    (hwf : wf_board init_data) (hlines : init_data.lines = 1)
    (hchars : init_data.num_chars_map = 2)
    (hpx : init_data.player_x = 1) (hpy : init_data.player_y = 1)
    (hcap : 1 ≤ ext.INITIAL_CAPACITY)
    (hmoved : (ext.execute_move (current_state_of init_data)
      (initial_state init_data) 1 0).1 = true)
    (hdims : dims_ok init_data (ext.execute_move (current_state_of init_data)
      (initial_state init_data) 1 0).2)
    (hgoal0 : ext.winning_condition (current_state_of init_data)
      (initial_state init_data) = false)
    (hgoal1 : ext.winning_condition (current_state_of init_data)
      (ext.execute_move (current_state_of init_data) (initial_state init_data) 1 0).2 = true)
    (fopen_ok : Bool) :
    ∃ res buf, find_solution ext init_data fopen_ok 2 = some res ∧
      res.search.solution = some buf ∧ c_str buf = [98, 49] ∧ (c_str buf).length = 2 ∧
      res.search.generatedNodes = 2 ∧ res.search.duplicatedNodes = 0 ∧
      res.search.exploredNodes = 2 ∧ res.search.solution_size = 1 := by
  have hroot := dims_ok_root init_data hwf
  have hcand : candidate_moves (current_state_of init_data) (initial_state init_data) =
      [(1, 0)] := by
    simp only [candidate_moves, current_state_of, initial_state, create_init_node,
      node_t.state_mk, hlines, hchars, hpx, hpy]
    rfl
  have happ := applyAction_eq ext init_data (create_init_node init_data) 1 0 hroot
  have hstate : (create_init_node init_data).state = initial_state init_data := rfl
  rw [hstate] at happ
  obtain ⟨k, hk⟩ : ∃ k, flat_key init_data
      (ext.execute_move (current_state_of init_data) (initial_state init_data) 1 0).2 =
      some k := ⟨_, flat_key_eq init_data _ hdims⟩
  have hchild_state : (applyAction ext (current_state_of init_data)
      (create_init_node init_data) 1 0).2.state =
      (ext.execute_move (current_state_of init_data) (initial_state init_data) 1 0).2 := by
    rw [happ]
    rfl
  have hstep1 : ∃ s1, explore_step ext init_data (search_init ext init_data) = some s1 ∧
      s1.queue = [(applyAction ext (current_state_of init_data)
        (create_init_node init_data) 1 0).2] ∧
      s1.solution = none ∧ s1.exploredNodes = 1 ∧ s1.generatedNodes = 2 ∧
      s1.duplicatedNodes = 0 ∧ s1.capacity = ext.INITIAL_CAPACITY := by
    have hnogrow : ¬ (0 + 1 > ext.INITIAL_CAPACITY) := by omega
    have hidx0 : 0 + 1 - 1 < ext.INITIAL_CAPACITY := by omega
    have h : explore_step ext init_data (search_init ext init_data) =
        some { search_init ext init_data with
          queue := [(applyAction ext (current_state_of init_data)
            (create_init_node init_data) 1 0).2]
          exploredNodes := 1
          capacity := ext.INITIAL_CAPACITY
          exploredNodesArray := [create_init_node init_data]
          created := [create_init_node init_data,
            (applyAction ext (current_state_of init_data) (create_init_node init_data) 1 0).2]
          movedChildren := 1
          hashTable := [k]
          htInserts := 1
          generatedNodes := 2 } := by
      unfold explore_step
      simp only [search_init, enqueue, dequeue, hnogrow, hidx0, if_true, hstate, hgoal0, hcand,
        List.foldlM_cons, List.foldlM_nil, Bool.false_eq_true, if_false]
      rw [process_move_accept ext init_data (create_init_node init_data) _ (1, 0) k
        (by rw [happ]; exact hmoved) (by rw [happ]; exact hk) (by simp [ht_setup])]
      simp [ht_setup]
    exact ⟨_, h, rfl, rfl, rfl, rfl, rfl, rfl⟩
  obtain ⟨s1, hs1, hq1, hsol1, hex1, hgen1, hdup1, hcap1⟩ := hstep1
  have hd0 : loop_done (search_init ext init_data) = false := rfl
  have hd1 : loop_done s1 = false := by simp [loop_done, is_queue_empty, hq1, hsol1]
  have hstep2 := explore_step_goal ext init_data s1 _ [] hq1
    (by rw [hcap1, hex1]; exact ⟨hcap, hcap⟩) (by rw [hchild_state]; exact hgoal1)
  have hrun : find_solution_search ext init_data 2 = some
      { s1 with
        queue := []
        exploredNodes := s1.exploredNodes + 1
        capacity := if s1.exploredNodes + 1 > s1.capacity then s1.capacity * 2 else s1.capacity
        exploredNodesArray := s1.exploredNodesArray ++
          [(applyAction ext (current_state_of init_data) (create_init_node init_data) 1 0).2]
        solution := some (saveSolution (applyAction ext (current_state_of init_data)
          (create_init_node init_data) 1 0).2)
        solution_size := (applyAction ext (current_state_of init_data)
          (create_init_node init_data) 1 0).2.depth } := by
    unfold find_solution_search
    rw [bfs_loop_step ext init_data 1 _ _ hd0 hs1, bfs_loop_step ext init_data 0 _ _ hd1 hstep2,
      bfs_loop_done ext init_data 0 _ (by simp [loop_done])]
  obtain ⟨res, hres, hclean⟩ := find_solution_of_search ext init_data fopen_ok 2 _ hrun
  refine ⟨res, _, hres, by rw [hclean]; rfl, ?_, ?_, by rw [hclean]; exact hgen1,
    by rw [hclean]; exact hdup1,
    by rw [hclean]; show s1.exploredNodes + 1 = 2; rw [hex1],
    by
      rw [hclean]
      show (applyAction ext (current_state_of init_data)
        (create_init_node init_data) 1 0).2.depth = 1
      rw [applyAction_depth]
      rfl⟩
  · rw [happ]
    simp only [hpx, hpy, saveSolution_eq, solution_chars, move_char_x, move_char_y,
      create_init_node, node_t.state_mk, node_t.move_delta_x_mk, node_t.move_delta_y_mk,
      List.nil_append]
    rfl
  · rw [happ]
    simp only [hpx, hpy, saveSolution_eq, solution_chars, move_char_x, move_char_y,
      create_init_node, node_t.state_mk, node_t.move_delta_x_mk, node_t.move_delta_y_mk,
      List.nil_append]
    rfl

/-- C14, witness: the capturing executor on the board `@$`. -/
theorem C14_trivial_board_witness :
    ∃ res buf, find_solution capture_ext trivial_board true 2 = some res ∧
      res.search.solution = some buf ∧ c_str buf = [98, 49] ∧ (c_str buf).length = 2 ∧
      res.search.generatedNodes = 2 ∧ res.search.duplicatedNodes = 0 ∧
      res.search.exploredNodes = 2 ∧ res.search.solution_size = 1 :=
  C14_trivial_board capture_ext trivial_board wf_trivial_board rfl rfl rfl rfl (by decide) rfl
    (capture_preserves_dims trivial_board _ 1 0 (dims_ok_root trivial_board wf_trivial_board))
    rfl rfl true

/-- A set of boards that contains the initial board and is closed under moves
that succeed contains every reachable board. -/
theorem reachable_closed (ext : externals) (init_data : chessformer_t) (P : state_t → Prop)
    (h0 : P (initial_state init_data))
    (hstep : ∀ (st : state_t) (mv : Int × Int), P st →
      mv ∈ candidate_moves (current_state_of init_data) st →
      (ext.execute_move (current_state_of init_data) st mv.1 mv.2).1 = true →
      P (ext.execute_move (current_state_of init_data) st mv.1 mv.2).2)
    (st : state_t) (h : reachable ext init_data st) : P st := by
  have key : ∀ (mvs : List (Int × Int)) (a b : state_t), P a →
      run_moves ext init_data a mvs = some b → P b := by
    intro mvs
    induction mvs with
    | nil =>
      intro a b ha hr
      simp only [run_moves, Option.some.injEq] at hr
      exact hr ▸ ha
    | cons mv mvs ih =>
      intro a b ha hr
      simp only [run_moves] at hr
      split at hr
      · rename_i hmem
        split at hr
        · rename_i hm
          exact ih _ b (hstep a mv ha hmem hm) hr
        · simp at hr
      · simp at hr
  obtain ⟨mvs, hr⟩ := h
  exact key mvs _ st h0 hr

/-- The walking executor on the board `@.#$` reaches two boards only. -/
theorem wall_board_reachable (st : state_t) (h : reachable walk_ext wall_board st) :
    st = { map := [[64, 46, 35, 36]], player_x := 1, player_y := 1 } ∨
      st = { map := [[46, 64, 35, 36]], player_x := 2, player_y := 1 } := by
  refine reachable_closed walk_ext wall_board
    (fun st => st = { map := [[64, 46, 35, 36]], player_x := 1, player_y := 1 } ∨
      st = { map := [[46, 64, 35, 36]], player_x := 2, player_y := 1 }) (Or.inl rfl) ?_ st h
  intro a mv ha hmv hm
  rcases ha with rfl | rfl
  · have hc : candidate_moves (current_state_of wall_board)
        { map := [[64, 46, 35, 36]], player_x := 1, player_y := 1 } =
        [(1, 0), (2, 0), (3, 0)] := rfl
    rw [hc] at hmv
    simp only [List.mem_cons, List.mem_singleton, List.not_mem_nil, or_false] at hmv
    rcases hmv with rfl | rfl | rfl
    · right; rfl
    · exact absurd hm (by decide)
    · exact absurd hm (by decide)
  · have hc : candidate_moves (current_state_of wall_board)
        { map := [[46, 64, 35, 36]], player_x := 2, player_y := 1 } =
        [(-1, 0), (1, 0), (2, 0)] := rfl
    rw [hc] at hmv
    simp only [List.mem_cons, List.mem_singleton, List.not_mem_nil, or_false] at hmv
    rcases hmv with rfl | rfl | rfl
    · left; rfl
    · exact absurd hm (by decide)
    · exact absurd hm (by decide)

/-- C15, the search at the failing input. With the walking executor on the
board `@.#$` the piece cannot be reached: exactly two boards are reachable
(`@.#$` and `.@#$`, with different keys) and none satisfies the goal test.
`find_solution` ends without a solution, but with `exploredNodes = 3`: the
explored nodes have the keys `@.#$`, `.@#$`, `@.#$`, the initial board being
explored a second time because its key was never inserted into the visited
set. -/
theorem C15_explored_count_off_by_one :
    (∀ st, reachable walk_ext wall_board st ↔
      (st = { map := [[64, 46, 35, 36]], player_x := 1, player_y := 1 } ∨
        st = { map := [[46, 64, 35, 36]], player_x := 2, player_y := 1 })) ∧
      flat_key wall_board { map := [[64, 46, 35, 36]], player_x := 1, player_y := 1 } ≠
        flat_key wall_board { map := [[46, 64, 35, 36]], player_x := 2, player_y := 1 } ∧
      (∀ mvs, ¬ reaches_goal walk_ext wall_board mvs) ∧
      (find_solution walk_ext wall_board true 5).map
          (fun res => (res.search.solution, res.search.queue.length, res.search.exploredNodes,
            res.search.exploredNodesArray.map (fun n => flat_key wall_board n.state))) =
        some (none, 0, 3,
          [some [64, 46, 35, 36], some [46, 64, 35, 36], some [64, 46, 35, 36]]) := by
  refine ⟨?_, by decide, ?_, rfl⟩
  · intro st
    constructor
    · exact wall_board_reachable st
    · rintro (rfl | rfl)
      · exact ⟨[], rfl⟩
      · exact ⟨[(1, 0)], rfl⟩
  · rintro mvs ⟨t, hr, hg⟩
    rcases wall_board_reachable t ⟨mvs, hr⟩ with rfl | rfl <;> exact absurd hg (by decide)

/-- C16, `find_solution` at the failing input. With the capturing executor on
the board `@$` a solution is found. When the result file can be opened the
string is written, `free(solution)` is executed and the statistics are
printed; when it cannot be opened nothing is written, `free(solution)` is not
executed and the statistics are not printed, the function having returned
right after the message. The nodes are freed on both paths, and the same
holds for every board and executor. -/
theorem C16_early_return_on_fopen_failure :
    (find_solution capture_ext trivial_board true 2).map
        (fun res => (res.search.solution, res.solution_file, res.solution_freed,
          res.stats_printed, res.search.freed.length)) =
      some (some [98, 49, 0, 0, 0], some [98, 49], true, true, 2) ∧
    (find_solution capture_ext trivial_board false 2).map
        (fun res => (res.search.solution, res.solution_file, res.solution_freed,
          res.stats_printed, res.search.freed.length)) =
      some (some [98, 49, 0, 0, 0], none, false, false, 2) ∧
    (∀ (ext : externals) (init_data : chessformer_t) (fuel : Nat) (res : result_t),
      find_solution ext init_data false fuel = some res → res.search.solution ≠ none →
      res.solution_freed = false ∧ res.stats_printed = false ∧ res.solution_file = none) := by
  refine ⟨rfl, rfl, ?_⟩
  intro ext init_data fuel res hres hsol
  unfold find_solution at hres
  cases hr : find_solution_search ext init_data fuel with
  | none => simp [hr] at hres
  | some r =>
    simp only [hr, Option.map_some', Option.some.injEq] at hres
    subst hres
    cases hs : (cleanup r).solution with
    | none =>
      simp only [hs] at hsol
      exact absurd rfl hsol
    | some buf => simp only [hs, Bool.false_eq_true, if_false, and_self]

/-! ## Deep copy and frame -/

theorem store_rows_length : ∀ (addrs : List Nat) (rows : List (List c_char)) (heap : row_heap),
    (store_rows heap addrs rows).length = heap.length
  | [], _, heap => by simp [store_rows]
  | _ :: _, [], heap => by simp [store_rows]
  | a :: addrs, row :: rows, heap => by
    rw [store_rows, store_rows_length addrs rows, List.length_set]

theorem store_rows_getD_of_not_mem : ∀ (addrs : List Nat) (rows : List (List c_char))
    (heap : row_heap) (b : Nat), b ∉ addrs →
    (store_rows heap addrs rows).getD b [] = heap.getD b []
  | [], _, heap, b, _ => by simp [store_rows]
  | _ :: _, [], heap, b, _ => by simp [store_rows]
  | a :: addrs, row :: rows, heap, b, h => by
    have hne : a ≠ b := fun e => h (e ▸ List.mem_cons_self _ _)
    have hb : b ∉ addrs := fun e => h (List.mem_cons_of_mem _ e)
    rw [store_rows, store_rows_getD_of_not_mem addrs rows _ b hb]
    simp [List.getD_eq_getElem?_getD, List.getElem?_set_ne hne]

theorem store_rows_load : ∀ (addrs : List Nat) (rows : List (List c_char)) (heap : row_heap),
    addrs.Nodup → (∀ a ∈ addrs, a < heap.length) → rows.length = addrs.length →
    addrs.map (fun a => (store_rows heap addrs rows).getD a []) = rows
  | [], rows, heap, _, _, h => by
    have : rows = [] := List.length_eq_zero.mp (by simpa using h)
    simp [this]
  | a :: addrs, [], heap, _, _, h => by simp at h
  | a :: addrs, row :: rows, heap, hnd, hlt, h => by
    obtain ⟨ha, hnd'⟩ := List.nodup_cons.mp hnd
    have hal : a < heap.length := hlt a (List.mem_cons_self _ _)
    rw [List.map_cons, store_rows, store_rows_getD_of_not_mem addrs rows _ a ha]
    have ih := store_rows_load addrs rows (heap.set a row) hnd'
      (fun b hb => by rw [List.length_set]; exact hlt b (List.mem_cons_of_mem _ hb))
      (by simpa using h)
    rw [ih]
    simp [List.getD_eq_getElem?_getD, hal]

theorem copy_state_mem_addrs (init_data : chessformer_t) (heap : row_heap) (src : state_ptr) :
    (copy_state_mem init_data heap src).2.map.Nodup ∧
      (∀ a ∈ (copy_state_mem init_data heap src).2.map,
        heap.length ≤ a ∧ a < (copy_state_mem init_data heap src).1.length) ∧
      (copy_state_mem init_data heap src).2.map.length =
        (src.map.take init_data.lines).length := by
  unfold copy_state_mem
  refine ⟨?_, ?_, by simp⟩
  · exact (List.nodup_range _).map (fun a b h => by simpa using h)
  · intro a ha
    simp only [List.mem_map, List.mem_range, List.length_map] at ha
    obtain ⟨i, hi, rfl⟩ := ha
    simp only [List.length_append, List.length_map]
    omega

theorem load_appended (heap rows : row_heap) :
    (List.range rows.length).map (fun (i : Nat) => (heap ++ rows).getD (heap.length + i) []) =
      rows := by
  apply List.ext_getElem
  · simp
  · intro i h1 h2
    simp [List.getD_eq_getElem?_getD, List.getElem?_append_right, h2]

/-- The stored copy holds the snapshot that `copy_state` computes. -/
theorem load_copy_state_mem (init_data : chessformer_t) (heap : row_heap) (src : state_ptr) :
    load_state (copy_state_mem init_data heap src).1 (copy_state_mem init_data heap src).2 =
      copy_state init_data (load_state heap src) := by
  unfold copy_state_mem load_state copy_state
  simp only [List.map_map, state_t.mk.injEq, and_self, and_true]
  rw [← List.map_take]
  exact load_appended heap _

/-- Buffers allocated before the call are not written by `applyAction`. -/
theorem applyAction_mem_frame (ext : externals) (init_data : chessformer_t) (heap : row_heap)
    (parent : state_ptr) (dx dy : Int) (b : Nat) (hb : b < heap.length) :
    (applyAction_mem ext init_data heap parent dx dy).2.1.getD b [] = heap.getD b [] := by
  unfold applyAction_mem
  simp only
  rw [store_rows_getD_of_not_mem]
  · unfold copy_state_mem
    simp [List.getD_eq_getElem?_getD, List.getElem?_append_left hb]
  · intro hmem
    have := ((copy_state_mem_addrs init_data heap parent).2.1 b hmem).1
    omega

theorem applyAction_mem_length (ext : externals) (init_data : chessformer_t) (heap : row_heap)
    (parent : state_ptr) (dx dy : Int) :
    heap.length ≤ (applyAction_mem ext init_data heap parent dx dy).2.1.length := by
  unfold applyAction_mem
  simp only
  rw [store_rows_length]
  unfold copy_state_mem
  simp

/-- A stored state whose buffers were allocated before the call holds the same
snapshot after it. -/
theorem applyAction_mem_load (ext : externals) (init_data : chessformer_t) (heap : row_heap)
    (parent q : state_ptr) (dx dy : Int) (hq : ∀ a ∈ q.map, a < heap.length) :
    load_state (applyAction_mem ext init_data heap parent dx dy).2.1 q = load_state heap q := by
  unfold load_state
  congr 1
  apply List.map_congr_left
  intro a ha
  exact applyAction_mem_frame ext init_data heap parent dx dy a (hq a ha)

theorem run_actions_mem_frame (ext : externals) (init_data : chessformer_t) :
    ∀ (calls : List (state_ptr × Int × Int)) (heap : row_heap) (b : Nat), b < heap.length →
      (run_actions_mem ext init_data heap calls).getD b [] = heap.getD b []
  | [], heap, b, _ => rfl
  | c :: calls, heap, b, hb => by
    rw [run_actions_mem, run_actions_mem_frame ext init_data calls _ b
      (lt_of_lt_of_le hb (applyAction_mem_length ext init_data heap c.1 c.2.1 c.2.2))]
    exact applyAction_mem_frame ext init_data heap c.1 c.2.1 c.2.2 b hb

/-- The memory version of `applyAction` computes what `applyAction` computes:
the same flag, and, when the executor keeps the number of rows, the stored
child holds the state of the child node. -/
theorem applyAction_mem_refines (ext : externals) (init_data : chessformer_t) (heap : row_heap)
    (parent : state_ptr) (n : node_t) (dx dy : Int) (hn : load_state heap parent = n.state) :
    (applyAction_mem ext init_data heap parent dx dy).1 = (applyAction ext init_data n dx dy).1 ∧
      ((applyAction ext init_data n dx dy).2.state.map.length =
          (copy_state init_data n.state).map.length →
        load_state (applyAction_mem ext init_data heap parent dx dy).2.1
            (applyAction_mem ext init_data heap parent dx dy).2.2 =
          (applyAction ext init_data n dx dy).2.state) := by
  have hc := load_copy_state_mem init_data heap parent
  rw [hn] at hc
  obtain ⟨hnd, hrange, hlen⟩ := copy_state_mem_addrs init_data heap parent
  have hclen : (copy_state_mem init_data heap parent).2.map.length =
      (copy_state init_data n.state).map.length := by
    rw [← hc]; simp [load_state]
  simp only [applyAction_mem, applyAction, create_node, node_t.state_mk, node_t.depth_mk,
    node_t.move_delta_x_mk, node_t.move_delta_y_mk, node_t.parent_mk, hc]
  refine ⟨trivial, fun hrows => ?_⟩
  unfold load_state
  rw [store_rows_load _ _ _ hnd (fun a ha => (hrange a ha).2) (by rw [hrows, hclen])]

/-- C17: child creation is a deep copy with frame. For a parent node whose
snapshot has the `lines` rows that `copy_state` reads, the node that
`applyAction` hands to the executor has depth `parent.depth + 1`, parent
reference the parent, the given delta and a snapshot equal to the parent's
(every row and both coordinates); the node returned keeps these fields and
holds the state the executor produced. On memory, the child rows live in
buffers allocated by the call, disjoint from every buffer that existed before,
the call (and any later sequence of calls) leaves every earlier buffer as it
was, so the stored parent state reads the same afterwards; and an iteration of
the loop only appends the dequeued node to the explored store. -/
theorem C17_child_is_deep_copy (ext : externals) (init_data : chessformer_t) (n : node_t)
    (dx dy : Int) (hrows : n.state.map.length = init_data.lines) :
    (create_node init_data n dx dy).depth = n.depth + 1 ∧
      (create_node init_data n dx dy).parent = some n ∧
      (create_node init_data n dx dy).move_delta_x = dx ∧
      (create_node init_data n dx dy).move_delta_y = dy ∧
      (create_node init_data n dx dy).state.map = n.state.map ∧
      (create_node init_data n dx dy).state.player_x = n.state.player_x ∧
      (create_node init_data n dx dy).state.player_y = n.state.player_y ∧
      applyAction ext init_data n dx dy =
        ((ext.execute_move init_data (create_node init_data n dx dy).state dx dy).1,
          node_t.mk (n.depth + 1) dx dy
            (ext.execute_move init_data (create_node init_data n dx dy).state dx dy).2
            (some n)) ∧
      (∀ (heap : row_heap) (parent : state_ptr),
        load_state heap parent = n.state → (∀ a ∈ parent.map, a < heap.length) →
        load_state (copy_state_mem init_data heap parent).1
            (copy_state_mem init_data heap parent).2 = n.state ∧
          (∀ a ∈ (copy_state_mem init_data heap parent).2.map,
            heap.length ≤ a ∧ a ∉ parent.map) ∧
          (applyAction_mem ext init_data heap parent dx dy).2.2.map =
            (copy_state_mem init_data heap parent).2.map ∧
          (applyAction_mem ext init_data heap parent dx dy).1 =
            (applyAction ext init_data n dx dy).1 ∧
          ((applyAction ext init_data n dx dy).2.state.map.length = init_data.lines →
            load_state (applyAction_mem ext init_data heap parent dx dy).2.1
                (applyAction_mem ext init_data heap parent dx dy).2.2 =
              (applyAction ext init_data n dx dy).2.state) ∧
          load_state (applyAction_mem ext init_data heap parent dx dy).2.1 parent = n.state ∧
          (∀ b, b < heap.length →
            (applyAction_mem ext init_data heap parent dx dy).2.1.getD b [] = heap.getD b []) ∧
          ∀ (calls : List (state_ptr × Int × Int)),
            load_state (run_actions_mem ext init_data heap calls) parent = n.state) ∧
      ∀ (s s' : search_t), explore_step ext init_data s = some s' →
        ∃ g t, s.queue = g :: t ∧ s'.exploredNodesArray = s.exploredNodesArray ++ [g] := by
  have hcopy : copy_state init_data n.state = n.state := by
    unfold copy_state
    rw [List.take_of_length_le (le_of_eq hrows)]
  refine ⟨rfl, rfl, rfl, rfl, ?_, rfl, rfl, rfl, ?_, ?_⟩
  · show (copy_state init_data n.state).map = n.state.map
    rw [hcopy]
  · intro heap parent hload haddr
    have href := applyAction_mem_refines ext init_data heap parent n dx dy hload
    refine ⟨?_, ?_, rfl, href.1, ?_, ?_, ?_, ?_⟩
    · rw [load_copy_state_mem, hload, hcopy]
    · intro a ha
      have hge := ((copy_state_mem_addrs init_data heap parent).2.1 a ha).1
      exact ⟨hge, fun hmem => absurd (haddr a hmem) (by omega)⟩
    · intro hlen
      exact href.2 (by rw [hlen, hcopy, hrows])
    · rw [applyAction_mem_load ext init_data heap parent parent dx dy haddr, hload]
    · intro b hb
      exact applyAction_mem_frame ext init_data heap parent dx dy b hb
    · intro calls
      rw [← hload]
      unfold load_state
      congr 1
      apply List.map_congr_left
      intro a ha
      exact run_actions_mem_frame ext init_data calls heap a (haddr a ha)
  · intro s s' hs
    exact explore_step_explored ext init_data s s' hs

/-- C17, witness: the root of the board `@$` stored in one buffer, the capture
to the right. The child is written to a second buffer and the stored root
still reads `@$`. -/
theorem C17_child_is_deep_copy_witness :
    (create_init_node trivial_board).state.map.length = trivial_board.lines ∧
      (create_node trivial_board (create_init_node trivial_board) 1 0).state.map =
        (create_init_node trivial_board).state.map ∧
      load_state
          (applyAction_mem capture_ext trivial_board [[64, 36]]
            { map := [0], player_x := 1, player_y := 1 } 1 0).2.1
          { map := [0], player_x := 1, player_y := 1 } =
        (create_init_node trivial_board).state ∧
      applyAction_mem capture_ext trivial_board [[64, 36]]
          { map := [0], player_x := 1, player_y := 1 } 1 0 =
        (true, [[64, 36], [46, 64]], { map := [1], player_x := 2, player_y := 1 }) :=
  ⟨rfl,
    (C17_child_is_deep_copy capture_ext trivial_board (create_init_node trivial_board) 1 0
      rfl).2.2.2.2.1,
    ((C17_child_is_deep_copy capture_ext trivial_board (create_init_node trivial_board) 1 0
      rfl).2.2.2.2.2.2.2.2.1 [[64, 36]] { map := [0], player_x := 1, player_y := 1 } rfl
      (by simp)).2.2.2.2.2.1,
    rfl⟩

/-! ## Row-major layout of the key -/

theorem flatten_length_of_width (w : Nat) : ∀ (m : List (List c_char)),
    (∀ row ∈ m, row.length = w) → m.flatten.length = m.length * w
  | [], _ => by simp
  | r :: m, h => by
    simp only [List.flatten_cons, List.length_append, List.length_cons]
    rw [flatten_length_of_width w m (fun row hr => h row (List.mem_cons_of_mem _ hr)),
      h r (List.mem_cons_self _ _)]
    ring

theorem flatten_getD_of_width (w : Nat) : ∀ (m : List (List c_char)) (i j : Nat),
    (∀ row ∈ m, row.length = w) → i < m.length → j < w →
    m.flatten.getD (i * w + j) 0 = (m.getD i []).getD j 0
  | [], i, j, _, hi, _ => by simp at hi
  | r :: m, 0, j, h, _, hj => by
    have hr := h r (List.mem_cons_self _ _)
    simp only [List.flatten_cons, Nat.zero_mul, Nat.zero_add, List.getD_eq_getElem?_getD,
      List.getElem?_cons_zero, Option.getD_some]
    rw [List.getElem?_append_left (by rw [hr]; exact hj)]
  | r :: m, i + 1, j, h, hi, hj => by
    have hr := h r (List.mem_cons_self _ _)
    have ih := flatten_getD_of_width w m i j (fun row hrow => h row (List.mem_cons_of_mem _ hrow))
      (by simpa using hi) hj
    simp only [List.getD_eq_getElem?_getD] at ih
    simp only [List.flatten_cons, List.getD_eq_getElem?_getD, List.getElem?_cons_succ]
    rw [List.getElem?_append_right (by rw [hr]; nlinarith), hr,
      show (i + 1) * w + j - w = i * w + j by rw [Nat.succ_mul]; omega]
    exact ih

theorem flatten_map_eq (init_data : chessformer_t) (w : Nat) (m : List (List c_char))
    (hrows : m.length = init_data.lines) (hwidth : ∀ row ∈ m, row.length = w)
    (hfit : init_data.lines * w ≤ init_data.num_chars_map) :
    flatten_rows init_data.lines m (calloc init_data.num_chars_map, 0) =
      some (m.flatten ++ List.replicate (init_data.num_chars_map - init_data.lines * w) 0,
        init_data.lines * w) := by
  have hlen : m.flatten.length = init_data.lines * w := by
    rw [flatten_length_of_width w m hwidth, hrows]
  have htake : m.take init_data.lines = m := List.take_of_length_le (by rw [hrows])
  have hsplit : calloc init_data.num_chars_map =
      [] ++ List.replicate (init_data.lines * w) 0 ++
        List.replicate (init_data.num_chars_map - init_data.lines * w) 0 := by
    simp only [calloc, List.nil_append, List.append_replicate_replicate]
    congr 1
    omega
  rw [hsplit, show (0 : Nat) = ([] : List c_char).length from rfl,
    flatten_rows_eq _ _ _ _ _ (by rw [hrows]) (by rw [htake, hlen]; simp)]
  simp [htake, hlen]

theorem grid_ext_of_width (w : Nat) (m1 m2 : List (List c_char)) (hl : m1.length = m2.length)
    (h1 : ∀ row ∈ m1, row.length = w) (h2 : ∀ row ∈ m2, row.length = w)
    (hcell : ∀ i j, i < m1.length → j < w → (m1.getD i []).getD j 0 = (m2.getD i []).getD j 0) :
    m1 = m2 := by
  apply List.ext_getElem hl
  intro i hi1 hi2
  have hr1 : (m1[i]).length = w := h1 _ (List.getElem_mem hi1)
  have hr2 : (m2[i]).length = w := h2 _ (List.getElem_mem hi2)
  apply List.ext_getElem (by rw [hr1, hr2])
  intro j hj1 hj2
  have := hcell i j hi1 (by rw [← hr1]; exact hj1)
  rw [List.getD_eq_getElem _ _ hi1, List.getD_eq_getElem _ _ hi2,
    List.getD_eq_getElem _ _ hj1, List.getD_eq_getElem _ _ hj2] at this
  exact this

/-- C18: `flatten_map` is the row-major flattening. For a grid of `lines` rows
of one length `W` with `lines * W <= num_chars_map`, `flatten_map` on a zeroed
buffer of `num_chars_map` bytes succeeds (no write falls outside the buffer; the
write index ends at `lines * W`), the result has `num_chars_map` bytes, byte
`i * W + j` is `map[i][j]`, every byte from `lines * W` on is zero, and a second
grid of the same dimensions has the same key iff it agrees cell by cell, iff it
is the same grid. -/
theorem C18_flatten_row_major (init_data : chessformer_t) (W : Nat) (m : List (List c_char))
    (hrows : m.length = init_data.lines) (hwidth : ∀ row ∈ m, row.length = W)
    (hfit : init_data.lines * W ≤ init_data.num_chars_map) :
    ∃ buf, flatten_map init_data (calloc init_data.num_chars_map) m = some buf ∧
      (flatten_rows init_data.lines m (calloc init_data.num_chars_map, 0)).map Prod.snd =
        some (init_data.lines * W) ∧
      buf.length = init_data.num_chars_map ∧
      buf = m.flatten ++ List.replicate (init_data.num_chars_map - init_data.lines * W) 0 ∧
      (∀ i j, i < init_data.lines → j < W →
        i * W + j < init_data.num_chars_map ∧
          buf.getD (i * W + j) 0 = (m.getD i []).getD j 0 ∧
          buf[i * W + j]? = (m[i]?).bind (fun row => row[j]?)) ∧
      (∀ k, init_data.lines * W ≤ k → k < init_data.num_chars_map → buf[k]? = some 0) ∧
      ∀ (m2 : List (List c_char)), m2.length = init_data.lines →
        (∀ row ∈ m2, row.length = W) →
        ((flatten_map init_data (calloc init_data.num_chars_map) m2 = some buf ↔
            ∀ i j, i < init_data.lines → j < W →
              (m2.getD i []).getD j 0 = (m.getD i []).getD j 0) ∧
          (flatten_map init_data (calloc init_data.num_chars_map) m2 = some buf ↔ m2 = m)) := by
  have hlen : m.flatten.length = init_data.lines * W := by
    rw [flatten_length_of_width W m hwidth, hrows]
  have hkey := flatten_map_eq init_data W m hrows hwidth hfit
  have hcellD : ∀ i j, i < init_data.lines → j < W →
      (m.flatten ++ List.replicate (init_data.num_chars_map - init_data.lines * W) 0).getD
        (i * W + j) 0 = (m.getD i []).getD j 0 := by
    intro i j hi hj
    have hlt : i * W + j < m.flatten.length := by
      rw [hlen]
      calc i * W + j < i * W + W := by omega
        _ = (i + 1) * W := by ring
        _ ≤ init_data.lines * W := Nat.mul_le_mul_right _ hi
    rw [← flatten_getD_of_width W m i j hwidth (by rw [hrows]; exact hi) hj]
    simp only [List.getD_eq_getElem?_getD]
    rw [List.getElem?_append_left hlt]
  have hiff : ∀ (m2 : List (List c_char)), m2.length = init_data.lines →
      (∀ row ∈ m2, row.length = W) →
      (flatten_map init_data (calloc init_data.num_chars_map) m2 =
          some (m.flatten ++
            List.replicate (init_data.num_chars_map - init_data.lines * W) 0) ↔ m2 = m) := by
    intro m2 h2r h2w
    constructor
    · intro hk
      have hkey2 := flatten_map_eq init_data W m2 h2r h2w hfit
      unfold flatten_map at hk
      rw [hkey2] at hk
      simp only [Option.map_some', Option.some.injEq] at hk
      have hlen2 : m2.flatten.length = init_data.lines * W := by
        rw [flatten_length_of_width W m2 h2w, h2r]
      obtain ⟨e, _⟩ := List.append_inj hk (by rw [hlen, hlen2])
      exact flatten_injective_of_width W _ _ (by rw [hrows, h2r]) h2w hwidth e
    · rintro rfl
      unfold flatten_map
      rw [hkey]
      rfl
  refine ⟨_, by unfold flatten_map; rw [hkey]; rfl, by rw [hkey]; rfl, ?_, rfl, ?_, ?_, ?_⟩
  · simp only [List.length_append, List.length_replicate, hlen]
    omega
  · intro i j hi hj
    have hlt : i * W + j < init_data.lines * W :=
      calc i * W + j < i * W + W := by omega
        _ = (i + 1) * W := by ring
        _ ≤ init_data.lines * W := Nat.mul_le_mul_right _ hi
    have hiW : i * W + j <
        (m.flatten ++
          List.replicate (init_data.num_chars_map - init_data.lines * W) 0).length := by
      simp only [List.length_append, List.length_replicate, hlen]
      omega
    have hi' : i < m.length := by rw [hrows]; exact hi
    have hj' : j < (m[i]).length := by rw [hwidth _ (List.getElem_mem hi')]; exact hj
    have hD := hcellD i j hi hj
    refine ⟨by omega, hD, ?_⟩
    rw [List.getD_eq_getElem _ _ hiW, List.getD_eq_getElem _ _ hi',
      List.getD_eq_getElem _ _ hj'] at hD
    rw [List.getElem?_eq_getElem hiW, List.getElem?_eq_getElem hi', Option.some_bind,
      List.getElem?_eq_getElem hj', hD]
  · intro k hk1 hk2
    rw [List.getElem?_append_right (by rw [hlen]; exact hk1), hlen]
    simp only [List.getElem?_replicate]
    rw [if_pos (by omega)]
  · intro m2 h2r h2w
    refine ⟨?_, hiff m2 h2r h2w⟩
    rw [hiff m2 h2r h2w]
    constructor
    · rintro rfl i j _ _
      rfl
    · intro hcell
      exact grid_ext_of_width W m2 m (by rw [h2r, hrows]) h2w hwidth
        (fun i j hi hj => hcell i j (by rw [← h2r]; exact hi) hj)

/-- C18, witness: a grid of two rows of width 2 in a buffer of 5 bytes. -/
theorem C18_flatten_row_major_witness :
    ∃ buf, flatten_map
        { map := [], lines := 2, num_chars_map := 5, player_x := 1, player_y := 1, soln := [] }
        (calloc 5) [[64, 46], [35, 36]] = some buf ∧
      buf = [64, 46, 35, 36, 0] :=
  let h := C18_flatten_row_major
    { map := [], lines := 2, num_chars_map := 5, player_x := 1, player_y := 1, soln := [] }
    2 [[64, 46], [35, 36]] rfl (by simp) (by decide)
  ⟨h.choose, h.choose_spec.1, h.choose_spec.2.2.2.1⟩

/-! ## Level order of the frontier and of the explored store -/

theorem run_state_of_state_after (ext : externals) (init_data : chessformer_t) :
    ∀ (k : Nat) (s : search_t), state_after ext init_data k = some s → run_state ext init_data s
  | 0, s, h => by
    simp only [state_after, Option.some.injEq] at h
    exact h ▸ run_state.init
  | k + 1, s, h => by
    simp only [state_after] at h
    cases hk : state_after ext init_data k with
    | none => simp [hk] at h
    | some t =>
      simp only [hk, Option.some_bind] at h
      by_cases hd : loop_done t = true
      · simp [hd] at h
      · simp only [hd, if_false, Bool.false_eq_true] at h
        exact run_state.step t s (run_state_of_state_after ext init_data k t hk)
          (by simpa using hd) h

theorem state_after_of_run_state (ext : externals) (init_data : chessformer_t) (s : search_t)
    (h : run_state ext init_data s) : ∃ k, state_after ext init_data k = some s := by
  induction h with
  | init => exact ⟨0, rfl⟩
  | step s s' _ hd hs ih =>
    obtain ⟨k, hk⟩ := ih
    exact ⟨k + 1, by simp [state_after, hk, hd, hs]⟩

/-- The explored array is in non-decreasing depth order at every iteration
boundary. -/
theorem explored_sorted_of_run_state (ext : externals) (init_data : chessformer_t)
    (s : search_t) (h : run_state ext init_data s) :
    s.exploredNodesArray.Pairwise (fun a b => a.depth ≤ b.depth) := by
  induction h with
  | init => simp [search_init]
  | step s s' hrun _ hs ih =>
    obtain ⟨d, hl⟩ := (level_inv_of_run_state ext init_data s hrun).1
    obtain ⟨g, t, hq, hE⟩ := explore_step_explored ext init_data s s' hs
    rw [hE, List.pairwise_append]
    refine ⟨ih, List.pairwise_singleton _ _, ?_⟩
    intro e he b hb
    rw [List.mem_singleton] at hb
    subst hb
    have hg := (hl.queue_ge b (by rw [hq]; exact List.mem_cons_self _ _)).1
    exact le_trans (hl.explored_le e he) hg

/-- C19: level order of the frontier. At every iteration boundary of the
search loop the depths in the queue are non-decreasing from head to tail and
the depth of the tail exceeds the depth of the head by at most 1; the explored
array, which lists the nodes in the order they were dequeued and goal-tested,
is in non-decreasing depth order; every node already goal-tested is at most as
deep as every node still in the queue, so no node one level deeper than a
queued node has been goal-tested; and the next iteration tests the head of the
queue, which is at least as deep as every node tested before. -/
theorem C19_level_order (ext : externals) (init_data : chessformer_t) (s : search_t)
    (hs : run_state ext init_data s) :
    s.queue.Pairwise (fun a b => a.depth ≤ b.depth) ∧
      (∀ hd tl, s.queue.head? = some hd → s.queue.getLast? = some tl →
        hd.depth ≤ tl.depth ∧ tl.depth ≤ hd.depth + 1) ∧
      s.exploredNodesArray.Pairwise (fun a b => a.depth ≤ b.depth) ∧
      (∀ e ∈ s.exploredNodesArray, ∀ q ∈ s.queue, e.depth ≤ q.depth) ∧
      (∀ e ∈ s.exploredNodesArray, ∀ q ∈ s.queue, e.depth ≠ q.depth + 1) ∧
      ∀ s', explore_step ext init_data s = some s' →
        ∃ g t, s.queue = g :: t ∧ s'.exploredNodesArray = s.exploredNodesArray ++ [g] ∧
          (∀ e ∈ s.exploredNodesArray, e.depth ≤ g.depth) ∧
          ∀ q ∈ s'.queue, g.depth ≤ q.depth ∧ q.depth ≤ g.depth + 1 := by
  obtain ⟨d, hl⟩ := (level_inv_of_run_state ext init_data s hs).1
  have hEQ : ∀ e ∈ s.exploredNodesArray, ∀ q ∈ s.queue, e.depth ≤ q.depth :=
    fun e he q hq => le_trans (hl.explored_le e he) (hl.queue_ge q hq).1
  refine ⟨hl.queue_sorted, ?_, explored_sorted_of_run_state ext init_data s hs, hEQ, ?_, ?_⟩
  · intro hd tl hhd htl
    have hmh : hd ∈ s.queue := List.mem_of_mem_head? hhd
    have hmt : tl ∈ s.queue := List.mem_of_getLast?_eq_some htl
    refine ⟨?_, by have := (hl.queue_ge hd hmh).1; have := (hl.queue_ge tl hmt).2; omega⟩
    cases hq : s.queue with
    | nil => rw [hq] at hmh; simp at hmh
    | cons g t =>
      rw [hq] at hhd hmt
      simp only [List.head?_cons, Option.some.injEq] at hhd
      subst hhd
      rcases List.mem_cons.mp hmt with rfl | hin
      · exact le_refl _
      · have hp := hl.queue_sorted
        rw [hq] at hp
        exact (List.pairwise_cons.mp hp).1 tl hin
  · intro e he q hq
    have := hEQ e he q hq
    omega
  · intro s' hstep
    obtain ⟨g, t, hq, hE⟩ := explore_step_explored ext init_data s s' hstep
    obtain ⟨g', t', hq', hl'⟩ := level_inv_step ext init_data d s s' hl hstep
    have hgg : g' = g := by
      rw [hq] at hq'
      exact (List.cons.inj hq').1.symm
    subst hgg
    exact ⟨g', t, hq, hE, fun e he => hEQ e he g' (by rw [hq]; exact List.mem_cons_self _ _),
      hl'.queue_ge⟩

/-- C19, witness: the walking executor on the 2 x 2 board after two
iterations: the queue holds depths 1, 2, 2 and the explored array depths
0, 1. -/
theorem C19_level_order_witness :
    ∃ s, state_after walk_ext square_board 2 = some s ∧
      s.queue.map node_t.depth = [1, 2, 2] ∧
      s.exploredNodesArray.map node_t.depth = [0, 1] ∧
      s.queue.Pairwise (fun a b => a.depth ≤ b.depth) ∧
      ∀ e ∈ s.exploredNodesArray, ∀ q ∈ s.queue, e.depth ≤ q.depth :=
  ⟨_, rfl, rfl, rfl,
    (C19_level_order walk_ext square_board _
      (run_state_of_state_after walk_ext square_board 2 _ rfl)).1,
    (C19_level_order walk_ext square_board _
      (run_state_of_state_after walk_ext square_board 2 _ rfl)).2.2.2.1⟩

/-! ## The explored store stays inside its allocation -/

theorem take_succ_set {α : Type} : ∀ (l : List α) (n : Nat) (x : α), n < l.length →
    (l.set n x).take (n + 1) = l.take n ++ [x]
  | [], n, x, h => by simp at h
  | a :: l, 0, x, _ => by simp
  | a :: l, n + 1, x, h => by
    simp only [List.set_cons_succ, List.take_succ_cons, List.cons_append, List.cons.injEq,
      true_and]
    exact take_succ_set l n x (by simpa using h)

/-- One dequeued node is recorded inside the allocation, provided the store
holds `capacity >= 1` slots of which at most `capacity` are in use. -/
theorem record_explored_ok (st : explored_store) (g : node_t) (hcap : 1 ≤ st.capacity)
    (hlen : st.exploredNodesArray.length = st.capacity)
    (hle : st.exploredNodes ≤ st.capacity) :
    ∃ st', record_explored st g = some st' ∧
      st'.exploredNodes = st.exploredNodes + 1 ∧
      st'.capacity =
        (if st.exploredNodes + 1 > st.capacity then st.capacity * 2 else st.capacity) ∧
      1 ≤ st'.capacity ∧
      st'.exploredNodesArray.length = st'.capacity ∧
      st'.exploredNodes ≤ st'.capacity ∧
      st'.exploredNodesArray.take st'.exploredNodes =
        st.exploredNodesArray.take st.exploredNodes ++ [some g] := by
  unfold record_explored
  by_cases hg : st.exploredNodes + 1 > st.capacity
  · have hn : st.exploredNodes = st.capacity := by omega
    have harr : realloc_array st.exploredNodesArray (st.capacity * 2) =
        st.exploredNodesArray ++ List.replicate st.capacity none := by
      unfold realloc_array
      rw [List.take_of_length_le (by omega), hlen]
      congr 2
      omega
    have hidx : st.exploredNodes <
        (st.exploredNodesArray ++ List.replicate st.capacity (none : Option node_t)).length := by
      simp only [List.length_append, List.length_replicate]
      omega
    simp only [hg, decide_True, if_true, harr, store_explored, Nat.add_sub_cancel, hidx,
      Option.map_some']
    refine ⟨_, rfl, rfl, rfl, ?_, ?_, ?_, ?_⟩
    · show 1 ≤ st.capacity * 2
      omega
    · show (List.set _ _ _).length = st.capacity * 2
      simp only [List.length_set, List.length_append, List.length_replicate]
      omega
    · show st.exploredNodes + 1 ≤ st.capacity * 2
      omega
    · show List.take (st.exploredNodes + 1) _ = _
      rw [take_succ_set _ _ _ hidx, List.take_append_of_le_length (by rw [hlen]; exact hle)]
  · have hidx : st.exploredNodes < st.exploredNodesArray.length := by omega
    simp only [hg, decide_False, if_false, Bool.false_eq_true, store_explored,
      Nat.add_sub_cancel, hidx, if_true, Option.map_some']
    refine ⟨_, rfl, rfl, rfl, hcap, ?_, ?_, ?_⟩
    · show (List.set _ _ _).length = st.capacity
      simp only [List.length_set]
      exact hlen
    · show st.exploredNodes + 1 ≤ st.capacity
      omega
    · show List.take (st.exploredNodes + 1) _ = _
      rw [take_succ_set _ _ _ hidx]

/-- The link between `search_t` and the allocated array: at every iteration
boundary the array built by the stores of the dequeued nodes exists, has the
counters of the search state, and its first `exploredNodes` slots are the
explored list. -/
theorem explored_store_of_run_state (ext : externals) (init_data : chessformer_t)
    (hcap : 1 ≤ ext.INITIAL_CAPACITY) (s : search_t) (h : run_state ext init_data s) :
    ∃ st, record_all ext s.exploredNodesArray = some st ∧
      st.exploredNodes = s.exploredNodes ∧ st.capacity = s.capacity ∧
      1 ≤ st.capacity ∧ st.exploredNodesArray.length = st.capacity ∧
      st.exploredNodes ≤ st.capacity ∧
      st.exploredNodes = s.exploredNodesArray.length ∧
      st.exploredNodesArray.take st.exploredNodes = s.exploredNodesArray.map some := by
  induction h with
  | init =>
    refine ⟨explored_store_init ext, rfl, rfl, rfl, hcap, ?_, Nat.zero_le _, rfl, rfl⟩
    simp [explored_store_init, malloc_array]
  | step s s' _ _ hs ih =>
    obtain ⟨st, hrec, hn, hc, h1, hlen, hle, hcount, htake⟩ := ih
    obtain ⟨g, t, hq, hcase⟩ := explore_step_cases ext init_data s s' hs
    have hfields := explore_step_counters ext init_data s s' g t hq hs
    obtain ⟨hE, hN, hC⟩ := hfields
    obtain ⟨st', hrec', hn', hc', h1', hlen', hle', htake'⟩ :=
      record_explored_ok st g h1 hlen hle
    refine ⟨st', ?_, ?_, ?_, h1', hlen', hle', ?_, ?_⟩
    · unfold record_all at hrec ⊢
      rw [hE, List.foldlM_append, hrec]
      simpa using hrec'
    · rw [hn', hN, hn]
    · rw [hc', hC, hn, hc]
    · rw [hn', hE, hcount]
      simp
    · rw [htake', htake, hE]
      simp

/-- C20: explored-store indexing is in bounds. With `INITIAL_CAPACITY >= 1`, at
every iteration boundary `exploredNodes <= capacity`, the allocated array has
`capacity` slots and its first `exploredNodes` slots hold the explored nodes
in order; in every iteration the index `exploredNodes - 1` of the store is
below the capacity in force (doubled when the incremented counter exceeds
it), the store on the allocated array is defined and writes the dequeued
node into that slot, leaving the earlier slots as they were. -/
theorem C20_explored_store_in_bounds (ext : externals) (init_data : chessformer_t)
    (hcap : 1 ≤ ext.INITIAL_CAPACITY) (s : search_t) (hs : run_state ext init_data s) :
    s.exploredNodes ≤ s.capacity ∧ 1 ≤ s.capacity ∧
      s.exploredNodes = s.exploredNodesArray.length ∧
      (∃ st, record_all ext s.exploredNodesArray = some st ∧
        st.exploredNodes = s.exploredNodes ∧ st.capacity = s.capacity ∧
        st.exploredNodesArray.length = s.capacity ∧
        st.exploredNodesArray.take s.exploredNodes = s.exploredNodesArray.map some ∧
        ∀ i, i < s.exploredNodes →
          st.exploredNodesArray[i]? = some (s.exploredNodesArray[i]?)) ∧
      ∀ s', explore_step ext init_data s = some s' →
        ∃ g t, s.queue = g :: t ∧
          s'.exploredNodes = s.exploredNodes + 1 ∧
          s'.capacity =
            (if s.exploredNodes + 1 > s.capacity then s.capacity * 2 else s.capacity) ∧
          s'.exploredNodes - 1 < s'.capacity ∧
          s'.exploredNodesArray = s.exploredNodesArray ++ [g] ∧
          s'.exploredNodesArray[s'.exploredNodes - 1]? = some g ∧
          ∃ st st', record_all ext s.exploredNodesArray = some st ∧
            record_explored st g = some st' ∧
            record_all ext s'.exploredNodesArray = some st' ∧
            s'.exploredNodes - 1 < st'.exploredNodesArray.length ∧
            st'.exploredNodesArray[s'.exploredNodes - 1]? = some (some g) := by
  obtain ⟨st, hrec, hn, hc, h1, hlen, hle, hcount, htake⟩ :=
    explored_store_of_run_state ext init_data hcap s hs
  refine ⟨by rw [← hn, ← hc]; exact hle, by rw [← hc]; exact h1, by rw [← hn]; exact hcount,
    ⟨st, hrec, hn, hc, by rw [hlen, hc], by rw [← hn]; exact htake, ?_⟩, ?_⟩
  · intro i hi
    have hi' : i < st.exploredNodes := by rw [hn]; exact hi
    have h1 : (st.exploredNodesArray.take st.exploredNodes)[i]? = st.exploredNodesArray[i]? :=
      List.getElem?_take_of_lt hi'
    rw [← h1, htake, List.getElem?_map]
    have hlt : i < s.exploredNodesArray.length := by rw [← hcount]; exact hi'
    rw [List.getElem?_eq_getElem hlt]
    rfl
  · intro s' hstep
    obtain ⟨g, t, hq, _⟩ := explore_step_explored ext init_data s s' hstep
    obtain ⟨hE, hN, hC⟩ := explore_step_counters ext init_data s s' g t hq hstep
    obtain ⟨st', hrec', hn', hc', h1', hlen', hle', htake'⟩ :=
      record_explored_ok st g h1 hlen hle
    have hcap' : s'.capacity = st'.capacity := by rw [hc', hC, hn, hc]
    have hcnt' : s'.exploredNodes = st'.exploredNodes := by rw [hn', hN, hn]
    have hidx : s'.exploredNodes - 1 = s.exploredNodesArray.length := by
      rw [hN, Nat.add_sub_cancel, ← hn, hcount]
    have hall : record_all ext s'.exploredNodesArray = some st' := by
      unfold record_all at hrec ⊢
      rw [hE, List.foldlM_append, hrec]
      simpa using hrec'
    have hslot : st'.exploredNodesArray[s'.exploredNodes - 1]? = some (some g) := by
      have hlt : s'.exploredNodes - 1 < st'.exploredNodes := by rw [← hcnt', hN]; omega
      have h2 : (st'.exploredNodesArray.take st'.exploredNodes)[s'.exploredNodes - 1]? =
          st'.exploredNodesArray[s'.exploredNodes - 1]? := List.getElem?_take_of_lt hlt
      rw [← h2, htake', htake, hidx]
      simp
    refine ⟨g, t, hq, hN, hC, ?_, hE, ?_, st, st', hrec, hrec', hall, ?_, hslot⟩
    · rw [hcap', hcnt', hn']
      omega
    · rw [hE, hidx]
      simp
    · rw [hlen', hcnt', hn']
      omega

/-- C20, witness: the walking executor on the board `@..$` with
`INITIAL_CAPACITY = 2`: five nodes are explored, the capacity has doubled
twice, and the allocated array of 8 slots holds the five nodes in its first
slots. -/
theorem C20_explored_store_in_bounds_witness :
    1 ≤ walk_ext.INITIAL_CAPACITY ∧
      ∃ r, find_solution_search walk_ext corridor_board 6 = some r ∧
        r.exploredNodes = 5 ∧ r.capacity = 8 ∧ r.exploredNodes ≤ r.capacity ∧
        ∃ st, record_all walk_ext r.exploredNodesArray = some st ∧
          st.exploredNodes = r.exploredNodes ∧ st.capacity = r.capacity ∧
          st.exploredNodesArray.length = r.capacity ∧
          st.exploredNodesArray.take r.exploredNodes = r.exploredNodesArray.map some ∧
          ∀ i, i < r.exploredNodes →
            st.exploredNodesArray[i]? = some (r.exploredNodesArray[i]?) :=
  ⟨by decide, _, rfl, rfl, rfl,
    (C20_explored_store_in_bounds walk_ext corridor_board (by decide) _
      (run_state_of_search walk_ext corridor_board 6 _ rfl).1).1,
    (C20_explored_store_in_bounds walk_ext corridor_board (by decide) _
      (run_state_of_search walk_ext corridor_board 6 _ rfl).1).2.2.2.1⟩

/-- Without a slot to start from the first store is outside the allocation:
doubling a capacity of 0 leaves it 0. -/
theorem record_all_zero_capacity (ext : externals) (h : ext.INITIAL_CAPACITY = 0) (g : node_t) :
    record_all ext [g] = none := by
  simp [record_all, record_explored, explored_store_init, malloc_array, realloc_array,
    store_explored, h]

/-- With `INITIAL_CAPACITY = 0` the first iteration stores the root outside the
allocation, so `find_solution` has no defined result, whatever the board, the
executor and the fuel. -/
theorem find_solution_zero_capacity (ext : externals) (init_data : chessformer_t)
    (h : ext.INITIAL_CAPACITY = 0) (fopen_ok : Bool) (fuel : Nat) :
    find_solution ext init_data fopen_ok fuel = none := by
  have hstep : explore_step ext init_data (search_init ext init_data) = none := by
    simp [explore_step, search_init, enqueue, dequeue, h]
  have hd : loop_done (search_init ext init_data) = false := rfl
  have hloop : find_solution_search ext init_data fuel = none := by
    unfold find_solution_search
    cases fuel with
    | zero => simp [bfs_loop, hd]
    | succ n => simp [bfs_loop, hd, hstep]
  simp [find_solution, hloop]
